import Mathlib

/-!
Verification development for the cryptoscope-fe repository.

Shallow embedding of the client-side reconciliation and presentation
logic: severity canonicalization and finding filters
(src/app/findings/page.tsx), the files-collection fallback and the two
tree builders (src/app/analyzer/page.tsx and the unnamed editor page),
and the SSE streaming-progress reconcilers of the analyzer page.

Conventions used throughout the embedding:
- TypeScript optional fields become `Option` fields.
- JavaScript falsy-string defaulting (`a || b` on strings) is `jsOr`:
  both `undefined` and the empty string fall through to the default.
- `String.toLowerCase()` is modelled as a per-character lowercase map
  (`jsToLower`), which agrees with the JS behaviour on the ASCII label
  alphabet the code classifies, and computes inside the kernel.
- JavaScript `Set` values are modelled as lists; only emptiness
  (`s.size`) and membership (`s.has`) are used by the code.
- JavaScript numbers occurring in progress arithmetic are modelled as
  rationals; `Math.round x` is `round x` (both are floor (x + 1/2)),
  `Math.min` is `min`.
-/

namespace Cryptoscope

/-! ### Data model: findings (src/app/findings/page.tsx, type Finding) -/

structure Finding where
  id : Option String := none
  ruleId : Option String := none
  category : Option String := none
  severity : Option String := none
  description : Option String := none
  recommendation : Option String := none
  line : Option Int := none
  column : Option Int := none
  matchText : Option String := none  -- source field name: match
  rankedSeverity : Option String := none
deriving Repr, DecidableEq

/-- JS `a || b` for an optional string `a`: `undefined` and `""` are falsy. -/
def jsOr (a : Option String) (b : String) : String :=
  match a with
  | some s => if s = "" then b else s
  | none => b

/-- `s.toLowerCase()` as a per-character lowercase map. -/
def jsToLower (s : String) : String :=
  String.mk (s.data.map Char.toLower)

/-- The raw severity label used by `canonicalSeverity`:
`(finding.rankedSeverity || finding.severity || "info").toLowerCase()`. -/
def rawSeverityLabel (f : Finding) : String :=
  jsToLower (jsOr f.rankedSeverity (jsOr f.severity "info"))

/-- The bucket classification applied to the lowercased raw label
(the if/else chain of `canonicalSeverity`, findings page lines 204-207). -/
def severityBucket (raw : String) : String :=
  if raw = "critical" ∨ raw = "error" ∨ raw = "high" then "high"
  else if raw = "warning" ∨ raw = "medium" then "medium"
  else if raw = "info" ∨ raw = "informational" then "info"
  else "low"

/-- `canonicalSeverity` (findings page lines 202-208). -/
def canonicalSeverity (f : Finding) : String :=
  severityBucket (rawSeverityLabel f)

/-! ### Data model: scan files and filters (src/app/findings/page.tsx) -/

structure ScanFile where
  path : String
  language : Option String := none
  findings : List Finding
deriving Repr, DecidableEq

/-- The filter state of the findings page:
`{ severity: Set<string>; category: Set<string>; cryptoOnly: boolean }`.
Sets are modelled as lists; the code only tests `.size` and `.has`. -/
structure FilterSpec where
  severity : List String
  category : List String
  cryptoOnly : Bool
deriving Repr, DecidableEq

/-- The category key of a finding: `(fi.category || 'other').toLowerCase()`. -/
def categoryKey (fi : Finding) : String :=
  jsToLower (jsOr fi.category "other")

/-- The file-level filter predicate (body of the `filteredFiles` memo,
findings page lines 712-721).  The source names `(f.findings || []).length > 0`
as `hasFindings`; `findings` is a required list, so `|| []` is the identity.
`Set.has` is decidable membership. -/
def filePasses (filters : FilterSpec) (f : ScanFile) : Bool :=
  if filters.cryptoOnly && !(f.findings.length > 0 : Bool) then false
  else if filters.severity.isEmpty && filters.category.isEmpty then true
  else f.findings.any fun fi =>
    (filters.severity.isEmpty || decide (canonicalSeverity fi ∈ filters.severity)) &&
    (filters.category.isEmpty || decide (categoryKey fi ∈ filters.category))

/-- `filteredFiles` (findings page lines 709-722). -/
def filteredFiles (files : List ScanFile) (filters : FilterSpec) : List ScanFile :=
  files.filter (filePasses filters)

/-- A concrete file with a single low-severity finding. -/
def lowFindingFile : ScanFile :=
  { path := "c.go", language := some "go",
    findings := [{ severity := some "low", category := some "hash" }] }

/-! ### Data model: analysis results (src/app/analyzer/page.tsx lines 16-34,
identical in the unnamed editor page) -/

structure CryptoFunction where
  name : Option String := none
  line_start : Option Int := none
  content : Option String := none
  type : Option String := none
deriving Repr, DecidableEq

structure CryptoSnippet where
  name : Option String := none
  line_start : Option Int := none
  code : Option String := none
  type : Option String := none
deriving Repr, DecidableEq

structure BasicCryptoAnalysis where
  file_path : String
  file_name : String := ""
  file_extension : String := ""
  has_crypto : Bool := false
  crypto_imports : Option (List String) := none
  crypto_functions : Option (List CryptoFunction) := none
  crypto_patterns_found : Option (List String) := none
  code_snippets : Option (List CryptoSnippet) := none
deriving Repr, DecidableEq

/-- `GeminiReview`; the untyped `crypto_summary` field is not read by the
embedded logic and is omitted. -/
structure GeminiReview where
  original_analysis : Option BasicCryptoAnalysis := none
  gemini_analysis : Option String := none
deriving Repr, DecidableEq

/-- `RepoMeta`; only the `id`/`versionId` fields are read by the embedded
logic (the type also allows arbitrary extra keys). -/
structure RepoMeta where
  id : Option String := none
  versionId : Option String := none
deriving Repr, DecidableEq

structure AnalysisResult where
  status : Option String := none
  total_files : Option Int := none
  crypto_files_found : Option Int := none
  message : Option String := none
  basic_analysis : Option (List BasicCryptoAnalysis) := none
  detailed_reviews : Option (List GeminiReview) := none
  versionId : Option String := none
  repo : Option RepoMeta := none
deriving Repr, DecidableEq

/-- The `analysis` value of a files-collection entry.  In the source it is
`review.original_analysis || (review as unknown as BasicCryptoAnalysis)`:
either the attached original analysis, or the review object itself
reinterpreted as an analysis (an untyped cast). -/
inductive ReviewAnalysis where
  | fromOriginal (a : BasicCryptoAnalysis)
  | castReview (r : GeminiReview)
deriving Repr, DecidableEq

structure FilesCollectionEntry where
  analysis : ReviewAnalysis
  review : Option GeminiReview := none
deriving Repr, DecidableEq

/-- JS `Boolean(entry.analysis)`: both branches of
`review.original_analysis || review` are objects, hence always truthy. -/
def analysisTruthy : ReviewAnalysis → Bool := fun _ => true

/-- JS truthiness of `xs?.length` for an optional array. -/
def truthyLen {α : Type} (o : Option (List α)) : Bool :=
  match o with
  | some l => l.length != 0
  | none => false

/-- `getFilesCollection` (analyzer page lines 72-77; same logic in the
unnamed editor page lines 64-75). -/
def getFilesCollection (result : Option AnalysisResult) : List FilesCollectionEntry :=
  match result with
  | none => []
  | some r =>
    if truthyLen r.detailed_reviews then
      ((r.detailed_reviews.getD []).map fun rev =>
        { analysis := match rev.original_analysis with
                      | some a => ReviewAnalysis.fromOriginal a
                      | none => ReviewAnalysis.castReview rev,
          review := some rev }).filter fun e => analysisTruthy e.analysis
    else if truthyLen r.basic_analysis then
      (r.basic_analysis.getD []).map fun a =>
        { analysis := ReviewAnalysis.fromOriginal a, review := none }
    else []

/-- The shape a detailed-reviews entry takes in the collection. -/
def detailedEntry (rev : GeminiReview) : FilesCollectionEntry :=
  { analysis := match rev.original_analysis with
                | some a => ReviewAnalysis.fromOriginal a
                | none => ReviewAnalysis.castReview rev,
    review := some rev }

/-- The shape a basic-analysis entry takes in the collection. -/
def basicEntry (a : BasicCryptoAnalysis) : FilesCollectionEntry :=
  { analysis := ReviewAnalysis.fromOriginal a, review := none }

/-! ### Data model: directory entries (src/app/analyzer/page.tsx line 13) -/

inductive NodeType where
  | folder
  | file
deriving Repr, DecidableEq

structure DirectoryEntry where
  type : NodeType
  name : String
  path : String
  level : Nat
  supported : Option Bool := none
deriving Repr, DecidableEq

/-- Character-level split on `'/'` (JS `p.split('/')`), written so that
it computes inside the kernel. -/
def splitSlashAux : List Char → List Char → List String
  | acc, [] => [String.mk acc.reverse]
  | acc, c :: rest =>
      if c = '/' then String.mk acc.reverse :: splitSlashAux [] rest
      else splitSlashAux (c :: acc) rest

/-- JS `p.split('/').filter(Boolean)`: slash-split with empty segments
discarded. -/
def segmentsOf (p : String) : List String :=
  (splitSlashAux [] p.data).filter (fun seg => seg ≠ "")

/-- JS `agg = agg ? agg + '/' + seg : seg`. -/
def joinAgg (agg seg : String) : String :=
  if agg = "" then seg else agg ++ "/" ++ seg

/-- The per-path entry decomposition of the git `done`/`cached` handlers
(analyzer page lines 559 and 573): each segment becomes an entry whose
level is its index, the last segment a file, the others folders. -/
def entriesAux (agg : String) (lvl : Nat) : List String → List DirectoryEntry
  | [] => []
  | [seg] => [{ type := NodeType.file, name := seg, path := joinAgg agg seg,
                level := lvl, supported := some true }]
  | seg :: rest@(_ :: _) =>
      { type := NodeType.folder, name := seg, path := joinAgg agg seg,
        level := lvl, supported := some true } :: entriesAux (joinAgg agg seg) (lvl + 1) rest

/-- Entries for one path string. -/
def pathToEntries (p : String) : List DirectoryEntry :=
  entriesAux "" 0 (segmentsOf p)

/-- `paths.forEach(p => { ... entries.push(...) ... })` over the whole
path list (analyzer page lines 558-560 and 572-574). -/
def pathsToEntries (paths : List String) : List DirectoryEntry :=
  paths.flatMap pathToEntries

/-- The file path read off a collection entry by
`getFilesCollection(data).map(f => f.analysis.file_path)`.  When the
`analysis` is the review object itself (untyped cast), the JS value is
`undefined`, which makes the subsequent `p.split('/')` throw; that is
modelled as `none`. -/
def analysisFilePath : ReviewAnalysis → Option String
  | ReviewAnalysis.fromOriginal a => some a.file_path
  | ReviewAnalysis.castReview _ => none

/-- The path list drawn from a result in the git `done`/`cached`
handlers; `none` models the handler throwing (and being caught) when an
entry has no `file_path`. -/
def pathsOfCollection (data : AnalysisResult) : Option (List String) :=
  (getFilesCollection (some data)).mapM fun e => analysisFilePath e.analysis

/-! ### Data model: the streaming progress reconciler
(src/app/analyzer/page.tsx, `onAnalyzeLocal` lines 284-465 and
`onAnalyzeGit` lines 466-601)

The two SSE reconcilers are embedded as step functions over an explicit
state.  Each stream listener becomes one event case; a JSON payload that
fails to parse is `none`.  The three timer callbacks in scope (the
15-minute inactivity warning, the 500 ms display delay scheduled by
`finalize(data)`, and the 1000 ms reset scheduled by `stopProgress`)
are delivered as events; the latter two only act when their callback is
actually pending. -/

inductive Mode where
  | localDir  -- source literal: 'local'
  | upload
  | git
  | stored
deriving Repr, DecidableEq

/-- `EventSource.readyState` at the time an error event fires. -/
inductive ReadyState where
  | connecting
  | opened
  | closed
deriving Repr, DecidableEq

/-- A payload carrying only an optional `message` field. -/
structure MsgPayload where
  message : Option String := none
deriving Repr, DecidableEq

structure StartPayload where
  total : Option ℚ := none
deriving Repr, DecidableEq

structure ScanPayload where
  done : Option ℚ := none
  total : Option ℚ := none
deriving Repr, DecidableEq

/-- `Number(x || 0)` for an optional numeric field (NaN not modelled). -/
def numOr0 (o : Option ℚ) : ℚ := o.getD 0

inductive SseEvent where
  | openEv                                -- es.onopen / 'open' listener
  | message                               -- es.onmessage (generic)
  | cloning (d : Option MsgPayload)
  | collecting (d : Option MsgPayload)
  | startEv (d : Option StartPayload)
  | scanning (d : Option ScanPayload)
  | indexing (d : Option MsgPayload)
  | enriching (d : Option MsgPayload)
  | cached (d : Option AnalysisResult)
  | doneEv (d : Option AnalysisResult)
  | ping
  | errorEv (ready : ReadyState)
  | inactivityFired                       -- 15-min safety timer callback
  | navDelayFired                         -- 500 ms display-delay callback
  | resetFired                            -- 1000 ms stopProgress reset
deriving Repr, DecidableEq

/-- The reconciler-relevant component state plus the closure-local
`finished` flag, the stream-closed flag, and the pending timer
callbacks.  `navigated = some t` records `router.push` to the findings
view keyed by version `t` (`none` inside = plain `/findings`). -/
structure AnalyzerState where
  loading : Bool
  activeJob : Option Mode
  progressPct : Int
  progressMsg : String
  analysisResult : Option AnalysisResult
  treeEntries : List DirectoryEntry
  finished : Bool
  esClosed : Bool
  pendingNav : Option (Option String)
  navigated : Option (Option String)
  pendingReset : Bool
deriving Repr, DecidableEq

/-- `stopProgress` (analyzer page lines 259-267): clear the interval,
set percent to 100, and schedule the 1000 ms reset to 0. -/
def stopProgress (s : AnalyzerState) : AnalyzerState :=
  { s with progressPct := 100, pendingReset := true }

/-- JS `x || null` on an optional string. -/
def jsOrNull (o : Option String) : Option String :=
  match o with
  | some s => if s = "" then none else some s
  | none => none

/-- `data?.versionId || null` (local finalize, line 336). -/
def localNavTarget (d : AnalysisResult) : Option String :=
  jsOrNull d.versionId

/-- `data?.repo?.versionId || data?.versionId || null` (git finalize,
line 515). -/
def gitNavTarget (d : AnalysisResult) : Option String :=
  match jsOrNull (d.repo.bind RepoMeta.versionId) with
  | some v => some v
  | none => jsOrNull d.versionId

/-- `finalize(data?)` common to both reconcilers (local lines 322-346,
git lines 501-525): guarded by `finished`; closes the stream, clears
loading/activeJob; with a payload sets the completion message and
percent 100 and schedules the delayed navigation, without one calls
`stopProgress` immediately. -/
def finalizeStep (nav : AnalysisResult → Option String)
    (s : AnalyzerState) (payload : Option AnalysisResult) : AnalyzerState :=
  if s.finished then s
  else
    let s1 := { s with finished := true, esClosed := true,
                       loading := false, activeJob := none }
    match payload with
    | some d => { s1 with progressMsg := "analysis complete!", progressPct := 100,
                          pendingNav := some (nav d) }
    | none => stopProgress s1

/-- The 500 ms display-delay callback scheduled by `finalize(data)`:
`stopProgress()` then `router.push` to the target view. -/
def navDelayStep (s : AnalyzerState) : AnalyzerState :=
  match s.pendingNav with
  | some target => { stopProgress s with pendingNav := none, navigated := some target }
  | none => s

/-- The 1000 ms reset callback scheduled by `stopProgress`. -/
def resetStep (s : AnalyzerState) : AnalyzerState :=
  if s.pendingReset then
    { s with progressPct := 0, progressMsg := "initializing...", pendingReset := false }
  else s

/-- The `scanning` percent of the local reconciler (line 406):
`total > 0 ? Math.min(90, 10 + Math.round((done/total)*75)) : 15`. -/
def localScanPct (done total : ℚ) : Int :=
  if total > 0 then min 90 (10 + round (done / total * 75)) else 15

/-- The `scanning` percent of the git reconciler (line 540):
`total > 0 ? Math.min(90, Math.round((done/total)*90)) : 10`. -/
def gitScanPct (done total : ℚ) : Int :=
  if total > 0 then min 90 (round (done / total * 90)) else 10

/-- One step of the local-path reconciler `onAnalyzeLocal`
(lines 284-465).  The local variant registers no `cloning` or `cached`
listener, so those named SSE events change nothing. -/
def localStep (s : AnalyzerState) (e : SseEvent) : AnalyzerState :=
  match e with
  | SseEvent.openEv => { s with progressMsg := "connected...", progressPct := 2 }
  | SseEvent.message => s
  | SseEvent.cloning _ => s
  | SseEvent.collecting d =>
      match d with
      | some p => { s with progressMsg := jsOr p.message "collecting files…", progressPct := 5 }
      | none => s
  | SseEvent.startEv d =>
      match d with
      | some p => { s with progressMsg := "scanning " ++ toString (numOr0 p.total) ++ " files",
                           progressPct := 10 }
      | none => s
  | SseEvent.scanning d =>
      match d with
      | some p =>
          let done := numOr0 p.done
          let total := numOr0 p.total
          { s with progressPct := localScanPct done total,
                   progressMsg := "scanning files: " ++ toString done ++ "/" ++ toString total }
      | none => s
  | SseEvent.indexing d =>
      match d with
      | some p => { s with progressMsg := jsOr p.message "indexing…" }
      | none => s
  | SseEvent.enriching d =>
      match d with
      | some p => { s with progressMsg := jsOr p.message "enriching findings…", progressPct := 92 }
      | none => s
  | SseEvent.cached _ => s
  | SseEvent.doneEv d =>
      if s.finished then s
      else
        match d with
        | some data => finalizeStep localNavTarget { s with analysisResult := some data } (some data)
        | none => finalizeStep localNavTarget s none
  | SseEvent.ping => s
  | SseEvent.errorEv ready =>
      if s.finished then s
      else
        match ready with
        | ReadyState.closed => finalizeStep localNavTarget s none
        | ReadyState.connecting => { s with progressMsg := "reconnecting..." }
        | ReadyState.opened => s
  | SseEvent.inactivityFired =>
      if s.finished then s else { s with progressMsg := "still working..." }
  | SseEvent.navDelayFired => navDelayStep s
  | SseEvent.resetFired => resetStep s

/-- One step of the git-URL reconciler `onAnalyzeGit` (lines 466-601).
On a parse failure the message handlers fall back to their default
message (unlike the local variant, which ignores the event); the
`cached` handler's catch only logs, so a malformed `cached` payload (or
a collection entry without a `file_path`, which throws mid-handler)
does not finalize, while the `done` handler's catch finalizes without
payload. -/
def gitStep (s : AnalyzerState) (e : SseEvent) : AnalyzerState :=
  match e with
  | SseEvent.openEv => s
  | SseEvent.message => s
  | SseEvent.cloning d =>
      match d with
      | some p => { s with progressMsg := jsOr p.message "cloning…" }
      | none => { s with progressMsg := "cloning…" }
  | SseEvent.collecting d =>
      match d with
      | some p => { s with progressMsg := jsOr p.message "collecting files…" }
      | none => { s with progressMsg := "collecting files…" }
  | SseEvent.startEv d =>
      match d with
      | some p => { s with progressMsg := "scanning " ++ toString (numOr0 p.total) ++ " files" }
      | none => { s with progressMsg := "scanning files..." }
  | SseEvent.scanning d =>
      match d with
      | some p =>
          let done := numOr0 p.done
          let total := numOr0 p.total
          { s with progressPct := gitScanPct done total,
                   progressMsg := "scanning files: " ++ toString done ++ "/" ++ toString total }
      | none => s
  | SseEvent.indexing d =>
      match d with
      | some p => { s with progressMsg := jsOr p.message "indexing…" }
      | none => { s with progressMsg := "indexing…" }
  | SseEvent.enriching d =>
      match d with
      | some p => { s with progressMsg := jsOr p.message "enriching findings…" }
      | none => { s with progressMsg := "enriching findings…" }
  | SseEvent.cached d =>
      if s.finished then s
      else
        match d with
        | none => s
        | some data =>
            let s1 := { s with analysisResult := some data }
            match pathsOfCollection data with
            | some paths =>
                finalizeStep gitNavTarget
                  { s1 with treeEntries := pathsToEntries paths } (some data)
            | none => s1
  | SseEvent.doneEv d =>
      if s.finished then s
      else
        match d with
        | none => finalizeStep gitNavTarget s none
        | some data =>
            let s1 := { s with analysisResult := some data }
            match pathsOfCollection data with
            | some paths =>
                finalizeStep gitNavTarget
                  { s1 with treeEntries := pathsToEntries paths } (some data)
            | none => finalizeStep gitNavTarget s1 none
  | SseEvent.ping => s
  | SseEvent.errorEv ready =>
      if s.finished then s
      else
        match ready with
        | ReadyState.closed => finalizeStep gitNavTarget s none
        | _ => s
  | SseEvent.inactivityFired =>
      if s.finished then s else { s with progressMsg := "still working..." }
  | SseEvent.navDelayFired => navDelayStep s
  | SseEvent.resetFired => resetStep s

/-- State right after `onAnalyzeLocal` starts its stream
(lines 297-300). -/
def initLocal : AnalyzerState :=
  { loading := true, activeJob := some Mode.localDir, progressPct := 1,
    progressMsg := "initializing...", analysisResult := none, treeEntries := [],
    finished := false, esClosed := false, pendingNav := none, navigated := none,
    pendingReset := false }

/-- State right after `onAnalyzeGit` starts its stream (lines 479-482). -/
def initGit : AnalyzerState :=
  { loading := true, activeJob := some Mode.git, progressPct := 1,
    progressMsg := "connecting...", analysisResult := none, treeEntries := [],
    finished := false, esClosed := false, pendingNav := none, navigated := none,
    pendingReset := false }

/-- Run a reconciler over a sequence of delivered events. -/
def runEvents (step : AnalyzerState → SseEvent → AnalyzerState)
    (s : AnalyzerState) (evs : List SseEvent) : AnalyzerState :=
  evs.foldl step s

/-- How many steps of the trace enter finalize (flip `finished` from
false to true). -/
def finCount (step : AnalyzerState → SseEvent → AnalyzerState) :
    AnalyzerState → List SseEvent → Nat
  | _, [] => 0
  | s, e :: rest =>
      (if s.finished = false ∧ (step s e).finished = true then 1 else 0) +
        finCount step (step s e) rest

/-- Events that can enter finalize: a `done` event, a successfully
parsed `cached` event (git), or an `error` with the connection closed. -/
def isTerminalEvent : SseEvent → Bool
  | SseEvent.doneEv _ => true
  | SseEvent.cached _ => true
  | SseEvent.errorEv ReadyState.closed => true
  | _ => false

/-- Whether an event is a terminal `done` event. -/
def isDoneEvent : SseEvent → Bool
  | SseEvent.doneEv _ => true
  | _ => false

/-- Invariant tying the displayed percent to finalization: either the
operation has finished, or the displayed percent is not 100 and no
delayed navigation is pending. -/
def pctInvariant (s : AnalyzerState) : Prop :=
  s.finished = true ∨ (s.progressPct ≠ 100 ∧ s.pendingNav = none)

/-! ### Data model: tree nodes and the two tree builders

`buildTree` (analyzer page lines 36-70) and `buildTreeFromEntries` (the
unnamed editor page lines 77-98) mutate a forest in place through a
stack of open-ancestor references; every mutation in those loops
happens either at the root array or inside the children array of the
current stack top, and the stack is always a root-to-focus ancestor
chain.  They are therefore embedded as zipper machines: `BTState.cur`
is the children list of the deepest open folder (or the root list),
and each `BTFrame` records an open folder together with its left
(reversed) and right siblings.  Popping a frame reassembles the folder
node in place. -/

inductive TreeNode where
  | mk (name : String) (path : String) (ty : NodeType) (level : Nat)
       (supported : Option Bool) (children : Option (List TreeNode))
deriving Repr

def TreeNode.name : TreeNode → String
  | TreeNode.mk n _ _ _ _ _ => n

def TreeNode.path : TreeNode → String
  | TreeNode.mk _ p _ _ _ _ => p

def TreeNode.ty : TreeNode → NodeType
  | TreeNode.mk _ _ t _ _ _ => t

def TreeNode.level : TreeNode → Nat
  | TreeNode.mk _ _ _ l _ _ => l

def TreeNode.supported : TreeNode → Option Bool
  | TreeNode.mk _ _ _ _ s _ => s

def TreeNode.children : TreeNode → Option (List TreeNode)
  | TreeNode.mk _ _ _ _ _ c => c

/-- The node built for an entry (analyzer page lines 48-55):
`children: entry.type === 'folder' ? [] : undefined`. -/
def nodeOfEntry (e : DirectoryEntry) : TreeNode :=
  TreeNode.mk e.name e.path e.type e.level e.supported
    (if e.type = NodeType.folder then some [] else none)

/-- One open folder on the builder stack: its data plus its left
(reversed) and right siblings in the enclosing children list. -/
structure BTFrame where
  beforeRev : List TreeNode
  after : List TreeNode
  name : String
  path : String
  level : Nat
  supported : Option Bool
deriving Repr

structure BTState where
  frames : List BTFrame   -- head is the deepest open folder
  cur : List TreeNode     -- children being built of the deepest open folder
deriving Repr

/-- Reassemble an open folder with its (now final) children.  A folder
node always carries a `children` array in the source (created as `[]`,
possibly extended in place), so the result has `some` children. -/
def closeFrame (f : BTFrame) (children : List TreeNode) : TreeNode :=
  TreeNode.mk f.name f.path NodeType.folder f.level f.supported (some children)

def popAllAux : List BTFrame → List TreeNode → List TreeNode
  | [], cur => cur
  | f :: rest, cur => popAllAux rest (f.beforeRev.reverse ++ closeFrame f cur :: f.after)

/-- The forest with every open folder closed — the `tree` array the JS
loop returns (its stack only holds aliases into it). -/
def finishState (s : BTState) : List TreeNode := popAllAux s.frames s.cur

/-- `while (stack.length && stack[stack.length-1].level >= entry.level)
stack.pop()`. -/
def popWhileAux (lvl : Nat) : List BTFrame → List TreeNode → BTState
  | [], cur => ⟨[], cur⟩
  | f :: rest, cur =>
      if lvl ≤ f.level then
        popWhileAux lvl rest (f.beforeRev.reverse ++ closeFrame f cur :: f.after)
      else ⟨f :: rest, cur⟩

/-- `arr.find(n => n.path === node.path && n.type === node.type)`,
returning the first match with its left and right context. -/
def splitAtKey (path : String) (ty : NodeType) :
    List TreeNode → Option (List TreeNode × TreeNode × List TreeNode)
  | [] => none
  | n :: rest =>
      if n.path = path ∧ n.ty = ty then some ([], n, rest)
      else
        match splitAtKey path ty rest with
        | some (before, x, after) => some (n :: before, x, after)
        | none => none

/-- One iteration of the analyzer `buildTree` loop (lines 47-68): pop
non-ancestors, then `addUnique` the entry's node into the focused
children list; a folder (fresh or reused) becomes the new focus. -/
def buildStep (s : BTState) (e : DirectoryEntry) : BTState :=
  let s1 := popWhileAux e.level s.frames s.cur
  match splitAtKey e.path e.type s1.cur with
  | some (before, x, after) =>
      if e.type = NodeType.folder then
        ⟨{ beforeRev := before.reverse, after := after, name := x.name,
           path := x.path, level := x.level, supported := x.supported } :: s1.frames,
         x.children.getD []⟩
      else s1
  | none =>
      if e.type = NodeType.folder then
        ⟨{ beforeRev := s1.cur.reverse, after := [], name := e.name,
           path := e.path, level := e.level, supported := e.supported } :: s1.frames,
         []⟩
      else ⟨s1.frames, s1.cur ++ [nodeOfEntry e]⟩

/-- `buildTree` (analyzer page lines 36-70). -/
def buildTree (entries : List DirectoryEntry) : List TreeNode :=
  finishState (entries.foldl buildStep ⟨[], []⟩)

/-- One iteration of the editor page `buildTreeFromEntries` loop
(lines 80-96): identical stack discipline, but plain `push` with no
dedup lookup. -/
def buildStepNoDedup (s : BTState) (e : DirectoryEntry) : BTState :=
  let s1 := popWhileAux e.level s.frames s.cur
  if e.type = NodeType.folder then
    ⟨{ beforeRev := s1.cur.reverse, after := [], name := e.name,
       path := e.path, level := e.level, supported := e.supported } :: s1.frames,
     []⟩
  else ⟨s1.frames, s1.cur ++ [nodeOfEntry e]⟩

/-- `buildTreeFromEntries` (unnamed editor page lines 77-98). -/
def buildTreeFromEntries (entries : List DirectoryEntry) : List TreeNode :=
  finishState (entries.foldl buildStepNoDedup ⟨[], []⟩)

/-! ### The path-based tree builder (unnamed editor page lines 100-128)

The JS builds a nested object trie (`cursor.children[segment] ||= ...`,
string keys in insertion order) and then `toNodes` sorts each level's
keys and recurses only into folders.  The trie is embedded as an
insertion-ordered association list. -/

inductive JTrie where
  | mk (name : String) (path : String) (ty : NodeType)
       (children : List (String × JTrie))
deriving Repr

def JTrie.name : JTrie → String
  | JTrie.mk n _ _ _ => n

def JTrie.path : JTrie → String
  | JTrie.mk _ p _ _ => p

def JTrie.ty : JTrie → NodeType
  | JTrie.mk _ _ t _ => t

def JTrie.children : JTrie → List (String × JTrie)
  | JTrie.mk _ _ _ c => c

/-- Lexicographic comparison of strings as character lists (the JS
default `Array.sort()` string comparison on the ASCII names in play). -/
def charListLe : List Char → List Char → Bool
  | [], _ => true
  | _ :: _, [] => false
  | a :: as, b :: bs => if a < b then true else if a = b then charListLe as bs else false

def charListLt : List Char → List Char → Bool
  | [], [] => false
  | [], _ :: _ => true
  | _ :: _, [] => false
  | a :: as, b :: bs => if a < b then true else if a = b then charListLt as bs else false

def childLe (a b : String × JTrie) : Bool := charListLe a.1.data b.1.data

/-- The insertion loop body of `buildTreeFromFilePaths` for one path's
segments: walk/extend the trie, `agg += "/" + segment` (note the
leading slash), type fixed at node creation (`file` for the final
segment), existing nodes reused untouched. -/
def insertSegs : String → List String → List (String × JTrie) → List (String × JTrie)
  | _, [], cs => cs
  | agg, seg :: rest, [] =>
      [(seg, JTrie.mk seg (agg ++ "/" ++ seg)
          (if rest.isEmpty then NodeType.file else NodeType.folder)
          (insertSegs (agg ++ "/" ++ seg) rest []))]
  | agg, seg :: rest, (k, t) :: tail =>
      if k = seg then
        (k, JTrie.mk t.name t.path t.ty
              (insertSegs (agg ++ "/" ++ seg) rest t.children)) :: tail
      else (k, t) :: insertSegs agg (seg :: rest) tail
termination_by _ segs cs => (segs.length, cs.length)

/-- `toNodes` (editor page lines 114-126): sort each level's keys,
recurse only into folders; files get no children. -/
def toNodes (cs : List (String × JTrie)) (level : Nat) : List TreeNode :=
  (cs.mergeSort childLe).attach.map fun c =>
    match c with
    | ⟨(_, JTrie.mk n p ty ch), hmem⟩ =>
        TreeNode.mk n p ty level none
          (if ty = NodeType.folder then some (toNodes ch (level + 1)) else none)
termination_by sizeOf cs
decreasing_by
  have hmem2 := ((List.mergeSort_perm cs childLe).mem_iff).mp hmem
  have h3 := List.sizeOf_lt_of_mem hmem2
  simp at h3 ⊢
  omega

/-- `buildTreeFromFilePaths` (unnamed editor page lines 100-128). -/
def buildTreeFromFilePaths (paths : List String) : List TreeNode :=
  toNodes (paths.foldl (fun cs p => insertSegs "" (segmentsOf p) cs) []) 0

/-! ### Scaffolding for the tree claims: node keys, shapes,
well-formedness -/

def nodeKey (t : TreeNode) : String × NodeType := (t.path, t.ty)

/-- Sibling (path, type) keys pairwise distinct. -/
def siblingsOk (l : List TreeNode) : Prop :=
  l.Pairwise (fun a b => nodeKey a ≠ nodeKey b)

/-- Recursive sibling-key uniqueness through a tree. -/
inductive TreeOk : TreeNode → Prop where
  | mk : ∀ n p ty lvl sup ch,
      (∀ l, ch = some l → siblingsOk l) →
      (∀ l, ch = some l → ∀ t, t ∈ l → TreeOk t) →
      TreeOk (TreeNode.mk n p ty lvl sup ch)

def forestOk (F : List TreeNode) : Prop :=
  siblingsOk F ∧ ∀ t ∈ F, TreeOk t

/-- A frame's sibling context is key-unique with the focused folder's
key in its hole (the key of `closeFrame f c` does not depend on `c`). -/
def frameOk (f : BTFrame) : Prop :=
  siblingsOk (f.beforeRev.reverse ++ closeFrame f [] :: f.after) ∧
  (∀ t ∈ f.beforeRev, TreeOk t) ∧ (∀ t ∈ f.after, TreeOk t)

def stateOk (s : BTState) : Prop :=
  (∀ f ∈ s.frames, frameOk f) ∧ siblingsOk s.cur ∧ (∀ t ∈ s.cur, TreeOk t)

/-- The pure single-path insertion that `buildTree` performs on a
`pathsToEntries`-derived entry block: descend/extend by (path, type)
keys, appending fresh nodes at the end of their sibling list. -/
def insertF : String → Nat → List String → List TreeNode → List TreeNode
  | _, _, [], F => F
  | pre, lvl, [seg], F =>
      match splitAtKey (joinAgg pre seg) NodeType.file F with
      | some _ => F
      | none => F ++ [TreeNode.mk seg (joinAgg pre seg) NodeType.file lvl (some true) none]
  | pre, lvl, seg :: rest@(_ :: _), F =>
      match splitAtKey (joinAgg pre seg) NodeType.folder F with
      | some (before, x, after) =>
          before ++
            (match x with
             | TreeNode.mk n p ty l sup c =>
                 TreeNode.mk n p ty l sup
                   (some (insertF (joinAgg pre seg) (lvl + 1) rest (c.getD [])))) :: after
      | none =>
          F ++ [TreeNode.mk seg (joinAgg pre seg) NodeType.folder lvl (some true)
                  (some (insertF (joinAgg pre seg) (lvl + 1) rest []))]

/-- Structure projection of a node forgetting level and supported. -/
inductive Shape where
  | mk (name : String) (path : String) (ty : NodeType) (children : List Shape)
deriving Repr

def Shape.name : Shape → String
  | Shape.mk n _ _ _ => n

def Shape.path : Shape → String
  | Shape.mk _ p _ _ => p

def Shape.ty : Shape → NodeType
  | Shape.mk _ _ t _ => t

def Shape.children : Shape → List Shape
  | Shape.mk _ _ _ c => c

def treeShape : TreeNode → Shape
  | TreeNode.mk n p ty _ _ none => Shape.mk n p ty []
  | TreeNode.mk n p ty _ _ (some l) =>
      Shape.mk n p ty (l.attach.map fun c =>
        match c with
        | ⟨t, hmem⟩ => treeShape t)
termination_by t => sizeOf t
decreasing_by
  have h3 := List.sizeOf_lt_of_mem hmem
  simp at h3 ⊢
  omega

def shapeLe (a b : Shape) : Bool := charListLe a.name.data b.name.data

/-- Recursively sort a shape's sibling lists by name. -/
def sortShape : Shape → Shape
  | Shape.mk n p ty ch =>
      Shape.mk n p ty ((ch.attach.map fun c =>
        match c with
        | ⟨s, hmem⟩ => sortShape s).mergeSort shapeLe)
termination_by s => sizeOf s
decreasing_by
  have h3 := List.sizeOf_lt_of_mem hmem
  simp at h3 ⊢
  omega

/-- The canonical (recursively name-sorted) shape of a forest. -/
def sortedShapeF (F : List TreeNode) : List Shape :=
  (F.map fun t => sortShape (treeShape t)).mergeSort shapeLe

/-- Drop the first character of a string (used to strip the leading "/"
that the path-based builder puts on every node path). -/
def stripSlash (s : String) : String := String.mk (s.data.drop 1)

def stripShape : Shape → Shape
  | Shape.mk n p ty ch =>
      Shape.mk n (stripSlash p) ty (ch.attach.map fun c =>
        match c with
        | ⟨s, hmem⟩ => stripShape s)
termination_by s => sizeOf s
decreasing_by
  have h3 := List.sizeOf_lt_of_mem hmem
  simp at h3 ⊢
  omega

def shapeF (F : List TreeNode) : List Shape := F.map treeShape

/-- Presence of a node at a (nonempty) segment path, descending by
name, in a tree forest. -/
def hasT : List TreeNode → List String → NodeType → Prop
  | _, [], _ => False
  | F, [seg], ty => ∃ t ∈ F, t.name = seg ∧ t.ty = ty
  | F, seg :: rest@(_ :: _), ty =>
      ∃ t ∈ F, t.name = seg ∧ t.ty = NodeType.folder ∧ hasT (t.children.getD []) rest ty

/-- Presence of a node at a segment path in the trie. -/
def hasTrie : List (String × JTrie) → List String → NodeType → Prop
  | _, [], _ => False
  | cs, [seg], ty => ∃ t, (seg, t) ∈ cs ∧ t.ty = ty
  | cs, seg :: rest@(_ :: _), ty =>
      ∃ t, (seg, t) ∈ cs ∧ t.ty = NodeType.folder ∧ hasTrie t.children rest ty

/-- Presence of a node at a segment path in a shape forest. -/
def hasShape : List Shape → List String → NodeType → Prop
  | _, [], _ => False
  | C, [seg], ty => ∃ s ∈ C, s.name = seg ∧ s.ty = ty
  | C, seg :: rest@(_ :: _), ty =>
      ∃ s ∈ C, s.name = seg ∧ s.ty = NodeType.folder ∧ hasShape s.children rest ty

/-- Level bookkeeping is consistent with depth: a node at depth `lvl`
carries `level = lvl` and its children sit at `lvl + 1`. -/
inductive NodeLvl : Nat → TreeNode → Prop where
  | mk : ∀ lvl n p ty sup ch,
      (∀ l, ch = some l → ∀ t, t ∈ l → NodeLvl (lvl + 1) t) →
      NodeLvl lvl (TreeNode.mk n p ty lvl sup ch)

/-- Well-formedness of an entry-built forest under path prefix `pre` at
depth `lvl`: sibling names unique, paths the slash join of the prefix
and the name, levels equal to the depth, folders with a children array
and files without. -/
inductive WFe : String → Nat → List TreeNode → Prop where
  | mk : ∀ pre lvl F,
      F.Pairwise (fun a b => a.name ≠ b.name) →
      (∀ t, t ∈ F → t.path = joinAgg pre t.name) →
      (∀ t, t ∈ F → t.level = lvl) →
      (∀ t, t ∈ F → t.ty = NodeType.folder → t.children.isSome = true) →
      (∀ t, t ∈ F → t.ty = NodeType.file → t.children = none) →
      (∀ t, t ∈ F → ∀ l, t.children = some l →
        WFe (joinAgg pre t.name) (lvl + 1) l) →
      WFe pre lvl F

/-- Well-formedness of the trie under (slash-free) prefix `pre`: keys
unique and equal to node names, stored paths carrying the leading
slash, files with empty children. -/
inductive WFt : String → List (String × JTrie) → Prop where
  | mk : ∀ pre cs,
      cs.Pairwise (fun a b => a.1 ≠ b.1) →
      (∀ kt, kt ∈ cs → kt.2.name = kt.1) →
      (∀ kt, kt ∈ cs → kt.2.path = "/" ++ joinAgg pre kt.1) →
      (∀ kt, kt ∈ cs → WFt (joinAgg pre kt.1) kt.2.children) →
      WFt pre cs

/-- Well-formedness of a canonical shape forest: siblings strictly
sorted by name (hence names unique), paths consistent with the prefix,
files childless. -/
inductive ShapeWF : String → List Shape → Prop where
  | mk : ∀ pre C,
      C.Pairwise (fun a b => charListLt a.name.data b.name.data = true) →
      (∀ s, s ∈ C → s.path = joinAgg pre s.name) →
      (∀ s, s ∈ C → s.ty = NodeType.file → s.children = []) →
      (∀ s, s ∈ C → ShapeWF (joinAgg pre s.name) s.children) →
      ShapeWF pre C

/-- Two segment lists are prefix-compatible when neither is a proper
prefix of the other. -/
def PrefixCompat (a b : List String) : Prop := (a <+: b ∨ b <+: a) → a = b

/-- A path list is well-formed for the builder equivalence when every
path has at least one nonempty segment and the segment decompositions
are pairwise prefix-compatible. -/
def PathsCompat (paths : List String) : Prop :=
  (∀ p ∈ paths, segmentsOf p ≠ []) ∧
  (paths.map segmentsOf).Pairwise PrefixCompat

/-- The `agg` accumulator value of `buildTreeFromFilePaths` after the
segments of (slash-free) prefix `pre` have been consumed: empty at the
root, otherwise the prefix with its leading slash. -/
def aggOf (pre : String) : String := if pre = "" then "" else "/" ++ pre

/-- Characterization of the file-level filter predicate. -/
theorem filePasses_iff (filters : FilterSpec) (f : ScanFile) :
    filePasses filters f = true ↔
      ((filters.cryptoOnly = true → f.findings ≠ []) ∧
       ((filters.severity = [] ∧ filters.category = []) ∨
        ∃ fi ∈ f.findings,
          (filters.severity = [] ∨ canonicalSeverity fi ∈ filters.severity) ∧
          (filters.category = [] ∨ categoryKey fi ∈ filters.category))) := by
  by_cases hc : filters.cryptoOnly = true
  · by_cases hn : f.findings = []
    · simp [filePasses, hc, hn]
    · have hlen : (f.findings.length > 0 : Bool) = true := by
        simpa [List.length_pos] using hn
      by_cases hs : filters.severity = []
      · by_cases hcat : filters.category = []
        · simp [filePasses, hc, hlen, hs, hcat, hn]
        · simp [filePasses, hc, hlen, hs, hcat, hn, List.any_eq_true]
      · simp [filePasses, hc, hlen, hs, hn, List.any_eq_true]
  · by_cases hs : filters.severity = []
    · by_cases hcat : filters.category = []
      · simp [filePasses, hc, hs, hcat]
      · simp [filePasses, hc, hs, hcat, List.any_eq_true]
    · simp [filePasses, hc, hs, List.any_eq_true]

end Cryptoscope

namespace Cryptoscope

/-! ### Claim C1: severity canonicalization is total over the four buckets -/

/-- C1. `canonicalSeverity` always returns one of the four canonical
buckets; a lowercased raw label in {critical, error, high} is classified
"high", one in {warning, medium} is classified "medium", one in
{info, informational} is classified "info", and any other label is
classified "low". -/
theorem canonicalSeverity_total_four_buckets :
    (∀ f : Finding,
      canonicalSeverity f ∈ (["high", "medium", "low", "info"] : List String)) ∧
    (∀ f : Finding, canonicalSeverity f = severityBucket (rawSeverityLabel f)) ∧
    (∀ raw : String, raw ∈ (["critical", "error", "high"] : List String) →
      severityBucket raw = "high") ∧
    (∀ raw : String, raw ∈ (["warning", "medium"] : List String) →
      severityBucket raw = "medium") ∧
    (∀ raw : String, raw ∈ (["info", "informational"] : List String) →
      severityBucket raw = "info") ∧
    (∀ raw : String,
      raw ∉ (["critical", "error", "high", "warning", "medium",
              "info", "informational"] : List String) →
      severityBucket raw = "low") := by
  refine ⟨?_, fun _ => rfl, ?_, ?_, ?_, ?_⟩
  · intro f
    unfold canonicalSeverity severityBucket
    split
    · simp
    · split
      · simp
      · split <;> simp
  · intro raw h
    simp only [List.mem_cons, List.mem_singleton, List.not_mem_nil, or_false] at h
    unfold severityBucket
    rcases h with h | h | h <;> simp [h]
  · intro raw h
    simp only [List.mem_cons, List.mem_singleton, List.not_mem_nil, or_false] at h
    have hne : ¬(raw = "critical" ∨ raw = "error" ∨ raw = "high") := by
      rcases h with h | h <;> subst h <;> decide
    unfold severityBucket
    rw [if_neg hne]
    rcases h with h | h <;> simp [h]
  · intro raw h
    simp only [List.mem_cons, List.mem_singleton, List.not_mem_nil, or_false] at h
    have h1 : ¬(raw = "critical" ∨ raw = "error" ∨ raw = "high") := by
      rcases h with h | h <;> subst h <;> decide
    have h2 : ¬(raw = "warning" ∨ raw = "medium") := by
      rcases h with h | h <;> subst h <;> decide
    unfold severityBucket
    rw [if_neg h1, if_neg h2]
    rcases h with h | h <;> simp [h]
  · intro raw h
    simp only [List.mem_cons, List.mem_singleton, List.not_mem_nil, or_false,
      not_or] at h
    obtain ⟨h1, h2, h3, h4, h5, h6, h7⟩ := h
    unfold severityBucket
    rw [if_neg (by tauto), if_neg (by tauto), if_neg (by tauto)]

/-- Witness for C1 at concrete inputs: `critical` lands in "high",
`warning` in "medium", `informational` in "info", `nonsense` in "low". -/
theorem canonicalSeverity_total_four_buckets_witness :
    canonicalSeverity { severity := some "critical" } = "high" ∧
    severityBucket "warning" = "medium" ∧
    severityBucket "informational" = "info" ∧
    severityBucket "nonsense" = "low" := by
  refine ⟨?_, ?_, ?_, ?_⟩
  · have h := canonicalSeverity_total_four_buckets.2.2.1 "critical" (by decide)
    have hr : rawSeverityLabel { severity := some "critical" } = "critical" := by decide
    calc canonicalSeverity { severity := some "critical" }
        = severityBucket (rawSeverityLabel { severity := some "critical" }) := rfl
      _ = severityBucket "critical" := by rw [hr]
      _ = "high" := h
  · exact canonicalSeverity_total_four_buckets.2.2.2.1 "warning" (by decide)
  · exact canonicalSeverity_total_four_buckets.2.2.2.2.1 "informational" (by decide)
  · exact canonicalSeverity_total_four_buckets.2.2.2.2.2 "nonsense" (by decide)

/-! ### Claim C10: rankedSeverity is preferred; absent fields yield "info" -/

/-- C10. Canonicalization prefers a (truthy, i.e. non-empty) `rankedSeverity`
over `severity` — the result is then a function of `rankedSeverity` alone —
and a finding with neither field set is classified "info" (not "low"). -/
theorem canonicalSeverity_prefers_rankedSeverity (f : Finding) :
    (∀ r : String, f.rankedSeverity = some r → r ≠ "" →
      canonicalSeverity f = severityBucket (jsToLower r)) ∧
    (f.rankedSeverity = none → f.severity = none →
      canonicalSeverity f = "info") := by
  constructor
  · intro r hr hne
    unfold canonicalSeverity rawSeverityLabel jsOr
    rw [hr]
    simp [hne]
  · intro h1 h2
    unfold canonicalSeverity rawSeverityLabel jsOr
    rw [h1, h2]
    decide

/-- Witness for C10: with `rankedSeverity = "critical"` and
`severity = "low"` the result is "high" (ranked label wins); with both
fields absent the result is "info". -/
theorem canonicalSeverity_prefers_rankedSeverity_witness :
    canonicalSeverity { rankedSeverity := some "critical", severity := some "low" } = "high" ∧
    canonicalSeverity ({} : Finding) = "info" := by
  constructor
  · have h := (canonicalSeverity_prefers_rankedSeverity
      { rankedSeverity := some "critical", severity := some "low" }).1
      "critical" rfl (by decide)
    rw [h]
    decide
  · exact (canonicalSeverity_prefers_rankedSeverity ({} : Finding)).2 rfl rfl

/-! ### Claim C4: empty filter sets pass every file -/

/-- C4. With both filter sets empty and `cryptoOnly` false, the
file-level filter passes every file: the result is the input unchanged. -/
theorem filteredFiles_empty_filter_passes_all (files : List ScanFile) :
    filteredFiles files { severity := [], category := [], cryptoOnly := false } = files := by
  unfold filteredFiles
  apply List.filter_eq_self.mpr
  intro f _
  rw [filePasses_iff]
  exact ⟨by simp, Or.inl ⟨rfl, rfl⟩⟩

/-! ### Claim C5: cryptoOnly removes empty files but does NOT keep all
non-empty files regardless of the severity/category sets -/

/-- Counterexample to C5 as stated: with `cryptoOnly := true` and
severity set {high}, the file `c.go` has one finding, yet it is removed
by the filter — so the filter does not keep every file with at least one
finding regardless of the severity/category sets. -/
theorem filteredFiles_cryptoOnly_counterexample :
    lowFindingFile.findings.length ≥ 1 ∧
    filteredFiles [lowFindingFile]
      { severity := ["high"], category := [], cryptoOnly := true } = [] := by
  constructor
  · decide
  · decide

/-- C5 (amended). With `cryptoOnly := true` the filter removes every
file with zero findings regardless of the sets; a file with at least one
finding is kept iff both sets are empty, or some finding of the file
satisfies both the severity and category restriction (each restriction
holding vacuously when its set is empty).  In particular, with both sets
empty every file with at least one finding is kept. -/
theorem filteredFiles_cryptoOnly_amended (files : List ScanFile)
    (sev cat : List String) :
    (∀ f ∈ filteredFiles files { severity := sev, category := cat, cryptoOnly := true },
      f.findings ≠ []) ∧
    (∀ f ∈ files, f.findings ≠ [] →
      (f ∈ filteredFiles files { severity := sev, category := cat, cryptoOnly := true } ↔
        ((sev = [] ∧ cat = []) ∨
          ∃ fi ∈ f.findings,
            (sev = [] ∨ canonicalSeverity fi ∈ sev) ∧
            (cat = [] ∨ categoryKey fi ∈ cat)))) := by
  constructor
  · intro f hf
    have hp := List.of_mem_filter hf
    exact (filePasses_iff _ _).mp hp |>.1 rfl
  · intro f hf hne
    unfold filteredFiles
    rw [List.mem_filter, filePasses_iff]
    constructor
    · rintro ⟨-, -, h⟩
      exact h
    · intro h
      exact ⟨hf, fun _ => hne, h⟩

/-! ### Claim C9: files collection is a strict priority, never a merge -/

/-- C9. The files collection prefers a present, non-empty
`detailed_reviews` (the collection is exactly its image under
`detailedEntry`); otherwise a present, non-empty `basic_analysis` (image
under `basicEntry`); otherwise it is empty.  Entries of the two sources
never appear together: either every entry carries a review or none
does. -/
theorem getFilesCollection_strict_priority (r : AnalysisResult) :
    (∀ l, r.detailed_reviews = some l → l ≠ [] →
      getFilesCollection (some r) = l.map detailedEntry) ∧
    ((r.detailed_reviews = none ∨ r.detailed_reviews = some []) →
      ∀ b, r.basic_analysis = some b → b ≠ [] →
        getFilesCollection (some r) = b.map basicEntry) ∧
    ((r.detailed_reviews = none ∨ r.detailed_reviews = some []) →
      (r.basic_analysis = none ∨ r.basic_analysis = some []) →
      getFilesCollection (some r) = []) ∧
    ((∀ e ∈ getFilesCollection (some r), e.review.isSome = true) ∨
     (∀ e ∈ getFilesCollection (some r), e.review = none)) := by
  refine ⟨?_, ?_, ?_, ?_⟩
  · intro l hl hne
    have ht : truthyLen (some l) = true := by
      cases l with
      | nil => exact absurd rfl hne
      | cons a as => rfl
    simp only [getFilesCollection, hl, Option.getD_some, ht, if_true]
    rw [List.filter_eq_self.mpr (by intro e _; rfl)]
    rfl
  · intro hdet b hb hbne
    have ht : truthyLen r.detailed_reviews = false := by
      rcases hdet with h | h <;> simp [truthyLen, h]
    have htb : truthyLen (some b) = true := by
      cases b with
      | nil => exact absurd rfl hbne
      | cons a as => rfl
    simp only [getFilesCollection, ht, Bool.false_eq_true, if_false, hb,
      Option.getD_some, htb, if_true]
    rfl
  · intro hdet hbas
    have ht : truthyLen r.detailed_reviews = false := by
      rcases hdet with h | h <;> simp [truthyLen, h]
    have htb : truthyLen r.basic_analysis = false := by
      rcases hbas with h | h <;> simp [truthyLen, h]
    simp [getFilesCollection, ht, htb]
  · by_cases ht : truthyLen r.detailed_reviews = true
    · left
      intro e he
      simp only [getFilesCollection, ht, if_true] at he
      have hmem := List.mem_of_mem_filter he
      obtain ⟨rev, -, hrev⟩ := List.mem_map.mp hmem
      rw [← hrev]
      rfl
    · right
      intro e he
      simp only [getFilesCollection, ht, if_false, Bool.not_eq_true] at he
      by_cases htb : truthyLen r.basic_analysis = true
      · rw [if_pos htb] at he
        obtain ⟨a, -, ha⟩ := List.mem_map.mp he
        rw [← ha]
      · rw [if_neg htb] at he
        simp at he

/-- Witness for C9: a result carrying both a detailed review and a basic
analysis yields the collection drawn from the detailed reviews only,
and once the detailed reviews are empty the basic analysis is used. -/
theorem getFilesCollection_strict_priority_witness :
    getFilesCollection (some { detailed_reviews := some [{ gemini_analysis := some "r" }],
                               basic_analysis := some [{ file_path := "a.py" }] }) =
      [detailedEntry { gemini_analysis := some "r" }] ∧
    getFilesCollection (some { detailed_reviews := some [],
                               basic_analysis := some [{ file_path := "a.py" }] }) =
      [basicEntry { file_path := "a.py" }] := by
  constructor
  · exact (getFilesCollection_strict_priority _).1 [{ gemini_analysis := some "r" }] rfl
      (by simp)
  · exact (getFilesCollection_strict_priority _).2.1 (Or.inr rfl) [{ file_path := "a.py" }]
      rfl (by simp)

/-! ### Claim C2: error events finalize only when the connection is closed -/

/-- C2. For both reconcilers, an `error` event with `readyState`
"connecting" never finalizes (the finished flag, stream, loading state,
progress, result, and navigation are untouched — the local variant only
sets a "reconnecting..." message), and an `error` event finalizes — then
without payload — exactly when `readyState` is "closed". -/
theorem error_event_finalizes_only_when_closed (s : AnalyzerState)
    (h : s.finished = false) :
    ((localStep s (SseEvent.errorEv ReadyState.connecting)).finished = false ∧
     (localStep s (SseEvent.errorEv ReadyState.connecting)).esClosed = s.esClosed ∧
     (localStep s (SseEvent.errorEv ReadyState.connecting)).loading = s.loading ∧
     (localStep s (SseEvent.errorEv ReadyState.connecting)).progressPct = s.progressPct ∧
     (localStep s (SseEvent.errorEv ReadyState.connecting)).pendingNav = s.pendingNav ∧
     (localStep s (SseEvent.errorEv ReadyState.connecting)).navigated = s.navigated) ∧
    (gitStep s (SseEvent.errorEv ReadyState.connecting) = s) ∧
    (∀ r, ((localStep s (SseEvent.errorEv r)).finished = true ↔ r = ReadyState.closed)) ∧
    (∀ r, ((gitStep s (SseEvent.errorEv r)).finished = true ↔ r = ReadyState.closed)) ∧
    (localStep s (SseEvent.errorEv ReadyState.closed) = finalizeStep localNavTarget s none) ∧
    (gitStep s (SseEvent.errorEv ReadyState.closed) = finalizeStep gitNavTarget s none) ∧
    ((localStep s (SseEvent.errorEv ReadyState.closed)).pendingNav = s.pendingNav) ∧
    ((localStep s (SseEvent.errorEv ReadyState.closed)).analysisResult = s.analysisResult) ∧
    ((gitStep s (SseEvent.errorEv ReadyState.closed)).pendingNav = s.pendingNav) ∧
    ((gitStep s (SseEvent.errorEv ReadyState.closed)).analysisResult = s.analysisResult) := by
  refine ⟨?_, ?_, ?_, ?_, ?_, ?_, ?_, ?_, ?_, ?_⟩
  · simp [localStep, h]
  · simp [gitStep, h]
  · intro r
    cases r <;> simp [localStep, h, finalizeStep, stopProgress]
  · intro r
    cases r <;> simp [gitStep, h, finalizeStep, stopProgress]
  · simp [localStep, h]
  · simp [gitStep, h]
  · simp [localStep, h, finalizeStep, stopProgress]
  · simp [localStep, h, finalizeStep, stopProgress]
  · simp [gitStep, h, finalizeStep, stopProgress]
  · simp [gitStep, h, finalizeStep, stopProgress]

/-- Witness for C2: from the freshly started states, a "connecting"
error leaves the operation unfinished, a "closed" error finishes it. -/
theorem error_event_finalizes_only_when_closed_witness :
    (localStep initLocal (SseEvent.errorEv ReadyState.connecting)).finished = false ∧
    (localStep initLocal (SseEvent.errorEv ReadyState.closed)).finished = true ∧
    (gitStep initGit (SseEvent.errorEv ReadyState.closed)).finished = true :=
  ⟨(error_event_finalizes_only_when_closed initLocal rfl).1.1,
   ((error_event_finalizes_only_when_closed initLocal rfl).2.2.1 ReadyState.closed).mpr rfl,
   ((error_event_finalizes_only_when_closed initGit rfl).2.2.2.1 ReadyState.closed).mpr rfl⟩

/-! ### Claim C3: finalize is entered at most once; terminal events
reach it exactly once -/

theorem localStep_finished_mono (s : AnalyzerState) (e : SseEvent)
    (h : s.finished = true) : (localStep s e).finished = true := by
  cases e <;>
    simp only [localStep, h, if_true, navDelayStep, resetStep, stopProgress] <;>
    first
      | rfl
      | (split <;> rfl)
      | (split <;> simp [h])

theorem gitStep_finished_mono (s : AnalyzerState) (e : SseEvent)
    (h : s.finished = true) : (gitStep s e).finished = true := by
  cases e <;>
    simp only [gitStep, h, if_true, navDelayStep, resetStep, stopProgress] <;>
    first
      | rfl
      | (split <;> rfl)
      | (split <;> simp [h])

theorem finCount_zero_of_finished
    (step : AnalyzerState → SseEvent → AnalyzerState)
    (hmono : ∀ s e, s.finished = true → (step s e).finished = true) :
    ∀ (evs : List SseEvent) (s : AnalyzerState), s.finished = true →
      finCount step s evs = 0 := by
  intro evs
  induction evs with
  | nil => intro s _; rfl
  | cons e rest ih =>
      intro s h
      simp only [finCount, h]
      rw [if_neg (by simp [h]), ih _ (hmono s e h)]

theorem finCount_le_one
    (step : AnalyzerState → SseEvent → AnalyzerState)
    (hmono : ∀ s e, s.finished = true → (step s e).finished = true) :
    ∀ (evs : List SseEvent) (s : AnalyzerState), finCount step s evs ≤ 1 := by
  intro evs
  induction evs with
  | nil => intro s; simp [finCount]
  | cons e rest ih =>
      intro s
      by_cases h : s.finished = true
      · rw [finCount, if_neg (by simp [h]),
          finCount_zero_of_finished step hmono rest _ (hmono s e h)]
        decide
      · have h0 : s.finished = false := by simpa using h
        by_cases h1 : (step s e).finished = true
        · rw [finCount, if_pos ⟨h0, h1⟩,
            finCount_zero_of_finished step hmono rest _ h1]
        · rw [finCount, if_neg (by simp [h1])]
          simpa using ih (step s e)

theorem run_finished_mono
    (step : AnalyzerState → SseEvent → AnalyzerState)
    (hmono : ∀ s e, s.finished = true → (step s e).finished = true) :
    ∀ (evs : List SseEvent) (s : AnalyzerState), s.finished = true →
      (runEvents step s evs).finished = true := by
  intro evs
  induction evs with
  | nil => intro s h; exact h
  | cons e rest ih => intro s h; exact ih _ (hmono s e h)

theorem finCount_one_of_run_finished
    (step : AnalyzerState → SseEvent → AnalyzerState)
    (hmono : ∀ s e, s.finished = true → (step s e).finished = true) :
    ∀ (evs : List SseEvent) (s : AnalyzerState), s.finished = false →
      (runEvents step s evs).finished = true → finCount step s evs = 1 := by
  intro evs
  induction evs with
  | nil => intro s h hrun; rw [runEvents] at hrun; simp_all
  | cons e rest ih =>
      intro s h hrun
      by_cases h1 : (step s e).finished = true
      · rw [finCount, if_pos ⟨h, h1⟩,
          finCount_zero_of_finished step hmono rest _ h1]
      · have h1' : (step s e).finished = false := by simpa using h1
        rw [finCount, if_neg (by simp [h1])]
        simpa using ih (step s e) h1' hrun

theorem localStep_done_finished (s : AnalyzerState) (d : Option AnalysisResult) :
    (localStep s (SseEvent.doneEv d)).finished = true := by
  by_cases h : s.finished = true
  · simp [localStep, h]
  · have h0 : s.finished = false := by simpa using h
    cases d <;> simp [localStep, h0, finalizeStep, stopProgress]

theorem gitStep_done_finished (s : AnalyzerState) (d : Option AnalysisResult) :
    (gitStep s (SseEvent.doneEv d)).finished = true := by
  by_cases h : s.finished = true
  · simp [gitStep, h]
  · have h0 : s.finished = false := by simpa using h
    cases d with
    | none => simp [gitStep, h0, finalizeStep, stopProgress]
    | some data =>
        simp only [gitStep, h0, Bool.false_eq_true, if_false]
        split <;> simp [finalizeStep, stopProgress]

theorem localStep_errorClosed_finished (s : AnalyzerState) :
    (localStep s (SseEvent.errorEv ReadyState.closed)).finished = true := by
  by_cases h : s.finished = true
  · simp [localStep, h]
  · have h0 : s.finished = false := by simpa using h
    simp [localStep, h0, finalizeStep, stopProgress]

theorem gitStep_errorClosed_finished (s : AnalyzerState) :
    (gitStep s (SseEvent.errorEv ReadyState.closed)).finished = true := by
  by_cases h : s.finished = true
  · simp [gitStep, h]
  · have h0 : s.finished = false := by simpa using h
    simp [gitStep, h0, finalizeStep, stopProgress]

theorem run_finished_of_terminal_mem
    (step : AnalyzerState → SseEvent → AnalyzerState)
    (hmono : ∀ s e, s.finished = true → (step s e).finished = true)
    (hdone : ∀ s d, (step s (SseEvent.doneEv d)).finished = true)
    (herr : ∀ s, (step s (SseEvent.errorEv ReadyState.closed)).finished = true) :
    ∀ (evs : List SseEvent) (s : AnalyzerState),
      ((∃ d, SseEvent.doneEv d ∈ evs) ∨ SseEvent.errorEv ReadyState.closed ∈ evs) →
      (runEvents step s evs).finished = true := by
  intro evs
  induction evs with
  | nil => intro s h; rcases h with ⟨d, hd⟩ | hd <;> simp at hd
  | cons e rest ih =>
      intro s h
      rcases h with ⟨d, hd⟩ | hd
      · rcases List.mem_cons.mp hd with heq | hmem
        · subst heq
          exact run_finished_mono step hmono rest _ (hdone s d)
        · exact ih (step s e) (Or.inl ⟨d, hmem⟩)
      · rcases List.mem_cons.mp hd with heq | hmem
        · subst heq
          exact run_finished_mono step hmono rest _ (herr s)
        · exact ih (step s e) (Or.inr hmem)

/-- C3. Finalize is entered at most once per operation.  Once an
operation is finished, every later `done`, `cached`, `error`, or
inactivity-timeout delivery is a no-op (the state — progress, result,
navigation included — is exactly unchanged); along any event trace the
finished flag flips at most once; and a trace containing a `done` event
or a closed-connection `error` event flips it exactly once. -/
theorem finalize_entered_at_most_once :
    (∀ s : AnalyzerState, s.finished = true →
      (∀ d, localStep s (SseEvent.doneEv d) = s) ∧
      (∀ d, gitStep s (SseEvent.doneEv d) = s) ∧
      (∀ d, localStep s (SseEvent.cached d) = s) ∧
      (∀ d, gitStep s (SseEvent.cached d) = s) ∧
      (∀ r, localStep s (SseEvent.errorEv r) = s) ∧
      (∀ r, gitStep s (SseEvent.errorEv r) = s) ∧
      localStep s SseEvent.inactivityFired = s ∧
      gitStep s SseEvent.inactivityFired = s) ∧
    (∀ evs, finCount localStep initLocal evs ≤ 1 ∧ finCount gitStep initGit evs ≤ 1) ∧
    (∀ evs, ((∃ d, SseEvent.doneEv d ∈ evs) ∨ SseEvent.errorEv ReadyState.closed ∈ evs) →
      finCount localStep initLocal evs = 1 ∧ finCount gitStep initGit evs = 1) := by
  refine ⟨?_, ?_, ?_⟩
  · intro s h
    exact ⟨fun d => by simp [localStep, h], fun d => by simp [gitStep, h],
           fun d => by simp [localStep], fun d => by simp [gitStep, h],
           fun r => by simp [localStep, h], fun r => by simp [gitStep, h],
           by simp [localStep, h], by simp [gitStep, h]⟩
  · intro evs
    exact ⟨finCount_le_one localStep localStep_finished_mono evs initLocal,
           finCount_le_one gitStep gitStep_finished_mono evs initGit⟩
  · intro evs h
    constructor
    · exact finCount_one_of_run_finished localStep localStep_finished_mono evs initLocal rfl
        (run_finished_of_terminal_mem localStep localStep_finished_mono
          localStep_done_finished localStep_errorClosed_finished evs initLocal h)
    · exact finCount_one_of_run_finished gitStep gitStep_finished_mono evs initGit rfl
        (run_finished_of_terminal_mem gitStep gitStep_finished_mono
          gitStep_done_finished gitStep_errorClosed_finished evs initGit h)

/-- Witness for C3: a late `done` after a closed-connection error is a
no-op, and the one-element trace `[done]` finalizes exactly once. -/
theorem finalize_entered_at_most_once_witness :
    localStep (localStep initLocal (SseEvent.errorEv ReadyState.closed))
        (SseEvent.doneEv none) =
      localStep initLocal (SseEvent.errorEv ReadyState.closed) ∧
    finCount localStep initLocal [SseEvent.doneEv none] = 1 := by
  constructor
  · exact ((finalize_entered_at_most_once.1
      (localStep initLocal (SseEvent.errorEv ReadyState.closed)) (by decide)).1) none
  · exact (finalize_entered_at_most_once.2.2 [SseEvent.doneEv none]
      (Or.inl ⟨none, by simp⟩)).1

/-- Witness for the amended C5: a file with one high/cipher finding is
kept under `cryptoOnly := true` with severity set {high}. -/
theorem filteredFiles_cryptoOnly_amended_witness :
    { path := "a.py", language := some "python",
      findings := [{ severity := some "high", category := some "cipher" }] } ∈
      filteredFiles
        [({ path := "a.py", language := some "python",
            findings := [{ severity := some "high", category := some "cipher" }] } : ScanFile)]
        { severity := ["high"], category := [], cryptoOnly := true } := by
  have h := (filteredFiles_cryptoOnly_amended
    [({ path := "a.py", language := some "python",
        findings := [{ severity := some "high", category := some "cipher" }] } : ScanFile)]
    ["high"] []).2
    { path := "a.py", language := some "python",
      findings := [{ severity := some "high", category := some "cipher" }] }
    (by simp) (by decide)
  refine h.mpr (Or.inr ⟨{ severity := some "high", category := some "cipher" }, by simp, ?_, ?_⟩)
  · right
    have : canonicalSeverity { severity := some "high", category := some "cipher" } = "high" := by
      decide
    simp [this]
  · left; rfl

/-! ### Claim C7: the analyzer tree builder never produces duplicate
(path, type) siblings -/

theorem treeOk_children (x : TreeNode) (h : TreeOk x) :
    siblingsOk (x.children.getD []) ∧ ∀ t ∈ x.children.getD [], TreeOk t := by
  cases h with
  | mk n p ty lvl sup ch h1 h2 =>
      cases ch with
      | none =>
          refine ⟨List.Pairwise.nil, ?_⟩
          intro t ht
          simp [TreeNode.children] at ht
      | some l => exact ⟨h1 l rfl, fun t ht => h2 l rfl t ht⟩

theorem treeOk_mkFile (n p : String) (ty : NodeType) (lvl : Nat) (sup : Option Bool) :
    TreeOk (TreeNode.mk n p ty lvl sup none) := by
  refine TreeOk.mk n p ty lvl sup none ?_ ?_ <;> intro l hl <;> cases hl

theorem siblingsOk_congr_mid (A B : List TreeNode) (x y : TreeNode)
    (hk : nodeKey x = nodeKey y) (hp : siblingsOk (A ++ x :: B)) :
    siblingsOk (A ++ y :: B) := by
  unfold siblingsOk at hp ⊢
  rw [List.pairwise_append] at hp ⊢
  obtain ⟨hA, hxB, hcross⟩ := hp
  rw [List.pairwise_cons] at hxB ⊢
  refine ⟨hA, ⟨fun b hb => hk ▸ hxB.1 b hb, hxB.2⟩, ?_⟩
  intro a ha b hb
  rcases List.mem_cons.mp hb with heq | hb'
  · subst heq
    exact hk ▸ hcross a ha x (List.mem_cons_self _ _)
  · exact hcross a ha b (List.mem_cons_of_mem _ hb')

theorem siblingsOk_snoc (l : List TreeNode) (x : TreeNode)
    (hp : siblingsOk l) (hx : ∀ t ∈ l, nodeKey t ≠ nodeKey x) :
    siblingsOk (l ++ [x]) := by
  unfold siblingsOk at hp ⊢
  rw [List.pairwise_append]
  exact ⟨hp, List.pairwise_singleton _ _, fun a ha b hb => by
    rw [List.mem_singleton] at hb
    subst hb
    exact hx a ha⟩

theorem splitAtKey_some_spec (path : String) (ty : NodeType) :
    ∀ (l before after : List TreeNode) (x : TreeNode),
      splitAtKey path ty l = some (before, x, after) →
      l = before ++ x :: after ∧ x.path = path ∧ x.ty = ty := by
  intro l
  induction l with
  | nil => intro b a x h; simp [splitAtKey] at h
  | cons n rest ih =>
      intro b a x h
      rw [splitAtKey] at h
      by_cases hk : n.path = path ∧ n.ty = ty
      · rw [if_pos hk] at h
        simp only [Option.some.injEq, Prod.mk.injEq] at h
        obtain ⟨hb, hx, ha⟩ := h
        subst hb; subst hx; subst ha
        exact ⟨rfl, hk⟩
      · rw [if_neg hk] at h
        cases hsplit : splitAtKey path ty rest with
        | none => rw [hsplit] at h; cases h
        | some triple =>
            obtain ⟨b', x', a'⟩ := triple
            rw [hsplit] at h
            simp only [Option.some.injEq, Prod.mk.injEq] at h
            obtain ⟨hb, hx, ha⟩ := h
            obtain ⟨heq, hp2, hty2⟩ := ih b' a' x' hsplit
            subst hx; subst ha
            rw [← hb]
            exact ⟨by rw [heq]; rfl, hp2, hty2⟩

theorem splitAtKey_none_spec (path : String) (ty : NodeType) :
    ∀ l, splitAtKey path ty l = none →
      ∀ t ∈ l, ¬(t.path = path ∧ t.ty = ty) := by
  intro l
  induction l with
  | nil => intro _ t ht; cases ht
  | cons n rest ih =>
      intro h t ht
      rw [splitAtKey] at h
      by_cases hk : n.path = path ∧ n.ty = ty
      · rw [if_pos hk] at h; cases h
      · rw [if_neg hk] at h
        rcases List.mem_cons.mp ht with heq | ht'
        · subst heq; exact hk
        · cases hsplit : splitAtKey path ty rest with
          | none => exact ih hsplit t ht'
          | some triple =>
              obtain ⟨b', x', a'⟩ := triple
              rw [hsplit] at h
              cases h

theorem popOnce_stateOk (f : BTFrame) (rest : List BTFrame) (cur : List TreeNode)
    (h : stateOk ⟨f :: rest, cur⟩) :
    stateOk ⟨rest, f.beforeRev.reverse ++ closeFrame f cur :: f.after⟩ := by
  obtain ⟨hframes, hsib, htrees⟩ := h
  have hf : frameOk f := hframes f (List.mem_cons_self _ _)
  obtain ⟨hfsib, hfbefore, hfafter⟩ := hf
  refine ⟨fun g hg => hframes g (List.mem_cons_of_mem _ hg), ?_, ?_⟩
  · exact siblingsOk_congr_mid f.beforeRev.reverse f.after (closeFrame f [])
      (closeFrame f cur) rfl hfsib
  · intro t ht
    rcases List.mem_append.mp ht with hb | hca
    · exact hfbefore t (List.mem_reverse.mp hb)
    · rcases List.mem_cons.mp hca with heq | ha
      · subst heq
        refine TreeOk.mk _ _ _ _ _ _ ?_ ?_
        · intro l hl
          cases hl
          exact hsib
        · intro l hl
          cases hl
          exact fun t ht => htrees t ht
      · exact hfafter t ha

theorem popWhileAux_stateOk (lvl : Nat) :
    ∀ (frames : List BTFrame) (cur : List TreeNode),
      stateOk ⟨frames, cur⟩ → stateOk (popWhileAux lvl frames cur) := by
  intro frames
  induction frames with
  | nil => intro cur h; exact h
  | cons f rest ih =>
      intro cur h
      rw [popWhileAux]
      by_cases hl : lvl ≤ f.level
      · rw [if_pos hl]
        exact ih _ (popOnce_stateOk f rest cur h)
      · rw [if_neg hl]
        exact h

theorem popAllAux_forestOk :
    ∀ (frames : List BTFrame) (cur : List TreeNode),
      stateOk ⟨frames, cur⟩ → forestOk (popAllAux frames cur) := by
  intro frames
  induction frames with
  | nil => intro cur h; exact ⟨h.2.1, h.2.2⟩
  | cons f rest ih =>
      intro cur h
      exact ih _ (popOnce_stateOk f rest cur h)

theorem buildStep_stateOk (s : BTState) (e : DirectoryEntry) (h : stateOk s) :
    stateOk (buildStep s e) := by
  have h1 : stateOk (popWhileAux e.level s.frames s.cur) :=
    popWhileAux_stateOk _ _ _ h
  simp only [buildStep]
  set s1 := popWhileAux e.level s.frames s.cur with hs1
  obtain ⟨hfr1, hsib1, htr1⟩ := h1
  cases hsplit : splitAtKey e.path e.type s1.cur with
  | some triple =>
      obtain ⟨before, x, after⟩ := triple
      obtain ⟨heq, hxp, hxty⟩ :=
        splitAtKey_some_spec e.path e.type s1.cur before after x hsplit
      simp only [hsplit]
      by_cases hty : e.type = NodeType.folder
      · rw [if_pos hty]
        have hx : TreeOk x := htr1 x (by
          rw [heq]; exact List.mem_append_right _ (List.mem_cons_self _ _))
        refine ⟨?_, (treeOk_children x hx).1, (treeOk_children x hx).2⟩
        intro g hg
        rcases List.mem_cons.mp hg with heq2 | hg'
        · subst heq2
          refine ⟨?_, ?_, ?_⟩
          · show siblingsOk (before.reverse.reverse ++ _ :: after)
            rw [List.reverse_reverse]
            have hkey : nodeKey x =
                nodeKey (closeFrame
                  { beforeRev := before.reverse, after := after, name := x.name,
                    path := x.path, level := x.level, supported := x.supported } []) := by
              show (x.path, x.ty) = (x.path, NodeType.folder)
              rw [hxty, hty]
            exact siblingsOk_congr_mid before after x _ hkey (heq ▸ hsib1)
          · intro t ht
            have ht2 : t ∈ before := List.mem_reverse.mp ht
            exact htr1 t (by rw [heq]; exact List.mem_append_left _ ht2)
          · intro t ht
            exact htr1 t (by
              rw [heq]
              exact List.mem_append_right _ (List.mem_cons_of_mem _ ht))
        · exact hfr1 g hg'
      · rw [if_neg hty]
        exact ⟨hfr1, hsib1, htr1⟩
  | none =>
      simp only [hsplit]
      by_cases hty : e.type = NodeType.folder
      · rw [if_pos hty]
        refine ⟨?_, List.Pairwise.nil, by intro t ht; cases ht⟩
        intro g hg
        rcases List.mem_cons.mp hg with heq2 | hg'
        · subst heq2
          refine ⟨?_, ?_, ?_⟩
          · show siblingsOk (s1.cur.reverse.reverse ++ _ :: ([] : List TreeNode))
            rw [List.reverse_reverse]
            apply siblingsOk_snoc _ _ hsib1
            intro t ht hkey
            have hkey2 : (t.path, t.ty) = (e.path, NodeType.folder) := hkey
            rw [Prod.mk.injEq] at hkey2
            exact splitAtKey_none_spec e.path e.type _ hsplit t ht
              ⟨hkey2.1, hkey2.2.trans hty.symm⟩
          · intro t ht
            exact htr1 t (List.mem_reverse.mp ht)
          · intro t ht
            cases ht
        · exact hfr1 g hg'
      · rw [if_neg hty]
        refine ⟨hfr1, ?_, ?_⟩
        · apply siblingsOk_snoc _ _ hsib1
          intro t ht hkey
          have hkey2 : (t.path, t.ty) = (e.path, e.type) := hkey
          rw [Prod.mk.injEq] at hkey2
          exact splitAtKey_none_spec e.path e.type _ hsplit t ht ⟨hkey2.1, hkey2.2⟩
        · intro t ht
          rcases List.mem_append.mp ht with h' | h'
          · exact htr1 t h'
          · rw [List.mem_singleton] at h'
            subst h'
            have hfile : e.type = NodeType.file := by
              cases htype : e.type
              · exact absurd htype hty
              · rfl
            show TreeOk (nodeOfEntry e)
            unfold nodeOfEntry
            rw [if_neg hty]
            exact treeOk_mkFile _ _ _ _ _

theorem stateOk_start : stateOk ⟨[], []⟩ := by
  refine ⟨?_, List.Pairwise.nil, ?_⟩ <;> intro x hx <;> cases hx

/-- C7 (amended to the analyzer page's `buildTree`, the builder with the
`addUnique` dedup).  For every DirectoryEntry sequence — repeated or
overlapping entries included — `buildTree` produces a forest in which no
two siblings anywhere share the same (path, type) key, because a later
entry matching an existing sibling reuses that node.  (The editor page's
`buildTreeFromEntries`, which has no dedup lookup, does not satisfy
this; see the counterexample.) -/
theorem buildTree_no_duplicate_siblings (entries : List DirectoryEntry) :
    forestOk (buildTree entries) := by
  unfold buildTree finishState
  have h : ∀ (l : List DirectoryEntry) (s : BTState), stateOk s →
      stateOk (l.foldl buildStep s) := by
    intro l
    induction l with
    | nil => intro s hs; exact hs
    | cons e rest ih => intro s hs; exact ih _ (buildStep_stateOk s e hs)
  have h2 := h entries ⟨[], []⟩ stateOk_start
  exact popAllAux_forestOk _ _ h2

/-- Counterexample to C7 as stated over both entry-based builders: the
editor page's `buildTreeFromEntries` (no dedup) turns a repeated folder
entry into two identical siblings, while the analyzer page's `buildTree`
reuses the node. -/
theorem buildTreeFromEntries_duplicate_counterexample :
    buildTreeFromEntries
        [{ type := NodeType.folder, name := "a", path := "a", level := 0,
           supported := some true },
         { type := NodeType.folder, name := "a", path := "a", level := 0,
           supported := some true }] =
      [TreeNode.mk "a" "a" NodeType.folder 0 (some true) (some []),
       TreeNode.mk "a" "a" NodeType.folder 0 (some true) (some [])] ∧
    ¬ forestOk (buildTreeFromEntries
        [{ type := NodeType.folder, name := "a", path := "a", level := 0,
           supported := some true },
         { type := NodeType.folder, name := "a", path := "a", level := 0,
           supported := some true }]) ∧
    buildTree
        [{ type := NodeType.folder, name := "a", path := "a", level := 0,
           supported := some true },
         { type := NodeType.folder, name := "a", path := "a", level := 0,
           supported := some true }] =
      [TreeNode.mk "a" "a" NodeType.folder 0 (some true) (some [])] := by
  refine ⟨rfl, ?_, rfl⟩
  intro hok
  obtain ⟨hsib, -⟩ := hok
  have heq : buildTreeFromEntries
      [{ type := NodeType.folder, name := "a", path := "a", level := 0,
         supported := some true },
       { type := NodeType.folder, name := "a", path := "a", level := 0,
         supported := some true }] =
      [TreeNode.mk "a" "a" NodeType.folder 0 (some true) (some []),
       TreeNode.mk "a" "a" NodeType.folder 0 (some true) (some [])] := rfl
  rw [heq] at hsib
  unfold siblingsOk at hsib
  rw [List.pairwise_cons] at hsib
  exact hsib.1 _ (List.mem_singleton.mpr rfl) rfl

/-! ### Claim C8: scanning percent monotone and clamped; percent 100
and finalization -/

/-! ### Claim C8: scanning percent monotone and clamped; percent 100
and finalization -/

theorem localScanPct_mono (d1 d2 t : ℚ) (h : d1 ≤ d2) :
    localScanPct d1 t ≤ localScanPct d2 t := by
  unfold localScanPct
  by_cases ht : 0 < t
  · rw [if_pos ht, if_pos ht]
    have hmul : d1 / t * 75 ≤ d2 / t * 75 := by gcongr
    have hr : round (d1 / t * 75) ≤ round (d2 / t * 75) := by
      rw [round_eq, round_eq]
      exact Int.floor_mono (by linarith)
    exact min_le_min le_rfl (by omega)
  · rw [if_neg ht, if_neg ht]

theorem gitScanPct_mono (d1 d2 t : ℚ) (h : d1 ≤ d2) :
    gitScanPct d1 t ≤ gitScanPct d2 t := by
  unfold gitScanPct
  by_cases ht : 0 < t
  · rw [if_pos ht, if_pos ht]
    have hmul : d1 / t * 90 ≤ d2 / t * 90 := by gcongr
    have hr : round (d1 / t * 90) ≤ round (d2 / t * 90) := by
      rw [round_eq, round_eq]
      exact Int.floor_mono (by linarith)
    exact min_le_min le_rfl hr
  · rw [if_neg ht, if_neg ht]

theorem localScanPct_lt_100 (d t : ℚ) : localScanPct d t < 100 := by
  unfold localScanPct
  by_cases ht : 0 < t
  · rw [if_pos ht]
    have := min_le_left (90 : Int) (10 + round (d / t * 75))
    omega
  · rw [if_neg ht]; decide

theorem gitScanPct_lt_100 (d t : ℚ) : gitScanPct d t < 100 := by
  unfold gitScanPct
  by_cases ht : 0 < t
  · rw [if_pos ht]
    have := min_le_left (90 : Int) (round (d / t * 90))
    omega
  · rw [if_neg ht]; decide

theorem localStep_pctInv (s : AnalyzerState) (e : SseEvent)
    (h : pctInvariant s) : pctInvariant (localStep s e) := by
  rcases h with hf | ⟨hp, hn⟩
  · exact Or.inl (localStep_finished_mono s e hf)
  · cases e with
    | openEv => exact Or.inr ⟨by simp [localStep], hn⟩
    | message => exact Or.inr ⟨hp, hn⟩
    | cloning d => exact Or.inr ⟨hp, hn⟩
    | collecting d =>
        cases d with
        | some p => exact Or.inr ⟨by simp [localStep], hn⟩
        | none => exact Or.inr ⟨hp, hn⟩
    | startEv d =>
        cases d with
        | some p => exact Or.inr ⟨by simp [localStep], hn⟩
        | none => exact Or.inr ⟨hp, hn⟩
    | scanning d =>
        cases d with
        | some p =>
            refine Or.inr ⟨?_, hn⟩
            have hlt := localScanPct_lt_100 (numOr0 p.done) (numOr0 p.total)
            show localScanPct (numOr0 p.done) (numOr0 p.total) ≠ 100
            omega
        | none => exact Or.inr ⟨hp, hn⟩
    | indexing d =>
        cases d with
        | some p => exact Or.inr ⟨hp, hn⟩
        | none => exact Or.inr ⟨hp, hn⟩
    | enriching d =>
        cases d with
        | some p => exact Or.inr ⟨by simp [localStep], hn⟩
        | none => exact Or.inr ⟨hp, hn⟩
    | cached d => exact Or.inr ⟨hp, hn⟩
    | doneEv d => exact Or.inl (localStep_done_finished s d)
    | ping => exact Or.inr ⟨hp, hn⟩
    | errorEv r =>
        cases r with
        | closed => exact Or.inl (localStep_errorClosed_finished s)
        | connecting =>
            simp only [localStep]
            split
            · exact Or.inr ⟨hp, hn⟩
            · exact Or.inr ⟨hp, hn⟩
        | opened =>
            simp only [localStep]
            split
            · exact Or.inr ⟨hp, hn⟩
            · exact Or.inr ⟨hp, hn⟩
    | inactivityFired =>
        simp only [localStep]
        split
        · exact Or.inr ⟨hp, hn⟩
        · exact Or.inr ⟨hp, hn⟩
    | navDelayFired =>
        have heq : localStep s SseEvent.navDelayFired = s := by
          simp [localStep, navDelayStep, hn]
        rw [heq]
        exact Or.inr ⟨hp, hn⟩
    | resetFired =>
        simp only [localStep, resetStep]
        split
        · exact Or.inr ⟨by simp, hn⟩
        · exact Or.inr ⟨hp, hn⟩

theorem gitStep_pctInv (s : AnalyzerState) (e : SseEvent)
    (h : pctInvariant s) : pctInvariant (gitStep s e) := by
  rcases h with hf | ⟨hp, hn⟩
  · exact Or.inl (gitStep_finished_mono s e hf)
  · cases e with
    | openEv => exact Or.inr ⟨hp, hn⟩
    | message => exact Or.inr ⟨hp, hn⟩
    | cloning d =>
        cases d with
        | some p => exact Or.inr ⟨hp, hn⟩
        | none => exact Or.inr ⟨hp, hn⟩
    | collecting d =>
        cases d with
        | some p => exact Or.inr ⟨hp, hn⟩
        | none => exact Or.inr ⟨hp, hn⟩
    | startEv d =>
        cases d with
        | some p => exact Or.inr ⟨hp, hn⟩
        | none => exact Or.inr ⟨hp, hn⟩
    | scanning d =>
        cases d with
        | some p =>
            refine Or.inr ⟨?_, hn⟩
            have hlt := gitScanPct_lt_100 (numOr0 p.done) (numOr0 p.total)
            show gitScanPct (numOr0 p.done) (numOr0 p.total) ≠ 100
            omega
        | none => exact Or.inr ⟨hp, hn⟩
    | indexing d =>
        cases d with
        | some p => exact Or.inr ⟨hp, hn⟩
        | none => exact Or.inr ⟨hp, hn⟩
    | enriching d =>
        cases d with
        | some p => exact Or.inr ⟨hp, hn⟩
        | none => exact Or.inr ⟨hp, hn⟩
    | cached d =>
        simp only [gitStep]
        split
        · exact Or.inr ⟨hp, hn⟩
        · cases d with
          | none => exact Or.inr ⟨hp, hn⟩
          | some data =>
              cases hpaths : pathsOfCollection data with
              | some paths =>
                  simp only [hpaths]
                  refine Or.inl ?_
                  simp only [finalizeStep]
                  split
                  · next hxf => exact hxf
                  · rfl
              | none =>
                  simp only [hpaths]
                  exact Or.inr ⟨hp, hn⟩
    | doneEv d => exact Or.inl (gitStep_done_finished s d)
    | ping => exact Or.inr ⟨hp, hn⟩
    | errorEv r =>
        cases r with
        | closed => exact Or.inl (gitStep_errorClosed_finished s)
        | connecting =>
            simp only [gitStep]
            split
            · exact Or.inr ⟨hp, hn⟩
            · exact Or.inr ⟨hp, hn⟩
        | opened =>
            simp only [gitStep]
            split
            · exact Or.inr ⟨hp, hn⟩
            · exact Or.inr ⟨hp, hn⟩
    | inactivityFired =>
        simp only [gitStep]
        split
        · exact Or.inr ⟨hp, hn⟩
        · exact Or.inr ⟨hp, hn⟩
    | navDelayFired =>
        have heq : gitStep s SseEvent.navDelayFired = s := by
          simp [gitStep, navDelayStep, hn]
        rw [heq]
        exact Or.inr ⟨hp, hn⟩
    | resetFired =>
        simp only [gitStep, resetStep]
        split
        · exact Or.inr ⟨by simp, hn⟩
        · exact Or.inr ⟨hp, hn⟩

theorem localStep_nonterminal_finished (s : AnalyzerState) (e : SseEvent)
    (he : isTerminalEvent e = false) :
    (localStep s e).finished = s.finished := by
  cases e with
  | openEv => rfl
  | message => rfl
  | cloning d => rfl
  | collecting d => cases d <;> rfl
  | startEv d => cases d <;> rfl
  | scanning d => cases d <;> rfl
  | indexing d => cases d <;> rfl
  | enriching d => cases d <;> rfl
  | cached d => rfl
  | doneEv d => exact absurd he (by simp [isTerminalEvent])
  | ping => rfl
  | errorEv r =>
      cases r with
      | closed => exact absurd he (by simp [isTerminalEvent])
      | connecting =>
          by_cases hf : s.finished = true
          · simp [localStep, hf]
          · have hf0 : s.finished = false := by simpa using hf
            simp [localStep, hf0]
      | opened =>
          by_cases hf : s.finished = true
          · simp [localStep, hf]
          · have hf0 : s.finished = false := by simpa using hf
            simp [localStep, hf0]
  | inactivityFired =>
      by_cases hf : s.finished = true
      · simp [localStep, hf]
      · have hf0 : s.finished = false := by simpa using hf
        simp [localStep, hf0]
  | navDelayFired =>
      cases hnav : s.pendingNav with
      | none => simp [localStep, navDelayStep, hnav]
      | some t => simp [localStep, navDelayStep, hnav, stopProgress]
  | resetFired =>
      by_cases hr : s.pendingReset = true
      · simp [localStep, resetStep, hr]
      · simp only [localStep, resetStep]
        rw [if_neg hr]

theorem gitStep_nonterminal_finished (s : AnalyzerState) (e : SseEvent)
    (he : isTerminalEvent e = false) :
    (gitStep s e).finished = s.finished := by
  cases e with
  | openEv => rfl
  | message => rfl
  | cloning d => cases d <;> rfl
  | collecting d => cases d <;> rfl
  | startEv d => cases d <;> rfl
  | scanning d => cases d <;> rfl
  | indexing d => cases d <;> rfl
  | enriching d => cases d <;> rfl
  | cached d => exact absurd he (by simp [isTerminalEvent])
  | doneEv d => exact absurd he (by simp [isTerminalEvent])
  | ping => rfl
  | errorEv r =>
      cases r with
      | closed => exact absurd he (by simp [isTerminalEvent])
      | connecting =>
          by_cases hf : s.finished = true
          · simp [gitStep, hf]
          · have hf0 : s.finished = false := by simpa using hf
            simp [gitStep, hf0]
      | opened =>
          by_cases hf : s.finished = true
          · simp [gitStep, hf]
          · have hf0 : s.finished = false := by simpa using hf
            simp [gitStep, hf0]
  | inactivityFired =>
      by_cases hf : s.finished = true
      · simp [gitStep, hf]
      · have hf0 : s.finished = false := by simpa using hf
        simp [gitStep, hf0]
  | navDelayFired =>
      cases hnav : s.pendingNav with
      | none => simp [gitStep, navDelayStep, hnav]
      | some t => simp [gitStep, navDelayStep, hnav, stopProgress]
  | resetFired =>
      by_cases hr : s.pendingReset = true
      · simp [gitStep, resetStep, hr]
      · simp only [gitStep, resetStep]
        rw [if_neg hr]

theorem run_pctInv (step : AnalyzerState → SseEvent → AnalyzerState)
    (hstep : ∀ s e, pctInvariant s → pctInvariant (step s e)) :
    ∀ (evs : List SseEvent) (s : AnalyzerState), pctInvariant s →
      pctInvariant (runEvents step s evs) := by
  intro evs
  induction evs with
  | nil => intro s h; exact h
  | cons e rest ih => intro s h; exact ih _ (hstep s e h)

theorem run_nonterminal_finished (step : AnalyzerState → SseEvent → AnalyzerState)
    (hstep : ∀ s e, isTerminalEvent e = false → (step s e).finished = s.finished) :
    ∀ (evs : List SseEvent) (s : AnalyzerState),
      (∀ e ∈ evs, isTerminalEvent e = false) →
      (runEvents step s evs).finished = s.finished := by
  intro evs
  induction evs with
  | nil => intro s _; rfl
  | cons e rest ih =>
      intro s h
      have h1 := hstep s e (h e (by simp))
      have h2 := ih (step s e) (fun e' he' => h e' (by simp [he']))
      rw [runEvents] at h2 ⊢
      rw [List.foldl_cons, h2, h1]

/-- Counterexample to C8 as stated: percent can reach 100 without any
`done` event having been processed — a closed-connection `error`
finalizes without payload, and `stopProgress` sets percent to 100 for
the completion hold before the delayed reset. -/
theorem scanning_percent_counterexample :
    ([SseEvent.errorEv ReadyState.closed].any isDoneEvent) = false ∧
    (runEvents localStep initLocal [SseEvent.errorEv ReadyState.closed]).progressPct = 100 := by
  constructor
  · rfl
  · rfl

/-- C8 (amended). Within the `scanning` phase the displayed percent is a
monotone non-decreasing function of `done` for constant `total` for both
reconcilers, clamped at the 90 ceiling whenever `total > 0` (even if
`done` exceeds `total`) and always strictly below 100 — so a `scanning`
event never yields percent 100.  Percent 100 is only ever displayed once
the operation has finalized: along any event trace from the start state,
percent 100 implies the finished flag, and a trace containing no
terminal event (`done`, `cached`, or closed-connection `error`) never
shows percent 100.  (As stated the claim is false: finalize without
payload — e.g. after a closed-connection error — also sets percent 100
via `stopProgress`, without any `done` event.) -/
theorem scanning_percent_monotone_amended :
    (∀ d1 d2 t : ℚ, d1 ≤ d2 → localScanPct d1 t ≤ localScanPct d2 t) ∧
    (∀ d1 d2 t : ℚ, d1 ≤ d2 → gitScanPct d1 t ≤ gitScanPct d2 t) ∧
    (∀ d t : ℚ, 0 < t → localScanPct d t ≤ 90 ∧ gitScanPct d t ≤ 90) ∧
    (∀ d t : ℚ, localScanPct d t < 100 ∧ gitScanPct d t < 100) ∧
    (∀ (s : AnalyzerState) (p : ScanPayload),
      (localStep s (SseEvent.scanning (some p))).progressPct < 100 ∧
      (gitStep s (SseEvent.scanning (some p))).progressPct < 100) ∧
    (∀ evs, ((runEvents localStep initLocal evs).progressPct = 100 →
              (runEvents localStep initLocal evs).finished = true) ∧
            ((runEvents gitStep initGit evs).progressPct = 100 →
              (runEvents gitStep initGit evs).finished = true)) ∧
    (∀ evs, (∀ e ∈ evs, isTerminalEvent e = false) →
      (runEvents localStep initLocal evs).progressPct ≠ 100 ∧
      (runEvents gitStep initGit evs).progressPct ≠ 100) := by
  refine ⟨localScanPct_mono, gitScanPct_mono, ?_, ?_, ?_, ?_, ?_⟩
  · intro d t ht
    constructor
    · unfold localScanPct
      rw [if_pos ht]
      exact min_le_left _ _
    · unfold gitScanPct
      rw [if_pos ht]
      exact min_le_left _ _
  · intro d t
    exact ⟨localScanPct_lt_100 d t, gitScanPct_lt_100 d t⟩
  · intro s p
    exact ⟨localScanPct_lt_100 (numOr0 p.done) (numOr0 p.total),
           gitScanPct_lt_100 (numOr0 p.done) (numOr0 p.total)⟩
  · intro evs
    have hl := run_pctInv localStep localStep_pctInv evs initLocal
      (Or.inr ⟨by decide, rfl⟩)
    have hg := run_pctInv gitStep gitStep_pctInv evs initGit
      (Or.inr ⟨by decide, rfl⟩)
    constructor
    · intro hp
      rcases hl with hfin | ⟨hne, -⟩
      · exact hfin
      · exact absurd hp hne
    · intro hp
      rcases hg with hfin | ⟨hne, -⟩
      · exact hfin
      · exact absurd hp hne
  · intro evs hterm
    have hl := run_nonterminal_finished localStep localStep_nonterminal_finished
      evs initLocal hterm
    have hg := run_nonterminal_finished gitStep gitStep_nonterminal_finished
      evs initGit hterm
    have hlinv := run_pctInv localStep localStep_pctInv evs initLocal
      (Or.inr ⟨by decide, rfl⟩)
    have hginv := run_pctInv gitStep gitStep_pctInv evs initGit
      (Or.inr ⟨by decide, rfl⟩)
    constructor
    · rcases hlinv with hfin | ⟨hne, -⟩
      · rw [hl] at hfin
        exact absurd hfin (by decide)
      · exact hne
    · rcases hginv with hfin | ⟨hne, -⟩
      · rw [hg] at hfin
        exact absurd hfin (by decide)
      · exact hne

/-- Witness for the amended C8: at done 2 ≤ 4 out of 10 the local
scanning percent is monotone, and the trace consisting of a single
`scanning` event does not show percent 100. -/
theorem scanning_percent_monotone_amended_witness :
    localScanPct 2 10 ≤ localScanPct 4 10 ∧
    (runEvents localStep initLocal
      [SseEvent.scanning (some { done := some 2, total := some 10 })]).progressPct ≠ 100 := by
  constructor
  · exact scanning_percent_monotone_amended.1 2 4 10 (by decide)
  · exact (scanning_percent_monotone_amended.2.2.2.2.2.2
      [SseEvent.scanning (some { done := some 2, total := some 10 })]
      (by intro e he; simp at he; rw [he]; rfl)).1

/-! ### Claim C6 groundwork: the lexicographic order on names -/

theorem charListLe_total : ∀ a b : List Char, charListLe a b = true ∨ charListLe b a = true := by
  intro a
  induction a with
  | nil => intro b; left; rfl
  | cons x as ih =>
      intro b
      cases b with
      | nil => right; rfl
      | cons y bs =>
          show (if x < y then true else if x = y then charListLe as bs else false) = true ∨
               (if y < x then true else if y = x then charListLe bs as else false) = true
          rcases lt_trichotomy x y with h | h | h
          · left; rw [if_pos h]
          · subst h
            rcases ih bs with h' | h'
            · left; rw [if_neg (lt_irrefl x), if_pos rfl]; exact h'
            · right; rw [if_neg (lt_irrefl x), if_pos rfl]; exact h'
          · right; rw [if_pos h]

theorem charListLe_trans :
    ∀ a b c : List Char, charListLe a b = true → charListLe b c = true →
      charListLe a c = true := by
  intro a
  induction a with
  | nil => intro b c _ _; rfl
  | cons x as ih =>
      intro b c hab hbc
      cases b with
      | nil => exact absurd hab (by simp [charListLe])
      | cons y bs =>
          cases c with
          | nil => exact absurd hbc (by simp [charListLe])
          | cons z cs =>
              show (if x < z then true else if x = z then charListLe as cs else false) = true
              have hab' : (if x < y then true else if x = y then charListLe as bs else false) = true := hab
              have hbc' : (if y < z then true else if y = z then charListLe bs cs else false) = true := hbc
              by_cases hxy : x < y
              · by_cases hyz : y < z
                · rw [if_pos (lt_trans hxy hyz)]
                · rw [if_neg hyz] at hbc'
                  by_cases hyz2 : y = z
                  · rw [if_pos (hyz2 ▸ hxy)]
                  · rw [if_neg hyz2] at hbc'; cases hbc'
              · rw [if_neg hxy] at hab'
                by_cases hxy2 : x = y
                · subst hxy2
                  rw [if_pos rfl] at hab'
                  by_cases hyz : x < z
                  · rw [if_pos hyz]
                  · rw [if_neg hyz] at hbc' ⊢
                    by_cases hyz2 : x = z
                    · rw [if_pos hyz2] at hbc' ⊢
                      exact ih bs cs hab' hbc'
                    · rw [if_neg hyz2] at hbc'; cases hbc'
                · rw [if_neg hxy2] at hab'; cases hab'

theorem charListLe_antisymm :
    ∀ a b : List Char, charListLe a b = true → charListLe b a = true → a = b := by
  intro a
  induction a with
  | nil =>
      intro b _ hba
      cases b with
      | nil => rfl
      | cons y bs => exact absurd hba (by simp [charListLe])
  | cons x as ih =>
      intro b hab hba
      cases b with
      | nil => exact absurd hab (by simp [charListLe])
      | cons y bs =>
          have hab' : (if x < y then true else if x = y then charListLe as bs else false) = true := hab
          have hba' : (if y < x then true else if y = x then charListLe bs as else false) = true := hba
          by_cases hxy : x < y
          · rw [if_neg (lt_asymm hxy), if_neg (ne_of_gt hxy)] at hba'
            cases hba'
          · rw [if_neg hxy] at hab'
            by_cases hxy2 : x = y
            · subst hxy2
              rw [if_pos rfl] at hab'
              rw [if_neg hxy, if_pos rfl] at hba'
              rw [ih bs hab' hba']
            · rw [if_neg hxy2] at hab'; cases hab'

theorem charListLt_of_le_of_ne :
    ∀ a b : List Char, charListLe a b = true → a ≠ b → charListLt a b = true := by
  intro a
  induction a with
  | nil =>
      intro b _ hne
      cases b with
      | nil => exact absurd rfl hne
      | cons y bs => rfl
  | cons x as ih =>
      intro b hab hne
      cases b with
      | nil => exact absurd hab (by simp [charListLe])
      | cons y bs =>
          have hab' : (if x < y then true else if x = y then charListLe as bs else false) = true := hab
          show (if x < y then true else if x = y then charListLt as bs else false) = true
          by_cases hxy : x < y
          · rw [if_pos hxy]
          · rw [if_neg hxy] at hab' ⊢
            by_cases hxy2 : x = y
            · subst hxy2
              rw [if_pos rfl] at hab' ⊢
              exact ih bs hab' (by intro h; exact hne (by rw [h]))
            · rw [if_neg hxy2] at hab'; cases hab'

theorem charListLt_ne :
    ∀ a b : List Char, charListLt a b = true → a ≠ b := by
  intro a
  induction a with
  | nil =>
      intro b hlt
      cases b with
      | nil => cases hlt
      | cons y bs => simp
  | cons x as ih =>
      intro b hlt
      cases b with
      | nil => cases hlt
      | cons y bs =>
          have hlt' : (if x < y then true else if x = y then charListLt as bs else false) = true := hlt
          by_cases hxy : x < y


          · intro h
            injection h with h1 _
            exact absurd h1 (ne_of_lt hxy)
          · rw [if_neg hxy] at hlt'
            by_cases hxy2 : x = y
            · subst hxy2
              rw [if_pos rfl] at hlt'
              intro h
              injection h with _ h2
              exact ih bs hlt' h2
            · rw [if_neg hxy2] at hlt'; cases hlt'

/-- Two lists that are permutations of each other, both sorted by a
key, with pairwise-distinct keys, are equal. -/
theorem sorted_perm_key_nodup_eq {α : Type} (key : α → List Char) :
    ∀ (l1 l2 : List α), l1.Perm l2 →
      l1.Pairwise (fun a b => charListLe (key a) (key b) = true) →
      l2.Pairwise (fun a b => charListLe (key a) (key b) = true) →
      l1.Pairwise (fun a b => key a ≠ key b) →
      l1 = l2 := by
  intro l1
  induction l1 with
  | nil =>
      intro l2 hp _ _ _
      exact (List.Perm.eq_nil hp.symm).symm
  | cons x t1 ih =>
      intro l2 hp hs1 hs2 hnd
      have hx2 : x ∈ l2 := hp.mem_iff.mp (List.mem_cons_self _ _)
      cases l2 with
      | nil => exact absurd hx2 (List.not_mem_nil x)
      | cons y t2 =>
          have hxy : x = y := by
            rcases List.mem_cons.mp hx2 with h | hxin2
            · exact h
            · have hyx : charListLe (key y) (key x) = true :=
                (List.pairwise_cons.mp hs2).1 x hxin2
              have hy1 : y ∈ x :: t1 := hp.mem_iff.mpr (List.mem_cons_self _ _)
              rcases List.mem_cons.mp hy1 with h' | hyin1
              · exact h'.symm
              · have hxyle : charListLe (key x) (key y) = true :=
                  (List.pairwise_cons.mp hs1).1 y hyin1
                have hkeq : key x = key y := charListLe_antisymm _ _ hxyle hyx
                exact absurd hkeq ((List.pairwise_cons.mp hnd).1 y hyin1)
          subst hxy
          have hp' : t1.Perm t2 := List.Perm.cons_inv hp
          rw [ih t2 hp' (List.pairwise_cons.mp hs1).2 (List.pairwise_cons.mp hs2).2
            (List.pairwise_cons.mp hnd).2]

/-! ### Claim C6 groundwork: the zipper builder on path-derived entries
acts as a pure per-path insertion -/

theorem popWhileAux_noop (lvl : Nat) (frames : List BTFrame) (cur : List TreeNode)
    (h : ∀ f, frames.head? = some f → f.level < lvl) :
    popWhileAux lvl frames cur = ⟨frames, cur⟩ := by
  cases frames with
  | nil => rfl
  | cons f rest =>
      have hf : f.level < lvl := h f rfl
      rw [popWhileAux, if_neg (not_le.mpr hf)]

theorem popWhileAux_zero (frames : List BTFrame) (cur : List TreeNode) :
    popWhileAux 0 frames cur = ⟨[], popAllAux frames cur⟩ := by
  induction frames generalizing cur with
  | nil => rfl
  | cons f rest ih =>
      rw [popWhileAux, if_pos (Nat.zero_le _), ih, popAllAux]

theorem nodeLvl_level (lvl : Nat) (t : TreeNode) (h : NodeLvl lvl t) :
    t.level = lvl := by
  cases h with
  | mk => rfl

theorem nodeLvl_children (lvl : Nat) (t : TreeNode) (h : NodeLvl lvl t) :
    ∀ u ∈ t.children.getD [], NodeLvl (lvl + 1) u := by
  cases h with
  | mk lvl n p ty sup ch hch =>
      cases ch with
      | none => intro u hu; cases hu
      | some l => intro u hu; exact hch l rfl u hu

theorem finishState_cons (f : BTFrame) (rest : List BTFrame) (cur : List TreeNode) :
    finishState ⟨f :: rest, cur⟩ =
      finishState ⟨rest, f.beforeRev.reverse ++ closeFrame f cur :: f.after⟩ := rfl

theorem insertF_nil (pre : String) (lvl : Nat) (F : List TreeNode) :
    insertF pre lvl [] F = F := by
  simp only [insertF]

theorem insertF_single_found (pre : String) (lvl : Nat) (seg : String)
    (F : List TreeNode) (tr : List TreeNode × TreeNode × List TreeNode)
    (hsplit : splitAtKey (joinAgg pre seg) NodeType.file F = some tr) :
    insertF pre lvl [seg] F = F := by
  simp only [insertF, hsplit]

theorem insertF_single_none (pre : String) (lvl : Nat) (seg : String)
    (F : List TreeNode)
    (hsplit : splitAtKey (joinAgg pre seg) NodeType.file F = none) :
    insertF pre lvl [seg] F =
      F ++ [TreeNode.mk seg (joinAgg pre seg) NodeType.file lvl (some true) none] := by
  simp only [insertF, hsplit]

theorem insertF_deep_found (pre : String) (lvl : Nat) (seg s2 : String)
    (srest : List String) (F before after : List TreeNode) (x : TreeNode)
    (hsplit : splitAtKey (joinAgg pre seg) NodeType.folder F = some (before, x, after)) :
    insertF pre lvl (seg :: s2 :: srest) F =
      before ++ TreeNode.mk x.name x.path x.ty x.level x.supported
        (some (insertF (joinAgg pre seg) (lvl + 1) (s2 :: srest)
          (x.children.getD []))) :: after := by
  simp only [insertF, hsplit]
  obtain ⟨n, p, ty, l, sup, c⟩ := x
  rfl

theorem insertF_deep_none (pre : String) (lvl : Nat) (seg s2 : String)
    (srest : List String) (F : List TreeNode)
    (hsplit : splitAtKey (joinAgg pre seg) NodeType.folder F = none) :
    insertF pre lvl (seg :: s2 :: srest) F =
      F ++ [TreeNode.mk seg (joinAgg pre seg) NodeType.folder lvl (some true)
        (some (insertF (joinAgg pre seg) (lvl + 1) (s2 :: srest) []))] := by
  simp only [insertF, hsplit]

theorem buildStep_nopop_found_folder (frames : List BTFrame) (cur : List TreeNode)
    (e : DirectoryEntry)
    (hhead : ∀ f, frames.head? = some f → f.level < e.level)
    (b a : List TreeNode) (x : TreeNode)
    (hsplit : splitAtKey e.path e.type cur = some (b, x, a))
    (hty : e.type = NodeType.folder) :
    buildStep ⟨frames, cur⟩ e =
      ⟨{ beforeRev := b.reverse, after := a, name := x.name, path := x.path,
         level := x.level, supported := x.supported } :: frames, x.children.getD []⟩ := by
  simp only [buildStep]
  rw [popWhileAux_noop _ _ _ hhead]
  simp only [hsplit]
  rw [if_pos hty]

theorem buildStep_nopop_found_file (frames : List BTFrame) (cur : List TreeNode)
    (e : DirectoryEntry)
    (hhead : ∀ f, frames.head? = some f → f.level < e.level)
    (b a : List TreeNode) (x : TreeNode)
    (hsplit : splitAtKey e.path e.type cur = some (b, x, a))
    (hty : e.type = NodeType.file) :
    buildStep ⟨frames, cur⟩ e = ⟨frames, cur⟩ := by
  simp only [buildStep]
  rw [popWhileAux_noop _ _ _ hhead]
  simp only [hsplit]
  rw [if_neg (by rw [hty]; intro h; cases h)]

theorem buildStep_nopop_none_folder (frames : List BTFrame) (cur : List TreeNode)
    (e : DirectoryEntry)
    (hhead : ∀ f, frames.head? = some f → f.level < e.level)
    (hsplit : splitAtKey e.path e.type cur = none)
    (hty : e.type = NodeType.folder) :
    buildStep ⟨frames, cur⟩ e =
      ⟨{ beforeRev := cur.reverse, after := [], name := e.name, path := e.path,
         level := e.level, supported := e.supported } :: frames, []⟩ := by
  simp only [buildStep]
  rw [popWhileAux_noop _ _ _ hhead]
  simp only [hsplit]
  rw [if_pos hty]

theorem buildStep_nopop_none_file (frames : List BTFrame) (cur : List TreeNode)
    (e : DirectoryEntry)
    (hhead : ∀ f, frames.head? = some f → f.level < e.level)
    (hsplit : splitAtKey e.path e.type cur = none)
    (hty : e.type = NodeType.file) :
    buildStep ⟨frames, cur⟩ e = ⟨frames, cur ++ [nodeOfEntry e]⟩ := by
  simp only [buildStep]
  rw [popWhileAux_noop _ _ _ hhead]
  simp only [hsplit]
  rw [if_neg (by rw [hty]; intro h; cases h)]

theorem insertF_NodeLvl :
    ∀ (segs : List String) (pre : String) (lvl : Nat) (F : List TreeNode),
      (∀ t ∈ F, NodeLvl lvl t) →
      ∀ t ∈ insertF pre lvl segs F, NodeLvl lvl t := by
  intro segs
  induction segs with
  | nil =>
      intro pre lvl F hF
      rw [insertF_nil]
      exact hF
  | cons seg rest ih =>
      intro pre lvl F hF
      cases rest with
      | nil =>
          simp only [insertF]
          cases hsplit : splitAtKey (joinAgg pre seg) NodeType.file F with
          | some triple => exact hF
          | none =>
              intro t ht
              rcases List.mem_append.mp ht with h' | h'
              · exact hF t h'
              · rw [List.mem_singleton] at h'
                subst h'
                exact NodeLvl.mk lvl _ _ _ _ none (by intro l hl; cases hl)
      | cons s2 srest =>
          simp only [insertF]
          cases hsplit : splitAtKey (joinAgg pre seg) NodeType.folder F with
          | some triple =>
              obtain ⟨before, x, after⟩ := triple
              obtain ⟨heq, hxp, hxty⟩ :=
                splitAtKey_some_spec _ _ _ _ _ _ hsplit
              intro t ht
              rcases List.mem_append.mp ht with h' | h'
              · exact hF t (by rw [heq]; exact List.mem_append_left _ h')
              · rcases List.mem_cons.mp h' with h'' | h''
                · subst h''
                  have hx : NodeLvl lvl x :=
                    hF x (by rw [heq]; exact List.mem_append_right _ (List.mem_cons_self _ _))
                  have hchi := nodeLvl_children lvl x hx
                  have hxl := nodeLvl_level lvl x hx
                  obtain ⟨n, p, ty, l, sup, c⟩ := x
                  have hleq : l = lvl := hxl
                  subst hleq
                  refine NodeLvl.mk _ _ _ _ _ _ ?_
                  intro l2 hl2 u hu
                  cases hl2
                  exact ih _ _ _ hchi u hu
                · exact hF t (by
                    rw [heq]
                    exact List.mem_append_right _ (List.mem_cons_of_mem _ h''))
          | none =>
              intro t ht
              rcases List.mem_append.mp ht with h' | h'
              · exact hF t h'
              · rw [List.mem_singleton] at h'
                subst h'
                refine NodeLvl.mk _ _ _ _ _ _ ?_
                intro l2 hl2 u hu
                cases hl2
                exact ih _ _ _ (by intro u hu; cases hu) u hu

theorem entriesAux_foldl :
    ∀ (segs : List String) (pre : String) (lvl : Nat)
      (frames : List BTFrame) (cur : List TreeNode),
      segs ≠ [] →
      (∀ f, frames.head? = some f → f.level < lvl) →
      (∀ t ∈ cur, NodeLvl lvl t) →
      finishState ((entriesAux pre lvl segs).foldl buildStep ⟨frames, cur⟩) =
        finishState ⟨frames, insertF pre lvl segs cur⟩ := by
  intro segs
  induction segs with
  | nil => intro pre lvl frames cur hne _ _; exact absurd rfl hne
  | cons seg rest ih =>
      intro pre lvl frames cur _ hhead hlvl
      cases rest with
      | nil =>
          simp only [entriesAux, List.foldl_cons, List.foldl_nil]
          cases hsplit : splitAtKey (joinAgg pre seg) NodeType.file cur with
          | some triple =>
              obtain ⟨before, x, after⟩ := triple
              rw [buildStep_nopop_found_file frames cur
                { type := NodeType.file, name := seg, path := joinAgg pre seg,
                  level := lvl, supported := some true } hhead before after x hsplit rfl,
                insertF_single_found pre lvl seg cur (before, x, after) hsplit]
          | none =>
              rw [buildStep_nopop_none_file frames cur
                { type := NodeType.file, name := seg, path := joinAgg pre seg,
                  level := lvl, supported := some true } hhead hsplit rfl,
                insertF_single_none pre lvl seg cur hsplit]
              rfl
      | cons s2 srest =>
          simp only [entriesAux, List.foldl_cons]
          cases hsplit : splitAtKey (joinAgg pre seg) NodeType.folder cur with
          | some triple =>
              obtain ⟨before, x, after⟩ := triple
              obtain ⟨heq, hxp, hxty⟩ := splitAtKey_some_spec _ _ _ _ _ _ hsplit
              rw [buildStep_nopop_found_folder frames cur
                { type := NodeType.folder, name := seg, path := joinAgg pre seg,
                  level := lvl, supported := some true } hhead before after x hsplit rfl,
                insertF_deep_found pre lvl seg s2 srest cur before after x hsplit]
              have hx : NodeLvl lvl x :=
                hlvl x (by rw [heq]; exact List.mem_append_right _ (List.mem_cons_self _ _))
              have hxl := nodeLvl_level lvl x hx
              have hchi := nodeLvl_children lvl x hx
              have hstep := ih (joinAgg pre seg) (lvl + 1)
                ({ beforeRev := before.reverse, after := after, name := x.name,
                   path := x.path, level := x.level, supported := x.supported } :: frames)
                (x.children.getD []) (by simp)
                (by
                  intro f hf
                  simp only [List.head?_cons, Option.some.injEq] at hf
                  subst hf
                  show x.level < lvl + 1
                  rw [hxl]
                  exact Nat.lt_succ_self lvl)
                hchi
              rw [hstep, finishState_cons]
              simp only [List.reverse_reverse, closeFrame]
              rw [hxty]
          | none =>
              rw [buildStep_nopop_none_folder frames cur
                { type := NodeType.folder, name := seg, path := joinAgg pre seg,
                  level := lvl, supported := some true } hhead hsplit rfl,
                insertF_deep_none pre lvl seg s2 srest cur hsplit]
              have hstep := ih (joinAgg pre seg) (lvl + 1)
                ({ beforeRev := cur.reverse, after := [], name := seg,
                   path := joinAgg pre seg, level := lvl,
                   supported := some true } :: frames)
                [] (by simp)
                (by
                  intro f hf
                  simp only [List.head?_cons, Option.some.injEq] at hf
                  subst hf
                  exact Nat.lt_succ_self lvl)
                (by intro t ht; cases ht)
              rw [hstep, finishState_cons]
              simp only [List.reverse_reverse, closeFrame]

theorem finishState_nilF (cur : List TreeNode) : finishState ⟨[], cur⟩ = cur := rfl

theorem buildStep_level0 (e : DirectoryEntry) (he : e.level = 0) (s : BTState) :
    buildStep s e = buildStep ⟨[], finishState s⟩ e := by
  simp only [buildStep, he]
  rw [popWhileAux_zero]
  rfl

/-- The analyzer `buildTree`, fed the git handlers' path decomposition,
computes the same forest as folding the pure per-path insertion
`insertF` over the path list. -/
theorem buildTree_eq_foldl_insertF (paths : List String) :
    buildTree (pathsToEntries paths) =
      paths.foldl (fun F p => insertF "" 0 (segmentsOf p) F) [] := by
  unfold buildTree
  have main : ∀ (ps : List String) (s : BTState),
      (∀ t ∈ finishState s, NodeLvl 0 t) →
      finishState ((pathsToEntries ps).foldl buildStep s) =
        ps.foldl (fun F p => insertF "" 0 (segmentsOf p) F) (finishState s) := by
    intro ps
    induction ps with
    | nil => intro s _; rfl
    | cons p rest ihp =>
        intro s hs
        have hsplitlist : pathsToEntries (p :: rest) =
            pathToEntries p ++ pathsToEntries rest := rfl
        simp only [hsplitlist, List.foldl_append, List.foldl_cons]
        cases hsegs : segmentsOf p with
        | nil =>
            have h1 : pathToEntries p = [] := by
              unfold pathToEntries
              rw [hsegs]
              simp only [entriesAux]
            rw [h1, List.foldl_nil, insertF_nil]
            exact ihp s hs
        | cons seg segrest =>
            have h1 : pathToEntries p = entriesAux "" 0 (seg :: segrest) := by
              unfold pathToEntries
              rw [hsegs]
            rw [h1]
            have hblock : (entriesAux "" 0 (seg :: segrest)).foldl buildStep s =
                (entriesAux "" 0 (seg :: segrest)).foldl buildStep ⟨[], finishState s⟩ := by
              cases segrest with
              | nil =>
                  simp only [entriesAux, List.foldl_cons]
                  rw [buildStep_level0 _ rfl s]
              | cons a b =>
                  simp only [entriesAux, List.foldl_cons]
                  rw [buildStep_level0 _ rfl s]
            rw [hblock]
            have hres := entriesAux_foldl (seg :: segrest) "" 0 [] (finishState s)
              (by simp) (by intro f hf; cases hf) hs
            have hnext := ihp ((entriesAux "" 0 (seg :: segrest)).foldl buildStep
              ⟨[], finishState s⟩)
              (by
                rw [hres]
                show ∀ t ∈ finishState ⟨[], insertF "" 0 (seg :: segrest) (finishState s)⟩,
                  NodeLvl 0 t
                exact insertF_NodeLvl (seg :: segrest) "" 0 (finishState s) hs)
            rw [hnext, hres, finishState_nilF]
  have h0 := main paths ⟨[], []⟩ (by intro t ht; cases ht)
  exact h0

/-! ### Claim C6: relating both builders through node-presence sets -/

theorem joinAgg_inj (pre a b : String) (h : joinAgg pre a = joinAgg pre b) : a = b := by
  unfold joinAgg at h
  by_cases hp : pre = ""
  · rw [if_pos hp, if_pos hp] at h; exact h
  · rw [if_neg hp, if_neg hp] at h
    have hd := congrArg String.data h
    simp only [String.data_append] at hd
    exact String.ext (List.append_cancel_left hd)

theorem hasT_nil : ∀ (q : List String) (ty : NodeType), ¬ hasT [] q ty := by
  intro q ty h
  cases q with
  | nil => simp only [hasT] at h
  | cons s r =>
      cases r with
      | nil => simp only [hasT] at h; obtain ⟨t, ht, _⟩ := h; cases ht
      | cons s2 r2 => simp only [hasT] at h; obtain ⟨t, ht, _⟩ := h; cases ht

theorem hasTrie_nil : ∀ (q : List String) (ty : NodeType), ¬ hasTrie [] q ty := by
  intro q ty h
  cases q with
  | nil => simp only [hasTrie] at h
  | cons s r =>
      cases r with
      | nil => simp only [hasTrie] at h; obtain ⟨t, ht, _⟩ := h; cases ht
      | cons s2 r2 => simp only [hasTrie] at h; obtain ⟨t, ht, _, _⟩ := h; cases ht

theorem prefix_single {α : Type} (q : List α) (a : α) (h : q <+: [a]) :
    q = [] ∨ q = [a] := by
  match q with
  | [] => exact Or.inl rfl
  | b :: t =>
      obtain ⟨r, hr⟩ := h
      cases t with
      | nil =>
          right
          have : b = a := by
            have := congrArg (fun l => l.head?) hr
            simpa using this
          rw [this]
      | cons c t2 => simp at hr

theorem pairwise_key_unique {α β : Type} (key : α → β) :
    ∀ (l : List α), l.Pairwise (fun a b => key a ≠ key b) →
      ∀ a ∈ l, ∀ b ∈ l, key a = key b → a = b := by
  intro l
  induction l with
  | nil => intro _ a ha; cases ha
  | cons x t ih =>
      intro h a ha b hb hk
      obtain ⟨hx, ht⟩ := List.pairwise_cons.mp h
      rcases List.mem_cons.mp ha with rfl | ha'
      · rcases List.mem_cons.mp hb with rfl | hb'
        · rfl
        · exact absurd hk (hx b hb')
      · rcases List.mem_cons.mp hb with rfl | hb'
        · exact absurd hk.symm (hx a ha')
        · exact ih ht a ha' b hb' hk

theorem pairwise_key_congr_mid {α β : Type} (key : α → β)
    (before after : List α) (x y : α) (hxy : key x = key y)
    (h : (before ++ x :: after).Pairwise fun a b => key a ≠ key b) :
    (before ++ y :: after).Pairwise fun a b => key a ≠ key b := by
  rcases List.pairwise_append.mp h with ⟨hb, hxa, hcross⟩
  rcases List.pairwise_cons.mp hxa with ⟨hxafter, hafter⟩
  refine List.pairwise_append.mpr ⟨hb, List.pairwise_cons.mpr ⟨?_, hafter⟩, ?_⟩
  · intro b hb2; rw [← hxy]; exact hxafter b hb2
  · intro a ha b hbmem
    rcases List.mem_cons.mp hbmem with rfl | hbm
    · rw [← hxy]; exact hcross a ha x (List.mem_cons_self _ _)
    · exact hcross a ha b (List.mem_cons_of_mem _ hbm)

theorem charListLe_of_lt :
    ∀ a b : List Char, charListLt a b = true → charListLe a b = true := by
  intro a
  induction a with
  | nil => intro b _; cases b <;> rfl
  | cons x xs ih =>
      intro b h
      cases b with
      | nil => simp [charListLt] at h
      | cons y ys =>
          rw [charListLt] at h
          rw [charListLe]
          by_cases hlt : x < y
          · rw [if_pos hlt]
          · rw [if_neg hlt] at h ⊢
            by_cases heq : x = y
            · rw [if_pos heq] at h ⊢; exact ih ys h
            · rw [if_neg heq] at h; cases h

theorem charListLt_asymm (a b : List Char)
    (h1 : charListLt a b = true) (h2 : charListLt b a = true) : False := by
  have hne := charListLt_ne a b h1
  exact hne (charListLe_antisymm a b (charListLe_of_lt a b h1) (charListLe_of_lt b a h2))

theorem sorted_mem_eq {α : Type} (key : α → List Char) :
    ∀ l1 l2 : List α,
      l1.Pairwise (fun a b => charListLt (key a) (key b) = true) →
      l2.Pairwise (fun a b => charListLt (key a) (key b) = true) →
      (∀ x, x ∈ l1 ↔ x ∈ l2) → l1 = l2 := by
  intro l1
  induction l1 with
  | nil =>
      intro l2 _ _ hmem
      cases l2 with
      | nil => rfl
      | cons y t2 => exact absurd ((hmem y).mpr (List.mem_cons_self _ _)) (List.not_mem_nil y)
  | cons a t1 ih =>
      intro l2 h1 h2 hmem
      cases l2 with
      | nil => exact absurd ((hmem a).mp (List.mem_cons_self _ _)) (List.not_mem_nil a)
      | cons b t2 =>
          obtain ⟨ha1, ht1⟩ := List.pairwise_cons.mp h1
          obtain ⟨hb2, ht2⟩ := List.pairwise_cons.mp h2
          have hab : a = b := by
            by_contra hne
            have ha2 : a ∈ t2 := by
              rcases List.mem_cons.mp ((hmem a).mp (List.mem_cons_self _ _)) with h | h
              · exact absurd h hne
              · exact h
            have hb1 : b ∈ t1 := by
              rcases List.mem_cons.mp ((hmem b).mpr (List.mem_cons_self _ _)) with h | h
              · exact absurd h.symm hne
              · exact h
            exact charListLt_asymm _ _ (ha1 b hb1) (hb2 a ha2)
          subst hab
          have htails : ∀ x, x ∈ t1 ↔ x ∈ t2 := by
            intro x
            constructor
            · intro hx
              have hxne : x ≠ a := fun hEq => by
                exact charListLt_ne _ _ (ha1 x hx) (by rw [hEq])
              rcases List.mem_cons.mp ((hmem x).mp (List.mem_cons_of_mem _ hx)) with h | h
              · exact absurd h hxne
              · exact h
            · intro hx
              have hxne : x ≠ a := fun hEq => by
                exact charListLt_ne _ _ (hb2 x hx) (by rw [hEq])
              rcases List.mem_cons.mp ((hmem x).mpr (List.mem_cons_of_mem _ hx)) with h | h
              · exact absurd h hxne
              · exact h
          rw [ih t2 ht1 ht2 htails]

theorem wfe_pairwise {pre : String} {lvl : Nat} {F : List TreeNode}
    (h : WFe pre lvl F) : F.Pairwise (fun a b => a.name ≠ b.name) := by
  cases h with | mk _ _ _ h1 h2 h3 h4 h5 h6 => exact h1

theorem wfe_path {pre : String} {lvl : Nat} {F : List TreeNode}
    (h : WFe pre lvl F) : ∀ t ∈ F, t.path = joinAgg pre t.name := by
  cases h with | mk _ _ _ h1 h2 h3 h4 h5 h6 => exact h2

theorem wfe_level {pre : String} {lvl : Nat} {F : List TreeNode}
    (h : WFe pre lvl F) : ∀ t ∈ F, t.level = lvl := by
  cases h with | mk _ _ _ h1 h2 h3 h4 h5 h6 => exact h3

theorem wfe_folder {pre : String} {lvl : Nat} {F : List TreeNode}
    (h : WFe pre lvl F) :
    ∀ t ∈ F, t.ty = NodeType.folder → t.children.isSome = true := by
  cases h with | mk _ _ _ h1 h2 h3 h4 h5 h6 => exact h4

theorem wfe_file {pre : String} {lvl : Nat} {F : List TreeNode}
    (h : WFe pre lvl F) : ∀ t ∈ F, t.ty = NodeType.file → t.children = none := by
  cases h with | mk _ _ _ h1 h2 h3 h4 h5 h6 => exact h5

theorem wfe_rec {pre : String} {lvl : Nat} {F : List TreeNode}
    (h : WFe pre lvl F) :
    ∀ t ∈ F, ∀ l, t.children = some l → WFe (joinAgg pre t.name) (lvl + 1) l := by
  cases h with | mk _ _ _ h1 h2 h3 h4 h5 h6 => exact h6

theorem wfe_name_eq {pre : String} {lvl : Nat} {F : List TreeNode}
    (h : WFe pre lvl F) (t : TreeNode) (ht : t ∈ F) (s : String)
    (hp : t.path = joinAgg pre s) : t.name = s :=
  joinAgg_inj pre t.name s (by rw [← wfe_path h t ht, hp])

theorem wfe_nilF (pre : String) (lvl : Nat) : WFe pre lvl [] :=
  WFe.mk pre lvl [] List.Pairwise.nil
    (by intro t ht; cases ht) (by intro t ht; cases ht)
    (by intro t ht; cases ht) (by intro t ht; cases ht)
    (by intro t ht; cases ht)

theorem wft_pairwise {pre : String} {cs : List (String × JTrie)}
    (h : WFt pre cs) : cs.Pairwise (fun a b => a.1 ≠ b.1) := by
  cases h with | mk _ _ h1 h2 h3 h4 => exact h1

theorem wft_name {pre : String} {cs : List (String × JTrie)}
    (h : WFt pre cs) : ∀ kt ∈ cs, kt.2.name = kt.1 := by
  cases h with | mk _ _ h1 h2 h3 h4 => exact h2

theorem wft_path {pre : String} {cs : List (String × JTrie)}
    (h : WFt pre cs) : ∀ kt ∈ cs, kt.2.path = "/" ++ joinAgg pre kt.1 := by
  cases h with | mk _ _ h1 h2 h3 h4 => exact h3

theorem wft_rec {pre : String} {cs : List (String × JTrie)}
    (h : WFt pre cs) : ∀ kt ∈ cs, WFt (joinAgg pre kt.1) kt.2.children := by
  cases h with | mk _ _ h1 h2 h3 h4 => exact h4

theorem wft_nil (pre : String) : WFt pre [] :=
  WFt.mk pre [] List.Pairwise.nil
    (by intro kt hkt; cases hkt) (by intro kt hkt; cases hkt)
    (by intro kt hkt; cases hkt)

theorem swf_sorted {pre : String} {C : List Shape} (h : ShapeWF pre C) :
    C.Pairwise (fun a b => charListLt a.name.data b.name.data = true) := by
  cases h with | mk _ _ h1 h2 h3 h4 => exact h1

theorem swf_path {pre : String} {C : List Shape} (h : ShapeWF pre C) :
    ∀ s ∈ C, s.path = joinAgg pre s.name := by
  cases h with | mk _ _ h1 h2 h3 h4 => exact h2

theorem swf_file {pre : String} {C : List Shape} (h : ShapeWF pre C) :
    ∀ s ∈ C, s.ty = NodeType.file → s.children = [] := by
  cases h with | mk _ _ h1 h2 h3 h4 => exact h3

theorem swf_rec {pre : String} {C : List Shape} (h : ShapeWF pre C) :
    ∀ s ∈ C, ShapeWF (joinAgg pre s.name) s.children := by
  cases h with | mk _ _ h1 h2 h3 h4 => exact h4

theorem swf_nil (pre : String) : ShapeWF pre [] :=
  ShapeWF.mk pre [] List.Pairwise.nil
    (by intro s hs; cases hs) (by intro s hs; cases hs)
    (by intro s hs; cases hs)

theorem hasT_nil_iff (F : List TreeNode) (ty : NodeType) : hasT F [] ty ↔ False := by
  simp only [hasT]

theorem hasT_single_iff (F : List TreeNode) (q1 : String) (ty : NodeType) :
    hasT F [q1] ty ↔ ∃ t ∈ F, t.name = q1 ∧ t.ty = ty := by
  simp only [hasT]

theorem hasT_deep_iff (F : List TreeNode) (q1 q2 : String) (qr : List String)
    (ty : NodeType) :
    hasT F (q1 :: q2 :: qr) ty ↔
      ∃ t ∈ F, t.name = q1 ∧ t.ty = NodeType.folder ∧
        hasT (t.children.getD []) (q2 :: qr) ty := by
  simp only [hasT]

theorem hasTrie_single_iff (cs : List (String × JTrie)) (q1 : String) (ty : NodeType) :
    hasTrie cs [q1] ty ↔ ∃ t, (q1, t) ∈ cs ∧ t.ty = ty := by
  simp only [hasTrie]

theorem hasTrie_deep_iff (cs : List (String × JTrie)) (q1 q2 : String)
    (qr : List String) (ty : NodeType) :
    hasTrie cs (q1 :: q2 :: qr) ty ↔
      ∃ t, (q1, t) ∈ cs ∧ t.ty = NodeType.folder ∧
        hasTrie t.children (q2 :: qr) ty := by
  simp only [hasTrie]

theorem hasShape_single_iff (C : List Shape) (q1 : String) (ty : NodeType) :
    hasShape C [q1] ty ↔ ∃ s ∈ C, s.name = q1 ∧ s.ty = ty := by
  simp only [hasShape]

theorem hasShape_deep_iff (C : List Shape) (q1 q2 : String) (qr : List String)
    (ty : NodeType) :
    hasShape C (q1 :: q2 :: qr) ty ↔
      ∃ s ∈ C, s.name = q1 ∧ s.ty = NodeType.folder ∧
        hasShape s.children (q2 :: qr) ty := by
  simp only [hasShape]

/-- Effect of one pure path insertion on an entry-built forest: the
well-formedness is preserved and the presence set grows by exactly the
nonempty prefixes of the inserted segment list (the full list as a
file, the proper prefixes as folders), provided no file node already
sits on a proper prefix and no folder node on the full list. -/
theorem insertF_spec :
    ∀ (segs : List String) (pre : String) (lvl : Nat) (F : List TreeNode),
      segs ≠ [] →
      WFe pre lvl F →
      (∀ q, q ≠ [] → q <+: segs → q ≠ segs → ¬ hasT F q NodeType.file) →
      ¬ hasT F segs NodeType.folder →
      WFe pre lvl (insertF pre lvl segs F) ∧
      (∀ q ty, hasT (insertF pre lvl segs F) q ty ↔
        (hasT F q ty ∨ (q ≠ [] ∧ q <+: segs ∧
          ((ty = NodeType.file ∧ q = segs) ∨
           (ty = NodeType.folder ∧ q ≠ segs))))) := by
  intro segs
  induction segs with
  | nil => intro pre lvl F hne; exact absurd rfl hne
  | cons seg rest ih =>
      intro pre lvl F _ hwf hfile hfold
      cases rest with
      | nil =>
          cases hsplit : splitAtKey (joinAgg pre seg) NodeType.file F with
          | some triple =>
              obtain ⟨b0, x, a0⟩ := triple
              rw [insertF_single_found pre lvl seg F (b0, x, a0) hsplit]
              obtain ⟨hFeq, hxpath, hxty⟩ := splitAtKey_some_spec _ _ _ _ _ _ hsplit
              have hxmem : x ∈ F := by
                rw [hFeq]; exact List.mem_append_right _ (List.mem_cons_self _ _)
              have hxname : x.name = seg := wfe_name_eq hwf x hxmem seg hxpath
              refine ⟨hwf, ?_⟩
              intro q ty
              constructor
              · exact Or.inl
              · rintro (h | ⟨hqne, hqpre, hcase⟩)
                · exact h
                · rcases prefix_single q seg hqpre with rfl | rfl
                  · exact absurd rfl hqne
                  · rcases hcase with ⟨hty, _⟩ | ⟨_, hne2⟩
                    · subst hty
                      exact (hasT_single_iff F seg NodeType.file).mpr
                        ⟨x, hxmem, hxname, hxty⟩
                    · exact absurd rfl hne2
          | none =>
              rw [insertF_single_none pre lvl seg F hsplit]
              have hnoname : ∀ t ∈ F, t.name ≠ seg := by
                intro t ht hname
                have hpath : t.path = joinAgg pre seg := by
                  rw [wfe_path hwf t ht, hname]
                cases hty2 : t.ty with
                | file => exact splitAtKey_none_spec _ _ F hsplit t ht ⟨hpath, hty2⟩
                | folder =>
                    exact hfold ((hasT_single_iff F seg NodeType.folder).mpr
                      ⟨t, ht, hname, hty2⟩)
              constructor
              · refine WFe.mk _ _ _ ?_ ?_ ?_ ?_ ?_ ?_
                · rw [List.pairwise_append]
                  refine ⟨wfe_pairwise hwf,
                    List.pairwise_cons.mpr ⟨by (intro b hb; cases hb), List.Pairwise.nil⟩, ?_⟩
                  intro a ha b hb
                  rw [List.mem_singleton] at hb
                  subst hb
                  simp only [TreeNode.name]
                  exact hnoname a ha
                · intro t ht
                  rcases List.mem_append.mp ht with h | h
                  · exact wfe_path hwf t h
                  · rw [List.mem_singleton] at h
                    subst h
                    simp only [TreeNode.path, TreeNode.name]
                · intro t ht
                  rcases List.mem_append.mp ht with h | h
                  · exact wfe_level hwf t h
                  · rw [List.mem_singleton] at h
                    subst h
                    simp only [TreeNode.level]
                · intro t ht hf
                  rcases List.mem_append.mp ht with h | h
                  · exact wfe_folder hwf t h hf
                  · rw [List.mem_singleton] at h
                    subst h
                    simp only [TreeNode.ty] at hf
                    cases hf
                · intro t ht hf
                  rcases List.mem_append.mp ht with h | h
                  · exact wfe_file hwf t h hf
                  · rw [List.mem_singleton] at h
                    subst h
                    simp only [TreeNode.children]
                · intro t ht l hl
                  rcases List.mem_append.mp ht with h | h
                  · exact wfe_rec hwf t h l hl
                  · rw [List.mem_singleton] at h
                    subst h
                    simp only [TreeNode.children] at hl
                    cases hl
              · intro q ty
                cases q with
                | nil =>
                    rw [hasT_nil_iff, hasT_nil_iff]
                    constructor
                    · exact False.elim
                    · rintro (h | ⟨h, _⟩)
                      · exact h
                      · exact h rfl
                | cons q1 qt =>
                    cases qt with
                    | nil =>
                        rw [hasT_single_iff, hasT_single_iff]
                        constructor
                        · rintro ⟨t, ht, hn, hty⟩
                          rcases List.mem_append.mp ht with h | h
                          · exact Or.inl ⟨t, h, hn, hty⟩
                          · rw [List.mem_singleton] at h
                            subst h
                            simp only [TreeNode.name] at hn
                            simp only [TreeNode.ty] at hty
                            right
                            refine ⟨by simp, ?_, Or.inl ⟨hty.symm, by rw [hn]⟩⟩
                            rw [hn]
                        · rintro (⟨t, ht, hn, hty⟩ | ⟨hne, hpre, hcase⟩)
                          · exact ⟨t, List.mem_append_left _ ht, hn, hty⟩
                          · rcases prefix_single _ _ hpre with h0 | h0
                            · cases h0
                            · have hq1 : q1 = seg := by injection h0
                              rcases hcase with ⟨hty, _⟩ | ⟨_, hne2⟩
                              · subst hty
                                refine ⟨TreeNode.mk seg (joinAgg pre seg)
                                  NodeType.file lvl (some true) none,
                                  List.mem_append_right _ (List.mem_cons_self _ _),
                                  ?_, ?_⟩
                                · simp only [TreeNode.name]; exact hq1.symm
                                · simp only [TreeNode.ty]
                              · exact absurd h0 hne2
                    | cons q2 qr =>
                        rw [hasT_deep_iff, hasT_deep_iff]
                        constructor
                        · rintro ⟨t, ht, hn, hty, hrec⟩
                          rcases List.mem_append.mp ht with h | h
                          · exact Or.inl ⟨t, h, hn, hty, hrec⟩
                          · rw [List.mem_singleton] at h
                            subst h
                            simp only [TreeNode.ty] at hty
                            cases hty
                        · rintro (⟨t, ht, hn, hty, hrec⟩ | ⟨_, hpre, _⟩)
                          · exact ⟨t, List.mem_append_left _ ht, hn, hty, hrec⟩
                          · rcases prefix_single _ _ hpre with h0 | h0
                            · cases h0
                            · cases h0
      | cons s2 srest =>
          cases hsplit : splitAtKey (joinAgg pre seg) NodeType.folder F with
          | some triple =>
              obtain ⟨b0, x, a0⟩ := triple
              rw [insertF_deep_found pre lvl seg s2 srest F b0 a0 x hsplit]
              obtain ⟨hFeq, hxpath, hxty⟩ := splitAtKey_some_spec _ _ _ _ _ _ hsplit
              have hxmem : x ∈ F := by
                rw [hFeq]; exact List.mem_append_right _ (List.mem_cons_self _ _)
              have hxname : x.name = seg := wfe_name_eq hwf x hxmem seg hxpath
              obtain ⟨cl, hcl⟩ : ∃ cl, x.children = some cl := by
                have hS := wfe_folder hwf x hxmem hxty
                cases hc : x.children with
                | none => rw [hc] at hS; cases hS
                | some cl => exact ⟨cl, rfl⟩
              have hclD : x.children.getD [] = cl := by rw [hcl]; rfl
              rw [hclD]
              have hwfc : WFe (joinAgg pre seg) (lvl + 1) cl := by
                have h := wfe_rec hwf x hxmem cl hcl
                rw [hxname] at h
                exact h
              have hfile' : ∀ q', q' ≠ [] → q' <+: (s2 :: srest) →
                  q' ≠ (s2 :: srest) → ¬ hasT cl q' NodeType.file := by
                intro q' hq1 hq2 hq3 hh
                refine hfile (seg :: q') (by simp)
                  (List.cons_prefix_cons.mpr ⟨rfl, hq2⟩)
                  (by intro hEq; exact hq3 (by injection hEq)) ?_
                cases q' with
                | nil => exact absurd rfl hq1
                | cons a b =>
                    exact (hasT_deep_iff F seg a b NodeType.file).mpr
                      ⟨x, hxmem, hxname, hxty, by rw [hclD]; exact hh⟩
              have hfold' : ¬ hasT cl (s2 :: srest) NodeType.folder := by
                intro hh
                exact hfold ((hasT_deep_iff F seg s2 srest NodeType.folder).mpr
                  ⟨x, hxmem, hxname, hxty, by rw [hclD]; exact hh⟩)
              obtain ⟨hwfc', hchar⟩ :=
                ih (joinAgg pre seg) (lvl + 1) cl (by simp) hwfc hfile' hfold'
              have hpwF := wfe_pairwise hwf
              rw [hFeq] at hpwF
              obtain ⟨hpb, hpxa, hcrossF⟩ := List.pairwise_append.mp hpwF
              obtain ⟨hxvsafter, hpa⟩ := List.pairwise_cons.mp hpxa
              have hbname : ∀ t ∈ b0, t.name ≠ seg := by
                intro t ht
                rw [← hxname]
                exact hcrossF t ht x (List.mem_cons_self _ _)
              have haname : ∀ t ∈ a0, t.name ≠ seg := by
                intro t ht h
                exact hxvsafter t ht (by rw [hxname, h])
              have hmemF : ∀ t, t ∈ b0 ∨ t ∈ a0 → t ∈ F := by
                intro t h
                rw [hFeq]
                rcases h with h | h
                · exact List.mem_append_left _ h
                · exact List.mem_append_right _ (List.mem_cons_of_mem _ h)
              constructor
              · refine WFe.mk _ _ _ ?_ ?_ ?_ ?_ ?_ ?_
                · refine pairwise_key_congr_mid TreeNode.name b0 a0 x _ ?_ hpwF
                  simp only [TreeNode.name]
                · intro t ht
                  rcases List.mem_append.mp ht with h | h
                  · exact wfe_path hwf t (hmemF t (Or.inl h))
                  · rcases List.mem_cons.mp h with rfl | h'
                    · simp only [TreeNode.path, TreeNode.name]
                      exact wfe_path hwf x hxmem
                    · exact wfe_path hwf t (hmemF t (Or.inr h'))
                · intro t ht
                  rcases List.mem_append.mp ht with h | h
                  · exact wfe_level hwf t (hmemF t (Or.inl h))
                  · rcases List.mem_cons.mp h with rfl | h'
                    · simp only [TreeNode.level]
                      exact wfe_level hwf x hxmem
                    · exact wfe_level hwf t (hmemF t (Or.inr h'))
                · intro t ht hf
                  rcases List.mem_append.mp ht with h | h
                  · exact wfe_folder hwf t (hmemF t (Or.inl h)) hf
                  · rcases List.mem_cons.mp h with rfl | h'
                    · simp only [TreeNode.children, Option.isSome]
                    · exact wfe_folder hwf t (hmemF t (Or.inr h')) hf
                · intro t ht hf
                  rcases List.mem_append.mp ht with h | h
                  · exact wfe_file hwf t (hmemF t (Or.inl h)) hf
                  · rcases List.mem_cons.mp h with rfl | h'
                    · have hf2 : x.ty = NodeType.file := hf
                      rw [hxty] at hf2
                      cases hf2
                    · exact wfe_file hwf t (hmemF t (Or.inr h')) hf
                · intro t ht l hl
                  rcases List.mem_append.mp ht with h | h
                  · exact wfe_rec hwf t (hmemF t (Or.inl h)) l hl
                  · rcases List.mem_cons.mp h with rfl | h'
                    · have hl2 : some (insertF (joinAgg pre seg) (lvl + 1)
                        (s2 :: srest) cl) = some l := hl
                      injection hl2 with hl3
                      subst hl3
                      have hgoal : WFe (joinAgg pre x.name) (lvl + 1)
                          (insertF (joinAgg pre seg) (lvl + 1) (s2 :: srest) cl) := by
                        rw [hxname]
                        exact hwfc'
                      exact hgoal
                    · exact wfe_rec hwf t (hmemF t (Or.inr h')) l hl
              · intro q ty
                cases q with
                | nil =>
                    rw [hasT_nil_iff, hasT_nil_iff]
                    constructor
                    · exact False.elim
                    · rintro (h | ⟨h, _⟩)
                      · exact h
                      · exact h rfl
                | cons q1 qt =>
                    cases qt with
                    | nil =>
                        rw [hasT_single_iff, hasT_single_iff]
                        constructor
                        · rintro ⟨t, ht, hn, hty⟩
                          rcases List.mem_append.mp ht with h | h
                          · exact Or.inl ⟨t, hmemF t (Or.inl h), hn, hty⟩
                          · rcases List.mem_cons.mp h with rfl | h'
                            · exact Or.inl ⟨x, hxmem, hn, hty⟩
                            · exact Or.inl ⟨t, hmemF t (Or.inr h'), hn, hty⟩
                        · rintro (⟨t, ht, hn, hty⟩ | ⟨hne, hpre, hcase⟩)
                          · rw [hFeq] at ht
                            rcases List.mem_append.mp ht with h | h
                            · exact ⟨t, List.mem_append_left _ h, hn, hty⟩
                            · rcases List.mem_cons.mp h with rfl | h'
                              · refine ⟨TreeNode.mk t.name t.path t.ty t.level
                                  t.supported (some (insertF (joinAgg pre seg)
                                    (lvl + 1) (s2 :: srest) cl)),
                                  List.mem_append_right _ (List.mem_cons_self _ _),
                                  hn, hty⟩
                              · exact ⟨t, List.mem_append_right _
                                  (List.mem_cons_of_mem _ h'), hn, hty⟩
                          · have hq1 : q1 = seg := by
                              rcases List.cons_prefix_cons.mp hpre with ⟨h1, _⟩
                              exact h1
                            rcases hcase with ⟨_, hq⟩ | ⟨hty, _⟩
                            · cases hq
                            · subst hty
                              refine ⟨TreeNode.mk x.name x.path x.ty x.level
                                x.supported (some (insertF (joinAgg pre seg)
                                  (lvl + 1) (s2 :: srest) cl)),
                                List.mem_append_right _ (List.mem_cons_self _ _),
                                by (show x.name = q1; rw [hxname, hq1]), hxty⟩
                    | cons q2 qr =>
                        rw [hasT_deep_iff, hasT_deep_iff]
                        constructor
                        · rintro ⟨t, ht, hn, hty, hrec⟩
                          rcases List.mem_append.mp ht with h | h
                          · exact Or.inl ⟨t, hmemF t (Or.inl h), hn, hty, hrec⟩
                          · rcases List.mem_cons.mp h with rfl | h'
                            · have hn2 : x.name = q1 := hn
                              have hrec2 : hasT (insertF (joinAgg pre seg) (lvl + 1)
                                  (s2 :: srest) cl) (q2 :: qr) ty := hrec
                              have hq1 : q1 = seg := by rw [← hn2, hxname]
                              rcases (hchar (q2 :: qr) ty).mp hrec2 with hold | hnew
                              · exact Or.inl ⟨x, hxmem, hn2, hxty,
                                  by rw [hclD]; exact hold⟩
                              · right
                                obtain ⟨hne2, hpre2, hcase2⟩ := hnew
                                refine ⟨by simp, List.cons_prefix_cons.mpr ⟨hq1, hpre2⟩, ?_⟩
                                rcases hcase2 with ⟨h1, h2⟩ | ⟨h1, h2⟩
                                · exact Or.inl ⟨h1, by rw [hq1, h2]⟩
                                · exact Or.inr ⟨h1, by
                                    intro hEq
                                    injection hEq with hEq1 hEq2
                                    exact h2 hEq2⟩
                            · exact Or.inl ⟨t, hmemF t (Or.inr h'), hn, hty, hrec⟩
                        · rintro (⟨t, ht, hn, hty, hrec⟩ | ⟨_, hpre, hcase⟩)
                          · rw [hFeq] at ht
                            rcases List.mem_append.mp ht with h | h
                            · exact ⟨t, List.mem_append_left _ h, hn, hty, hrec⟩
                            · rcases List.mem_cons.mp h with rfl | h'
                              · refine ⟨TreeNode.mk t.name t.path t.ty t.level
                                  t.supported (some (insertF (joinAgg pre seg)
                                    (lvl + 1) (s2 :: srest) cl)),
                                  List.mem_append_right _ (List.mem_cons_self _ _),
                                  hn, hty, ?_⟩
                                rw [hclD] at hrec
                                exact (hchar (q2 :: qr) ty).mpr (Or.inl hrec)
                              · exact ⟨t, List.mem_append_right _
                                  (List.mem_cons_of_mem _ h'), hn, hty, hrec⟩
                          · obtain ⟨hq1, hpre2⟩ := List.cons_prefix_cons.mp hpre
                            refine ⟨TreeNode.mk x.name x.path x.ty x.level
                              x.supported (some (insertF (joinAgg pre seg)
                                (lvl + 1) (s2 :: srest) cl)),
                              List.mem_append_right _ (List.mem_cons_self _ _),
                              by (show x.name = q1; rw [hxname, hq1]), hxty, ?_⟩
                            refine (hchar (q2 :: qr) ty).mpr (Or.inr ⟨by simp, hpre2, ?_⟩)
                            rcases hcase with ⟨h1, h2⟩ | ⟨h1, h2⟩
                            · exact Or.inl ⟨h1, (List.cons.inj h2).2⟩
                            · exact Or.inr ⟨h1, by
                                intro hEq
                                exact h2 (by rw [hq1, hEq])⟩
          | none =>
              rw [insertF_deep_none pre lvl seg s2 srest F hsplit]
              obtain ⟨hwfc', hchar⟩ := ih (joinAgg pre seg) (lvl + 1) [] (by simp)
                (wfe_nilF _ _) (by intro q' _ _ _ hh; exact hasT_nil _ _ hh)
                (hasT_nil _ _)
              have hnoname : ∀ t ∈ F, t.name ≠ seg := by
                intro t ht hname
                have hpath : t.path = joinAgg pre seg := by
                  rw [wfe_path hwf t ht, hname]
                cases hty2 : t.ty with
                | folder => exact splitAtKey_none_spec _ _ F hsplit t ht ⟨hpath, hty2⟩
                | file =>
                    exact hfile [seg] (by simp)
                      (List.cons_prefix_cons.mpr ⟨rfl, List.nil_prefix⟩)
                      (by intro h; cases h)
                      ((hasT_single_iff F seg NodeType.file).mpr ⟨t, ht, hname, hty2⟩)
              constructor
              · refine WFe.mk _ _ _ ?_ ?_ ?_ ?_ ?_ ?_
                · rw [List.pairwise_append]
                  refine ⟨wfe_pairwise hwf,
                    List.pairwise_cons.mpr ⟨by (intro b hb; cases hb), List.Pairwise.nil⟩, ?_⟩
                  intro a ha b hb
                  rw [List.mem_singleton] at hb
                  subst hb
                  simp only [TreeNode.name]
                  exact hnoname a ha
                · intro t ht
                  rcases List.mem_append.mp ht with h | h
                  · exact wfe_path hwf t h
                  · rw [List.mem_singleton] at h
                    subst h
                    simp only [TreeNode.path, TreeNode.name]
                · intro t ht
                  rcases List.mem_append.mp ht with h | h
                  · exact wfe_level hwf t h
                  · rw [List.mem_singleton] at h
                    subst h
                    simp only [TreeNode.level]
                · intro t ht hf
                  rcases List.mem_append.mp ht with h | h
                  · exact wfe_folder hwf t h hf
                  · rw [List.mem_singleton] at h
                    subst h
                    simp only [TreeNode.children, Option.isSome]
                · intro t ht hf
                  rcases List.mem_append.mp ht with h | h
                  · exact wfe_file hwf t h hf
                  · rw [List.mem_singleton] at h
                    subst h
                    simp only [TreeNode.ty] at hf
                    cases hf
                · intro t ht l hl
                  rcases List.mem_append.mp ht with h | h
                  · exact wfe_rec hwf t h l hl
                  · rw [List.mem_singleton] at h
                    subst h
                    simp only [TreeNode.children] at hl
                    injection hl with hl2
                    subst hl2
                    simp only [TreeNode.name]
                    exact hwfc'
              · intro q ty
                cases q with
                | nil =>
                    rw [hasT_nil_iff, hasT_nil_iff]
                    constructor
                    · exact False.elim
                    · rintro (h | ⟨h, _⟩)
                      · exact h
                      · exact h rfl
                | cons q1 qt =>
                    cases qt with
                    | nil =>
                        rw [hasT_single_iff, hasT_single_iff]
                        constructor
                        · rintro ⟨t, ht, hn, hty⟩
                          rcases List.mem_append.mp ht with h | h
                          · exact Or.inl ⟨t, h, hn, hty⟩
                          · rw [List.mem_singleton] at h
                            subst h
                            simp only [TreeNode.name] at hn
                            simp only [TreeNode.ty] at hty
                            right
                            refine ⟨by simp, ?_, Or.inr ⟨hty.symm, by
                              rw [← hn]
                              intro hEq
                              injection hEq with _ hEq2
                              cases hEq2⟩⟩
                            rw [← hn]
                            exact List.cons_prefix_cons.mpr ⟨rfl, List.nil_prefix⟩
                        · rintro (⟨t, ht, hn, hty⟩ | ⟨hne, hpre, hcase⟩)
                          · exact ⟨t, List.mem_append_left _ ht, hn, hty⟩
                          · have hq1 : q1 = seg := by
                              rcases List.cons_prefix_cons.mp hpre with ⟨h1, _⟩
                              exact h1
                            rcases hcase with ⟨_, hq⟩ | ⟨hty, _⟩
                            · exact absurd hq (by intro h; injection h with _ h2; cases h2)
                            · subst hty
                              refine ⟨TreeNode.mk seg (joinAgg pre seg)
                                NodeType.folder lvl (some true)
                                (some (insertF (joinAgg pre seg) (lvl + 1)
                                  (s2 :: srest) [])),
                                List.mem_append_right _ (List.mem_cons_self _ _),
                                by simp only [TreeNode.name]; exact hq1.symm,
                                by simp only [TreeNode.ty]⟩
                    | cons q2 qr =>
                        rw [hasT_deep_iff, hasT_deep_iff]
                        constructor
                        · rintro ⟨t, ht, hn, hty, hrec⟩
                          rcases List.mem_append.mp ht with h | h
                          · exact Or.inl ⟨t, h, hn, hty, hrec⟩
                          · rw [List.mem_singleton] at h
                            subst h
                            simp only [TreeNode.name] at hn
                            simp only [TreeNode.children, Option.getD] at hrec
                            rcases (hchar (q2 :: qr) ty).mp hrec with hold | hnew
                            · exact absurd hold (hasT_nil _ _)
                            · right
                              obtain ⟨hne2, hpre2, hcase2⟩ := hnew
                              refine ⟨by simp, ?_, ?_⟩
                              · rw [← hn]
                                exact List.cons_prefix_cons.mpr ⟨rfl, hpre2⟩
                              · rcases hcase2 with ⟨h1, h2⟩ | ⟨h1, h2⟩
                                · exact Or.inl ⟨h1, by rw [← hn, h2]⟩
                                · exact Or.inr ⟨h1, by
                                    intro hEq
                                    injection hEq with hEq1 hEq2
                                    exact h2 hEq2⟩
                        · rintro (⟨t, ht, hn, hty, hrec⟩ | ⟨_, hpre, hcase⟩)
                          · exact ⟨t, List.mem_append_left _ ht, hn, hty, hrec⟩
                          · obtain ⟨hq1, hpre2⟩ := List.cons_prefix_cons.mp hpre
                            refine ⟨TreeNode.mk seg (joinAgg pre seg)
                              NodeType.folder lvl (some true)
                              (some (insertF (joinAgg pre seg) (lvl + 1)
                                (s2 :: srest) [])),
                              List.mem_append_right _ (List.mem_cons_self _ _),
                              by simp only [TreeNode.name]; exact hq1.symm,
                              by simp only [TreeNode.ty], ?_⟩
                            simp only [TreeNode.children, Option.getD]
                            refine (hchar (q2 :: qr) ty).mpr (Or.inr ⟨by simp, hpre2, ?_⟩)
                            rcases hcase with ⟨h1, h2⟩ | ⟨h1, h2⟩
                            · exact Or.inl ⟨h1, by injection h2⟩
                            · exact Or.inr ⟨h1, by
                                intro hEq
                                exact h2 (by rw [hq1, hEq])⟩

theorem foldl_insertF_spec :
    ∀ (ps : List String) (F : List TreeNode),
      WFe "" 0 F →
      (∀ p ∈ ps, segmentsOf p ≠ []) →
      ((ps.map segmentsOf).Pairwise PrefixCompat) →
      (∀ p ∈ ps, ∀ q, q ≠ [] → q <+: segmentsOf p → q ≠ segmentsOf p →
        ¬ hasT F q NodeType.file) →
      (∀ p ∈ ps, ¬ hasT F (segmentsOf p) NodeType.folder) →
      WFe "" 0 (ps.foldl (fun Fa p => insertF "" 0 (segmentsOf p) Fa) F) ∧
      (∀ q ty, hasT (ps.foldl (fun Fa p => insertF "" 0 (segmentsOf p) Fa) F) q ty ↔
        (hasT F q ty ∨ ∃ p ∈ ps, q ≠ [] ∧ q <+: segmentsOf p ∧
          ((ty = NodeType.file ∧ q = segmentsOf p) ∨
           (ty = NodeType.folder ∧ q ≠ segmentsOf p)))) := by
  intro ps
  induction ps with
  | nil =>
      intro F hwf _ _ _ _
      refine ⟨hwf, ?_⟩
      intro q ty
      simp only [List.foldl_nil]
      constructor
      · exact Or.inl
      · rintro (h | ⟨p, hp, _⟩)
        · exact h
        · cases hp
  | cons p ps' ih =>
      intro F hwf hne hpc hfile hfold
      simp only [List.foldl_cons]
      obtain ⟨hwf1, hchar1⟩ := insertF_spec (segmentsOf p) "" 0 F
        (hne p (List.mem_cons_self _ _))
        hwf
        (hfile p (List.mem_cons_self _ _))
        (hfold p (List.mem_cons_self _ _))
      have hPC : ∀ p' ∈ ps', PrefixCompat (segmentsOf p) (segmentsOf p') := by
        have h := List.pairwise_cons.mp (by
          rw [List.map_cons] at hpc
          exact hpc)
        intro p' hp'
        exact h.1 (segmentsOf p') (List.mem_map_of_mem _ hp')
      have htailpc : (ps'.map segmentsOf).Pairwise PrefixCompat := by
        have h := List.pairwise_cons.mp (by
          rw [List.map_cons] at hpc
          exact hpc)
        exact h.2
      have hfile' : ∀ p' ∈ ps', ∀ q, q ≠ [] → q <+: segmentsOf p' →
          q ≠ segmentsOf p' → ¬ hasT (insertF "" 0 (segmentsOf p) F) q NodeType.file := by
        intro p' hp' q hq1 hq2 hq3 hh
        rcases (hchar1 q NodeType.file).mp hh with hold | ⟨_, hqpre, hcase⟩
        · exact hfile p' (List.mem_cons_of_mem _ hp') q hq1 hq2 hq3 hold
        · rcases hcase with ⟨_, hqeq⟩ | ⟨hft, _⟩
          · subst hqeq
            exact hq3 (hPC p' hp' (Or.inl hq2))
          · cases hft
      have hfold' : ∀ p' ∈ ps',
          ¬ hasT (insertF "" 0 (segmentsOf p) F) (segmentsOf p') NodeType.folder := by
        intro p' hp' hh
        rcases (hchar1 (segmentsOf p') NodeType.folder).mp hh with hold | ⟨_, hqpre, hcase⟩
        · exact hfold p' (List.mem_cons_of_mem _ hp') hold
        · rcases hcase with ⟨hft, _⟩ | ⟨_, hqne⟩
          · cases hft
          · exact hqne ((hPC p' hp' (Or.inr hqpre)).symm)
      obtain ⟨hwfF, hcharF⟩ := ih (insertF "" 0 (segmentsOf p) F) hwf1
        (by intro p' hp'; exact hne p' (List.mem_cons_of_mem _ hp'))
        htailpc hfile' hfold'
      refine ⟨hwfF, ?_⟩
      intro q ty
      rw [hcharF q ty]
      constructor
      · rintro (h1 | ⟨p', hp', hrest⟩)
        · rcases (hchar1 q ty).mp h1 with hold | hnew
          · exact Or.inl hold
          · exact Or.inr ⟨p, List.mem_cons_self _ _, hnew⟩
        · exact Or.inr ⟨p', List.mem_cons_of_mem _ hp', hrest⟩
      · rintro (h1 | ⟨p', hp', hrest⟩)
        · exact Or.inl ((hchar1 q ty).mpr (Or.inl h1))
        · rcases List.mem_cons.mp hp' with rfl | hp''
          · exact Or.inl ((hchar1 q ty).mpr (Or.inr hrest))
          · exact Or.inr ⟨p', hp'', hrest⟩

/-- The entry-based builder on a prefix-compatible path list: the
forest is well-formed and its node set is exactly the set of nonempty
segment-prefixes of the paths. -/
theorem buildTree_WF_hasT (paths : List String) (h : PathsCompat paths) :
    WFe "" 0 (buildTree (pathsToEntries paths)) ∧
    (∀ q ty, hasT (buildTree (pathsToEntries paths)) q ty ↔
      ∃ p ∈ paths, q ≠ [] ∧ q <+: segmentsOf p ∧
        ((ty = NodeType.file ∧ q = segmentsOf p) ∨
         (ty = NodeType.folder ∧ q ≠ segmentsOf p))) := by
  rw [buildTree_eq_foldl_insertF]
  obtain ⟨h1, h2⟩ := h
  obtain ⟨hwfE, hcharE⟩ := foldl_insertF_spec paths [] (wfe_nilF _ _) h1 h2
    (by intro p _ q _ _ _ hh; exact hasT_nil _ _ hh)
    (by intro p _ hh; exact hasT_nil _ _ hh)
  refine ⟨hwfE, ?_⟩
  intro q ty
  rw [hcharE q ty]
  constructor
  · rintro (h0 | h0)
    · exact absurd h0 (hasT_nil _ _)
    · exact h0
  · exact Or.inr

theorem jtrie_eta (t : JTrie) : JTrie.mk t.name t.path t.ty t.children = t := by
  cases t
  rfl

theorem joinAgg_ne_empty (pre seg : String) (hseg : seg ≠ "") :
    joinAgg pre seg ≠ "" := by
  unfold joinAgg
  by_cases hp : pre = ""
  · rw [if_pos hp]; exact hseg
  · rw [if_neg hp]
    intro h
    have hd := congrArg String.data h
    simp [String.data_append] at hd

theorem aggOf_append (pre seg : String) :
    aggOf pre ++ "/" ++ seg = "/" ++ joinAgg pre seg := by
  unfold aggOf joinAgg
  by_cases hp : pre = ""
  · rw [if_pos hp, if_pos hp]
    apply String.ext
    simp [String.data_append]
  · rw [if_neg hp, if_neg hp]
    apply String.ext
    simp [String.data_append]

theorem aggOf_step (pre seg : String) (hseg : seg ≠ "") :
    aggOf pre ++ "/" ++ seg = aggOf (joinAgg pre seg) := by
  rw [aggOf_append]
  unfold aggOf
  rw [if_neg (joinAgg_ne_empty pre seg hseg)]

theorem insertSegs_nil_segs (agg : String) (cs : List (String × JTrie)) :
    insertSegs agg [] cs = cs := by
  simp only [insertSegs]

theorem insertSegs_nil_cs (agg seg : String) (rest : List String) :
    insertSegs agg (seg :: rest) [] =
      [(seg, JTrie.mk seg (agg ++ "/" ++ seg)
          (if rest.isEmpty then NodeType.file else NodeType.folder)
          (insertSegs (agg ++ "/" ++ seg) rest []))] := by
  simp only [insertSegs]

theorem insertSegs_cons_hit (agg seg : String) (rest : List String)
    (k : String) (t : JTrie) (tail : List (String × JTrie)) (h : k = seg) :
    insertSegs agg (seg :: rest) ((k, t) :: tail) =
      (k, JTrie.mk t.name t.path t.ty
            (insertSegs (agg ++ "/" ++ seg) rest t.children)) :: tail := by
  simp only [insertSegs]
  rw [if_pos h]

theorem insertSegs_cons_miss (agg seg : String) (rest : List String)
    (k : String) (t : JTrie) (tail : List (String × JTrie)) (h : k ≠ seg) :
    insertSegs agg (seg :: rest) ((k, t) :: tail) =
      (k, t) :: insertSegs agg (seg :: rest) tail := by
  simp only [insertSegs]
  rw [if_neg h]

theorem wft_tail (pre k : String) (t : JTrie) (tail : List (String × JTrie))
    (h : WFt pre ((k, t) :: tail)) : WFt pre tail := by
  refine WFt.mk _ _ ?_ ?_ ?_ ?_
  · exact (List.pairwise_cons.mp (wft_pairwise h)).2
  · intro kt hkt; exact wft_name h kt (List.mem_cons_of_mem _ hkt)
  · intro kt hkt; exact wft_path h kt (List.mem_cons_of_mem _ hkt)
  · intro kt hkt; exact wft_rec h kt (List.mem_cons_of_mem _ hkt)

theorem hasTrie_nil_iff (cs : List (String × JTrie)) (ty : NodeType) :
    hasTrie cs [] ty ↔ False := by
  simp only [hasTrie]

theorem hasTrie_cons_of_tail (k : String) (t : JTrie)
    (tail : List (String × JTrie)) (q : List String) (ty : NodeType)
    (h : hasTrie tail q ty) : hasTrie ((k, t) :: tail) q ty := by
  cases q with
  | nil => exact ((hasTrie_nil_iff tail ty).mp h).elim
  | cons q1 qt =>
      cases qt with
      | nil =>
          obtain ⟨t', ht', hty'⟩ := (hasTrie_single_iff _ _ _).mp h
          exact (hasTrie_single_iff _ _ _).mpr ⟨t', List.mem_cons_of_mem _ ht', hty'⟩
      | cons q2 qr =>
          obtain ⟨t', ht', hty', hrec'⟩ := (hasTrie_deep_iff _ _ _ _ _).mp h
          exact (hasTrie_deep_iff _ _ _ _ _).mpr
            ⟨t', List.mem_cons_of_mem _ ht', hty', hrec'⟩

theorem ite_isEmpty_nil {α : Type} (a b : α) :
    (if ([] : List String).isEmpty then a else b) = a := rfl

theorem ite_isEmpty_cons {α : Type} (s : String) (l : List String) (a b : α) :
    (if (s :: l).isEmpty then a else b) = b := rfl

/-- Effect of one path insertion on the trie: well-formedness is
preserved and the presence set grows by exactly the nonempty prefixes
of the inserted segment list, provided no file node sits on a proper
prefix and no folder node on the full list. -/
theorem insertSegs_spec :
    ∀ (segs : List String) (pre : String) (cs : List (String × JTrie)),
      segs ≠ [] →
      (∀ s ∈ segs, s ≠ "") →
      WFt pre cs →
      (∀ q, q ≠ [] → q <+: segs → q ≠ segs → ¬ hasTrie cs q NodeType.file) →
      ¬ hasTrie cs segs NodeType.folder →
      WFt pre (insertSegs (aggOf pre) segs cs) ∧
      (∀ q ty, hasTrie (insertSegs (aggOf pre) segs cs) q ty ↔
        (hasTrie cs q ty ∨ (q ≠ [] ∧ q <+: segs ∧
          ((ty = NodeType.file ∧ q = segs) ∨
           (ty = NodeType.folder ∧ q ≠ segs))))) := by
  intro segs
  induction segs with
  | nil => intro pre cs hne; exact absurd rfl hne
  | cons seg rest ihseg =>
      intro pre cs
      induction cs with
      | nil =>
          intro _ hns _ _ _
          have hseg : seg ≠ "" := hns seg (List.mem_cons_self _ _)
          rw [insertSegs_nil_cs]
          cases rest with
          | nil =>
              rw [insertSegs_nil_segs, ite_isEmpty_nil]
              constructor
              · refine WFt.mk _ _ ?_ ?_ ?_ ?_
                · exact List.pairwise_cons.mpr
                    ⟨by (intro b hb; cases hb), List.Pairwise.nil⟩
                · intro kt hkt
                  rw [List.mem_singleton] at hkt
                  subst hkt
                  rfl
                · intro kt hkt
                  rw [List.mem_singleton] at hkt
                  subst hkt
                  exact aggOf_append pre seg
                · intro kt hkt
                  rw [List.mem_singleton] at hkt
                  subst hkt
                  exact wft_nil _
              · intro q ty
                cases q with
                | nil =>
                    rw [hasTrie_nil_iff, hasTrie_nil_iff]
                    constructor
                    · exact False.elim
                    · rintro (h | ⟨h, _⟩)
                      · exact h
                      · exact h rfl
                | cons q1 qt =>
                    cases qt with
                    | nil =>
                        rw [hasTrie_single_iff, hasTrie_single_iff]
                        constructor
                        · rintro ⟨t', ht', hty'⟩
                          rw [List.mem_singleton, Prod.mk.injEq] at ht'
                          obtain ⟨hq1, hteq⟩ := ht'
                          rw [hteq] at hty'
                          have hty2 : NodeType.file = ty := hty'
                          right
                          refine ⟨by simp, ?_, Or.inl ⟨hty2.symm, ?_⟩⟩
                          · rw [hq1]
                          · rw [hq1]
                        · rintro (⟨t', ht', _⟩ | ⟨hne2, hpre2, hcase2⟩)
                          · cases ht'
                          · have hq1 : q1 = seg := (List.cons_prefix_cons.mp hpre2).1
                            rcases hcase2 with ⟨hty, _⟩ | ⟨_, hne3⟩
                            · refine ⟨JTrie.mk seg (aggOf pre ++ "/" ++ seg)
                                NodeType.file [],
                                by (rw [hq1]; exact List.mem_cons_self _ _), ?_⟩
                              exact hty.symm
                            · exact (hne3 (by rw [hq1])).elim
                    | cons q2 qr =>
                        rw [hasTrie_deep_iff, hasTrie_deep_iff]
                        constructor
                        · rintro ⟨t', ht', hty', _⟩
                          rw [List.mem_singleton, Prod.mk.injEq] at ht'
                          obtain ⟨hq1, hteq⟩ := ht'
                          rw [hteq] at hty'
                          have hty2 : NodeType.file = NodeType.folder := hty'
                          cases hty2
                        · rintro (⟨t', ht', _, _⟩ | ⟨_, hpre2, _⟩)
                          · cases ht'
                          · obtain ⟨_, hpre3⟩ := List.cons_prefix_cons.mp hpre2
                            have h8 := List.prefix_nil.mp hpre3
                            cases h8
          | cons s2 srest =>
              rw [ite_isEmpty_cons]
              obtain ⟨hwfc', hchar⟩ := ihseg (joinAgg pre seg) [] (by simp)
                (fun s hs => hns s (List.mem_cons_of_mem _ hs)) (wft_nil _)
                (by intro q' _ _ _ hh; exact hasTrie_nil _ _ hh)
                (hasTrie_nil _ _)
              rw [← aggOf_step pre seg hseg] at hwfc' hchar
              constructor
              · refine WFt.mk _ _ ?_ ?_ ?_ ?_
                · exact List.pairwise_cons.mpr
                    ⟨by (intro b hb; cases hb), List.Pairwise.nil⟩
                · intro kt hkt
                  rw [List.mem_singleton] at hkt
                  subst hkt
                  rfl
                · intro kt hkt
                  rw [List.mem_singleton] at hkt
                  subst hkt
                  exact aggOf_append pre seg
                · intro kt hkt
                  rw [List.mem_singleton] at hkt
                  subst hkt
                  exact hwfc'
              · intro q ty
                cases q with
                | nil =>
                    rw [hasTrie_nil_iff, hasTrie_nil_iff]
                    constructor
                    · exact False.elim
                    · rintro (h | ⟨h, _⟩)
                      · exact h
                      · exact h rfl
                | cons q1 qt =>
                    cases qt with
                    | nil =>
                        rw [hasTrie_single_iff, hasTrie_single_iff]
                        constructor
                        · rintro ⟨t', ht', hty'⟩
                          rw [List.mem_singleton, Prod.mk.injEq] at ht'
                          obtain ⟨hq1, hteq⟩ := ht'
                          rw [hteq] at hty'
                          have hty2 : NodeType.folder = ty := hty'
                          right
                          refine ⟨by simp, ?_, Or.inr ⟨hty2.symm, ?_⟩⟩
                          · rw [hq1]
                            exact List.cons_prefix_cons.mpr ⟨rfl, List.nil_prefix⟩
                          · intro hEq
                            have h8 := (List.cons.inj hEq).2
                            cases h8
                        · rintro (⟨t', ht', _⟩ | ⟨hne2, hpre2, hcase2⟩)
                          · cases ht'
                          · have hq1 : q1 = seg := (List.cons_prefix_cons.mp hpre2).1
                            rcases hcase2 with ⟨_, hq⟩ | ⟨hty, _⟩
                            · simp at hq
                            · refine ⟨JTrie.mk seg (aggOf pre ++ "/" ++ seg)
                                NodeType.folder (insertSegs (aggOf pre ++ "/" ++ seg)
                                  (s2 :: srest) []),
                                by (rw [hq1]; exact List.mem_cons_self _ _), ?_⟩
                              exact hty.symm
                    | cons q2 qr =>
                        rw [hasTrie_deep_iff, hasTrie_deep_iff]
                        constructor
                        · rintro ⟨t', ht', hty', hrec'⟩
                          rw [List.mem_singleton, Prod.mk.injEq] at ht'
                          obtain ⟨hq1, hteq⟩ := ht'
                          rw [hteq] at hrec'
                          have hrec2 : hasTrie (insertSegs (aggOf pre ++ "/" ++ seg)
                              (s2 :: srest) []) (q2 :: qr) ty := hrec'
                          rcases (hchar (q2 :: qr) ty).mp hrec2 with hold |
                            ⟨hne2, hpre2, hcase2⟩
                          · exact absurd hold (hasTrie_nil _ _)
                          · right
                            refine ⟨by simp, ?_, ?_⟩
                            · exact List.cons_prefix_cons.mpr ⟨hq1, hpre2⟩
                            · rcases hcase2 with ⟨h1, h2⟩ | ⟨h1, h2⟩
                              · exact Or.inl ⟨h1, by rw [hq1, h2]⟩
                              · exact Or.inr ⟨h1, fun hEq2 => h2 (List.cons.inj hEq2).2⟩
                        · rintro (⟨t', ht', _, _⟩ | ⟨_, hpre2, hcase2⟩)
                          · cases ht'
                          · obtain ⟨hq1, hpre3⟩ := List.cons_prefix_cons.mp hpre2
                            refine ⟨JTrie.mk seg (aggOf pre ++ "/" ++ seg)
                              NodeType.folder (insertSegs (aggOf pre ++ "/" ++ seg)
                                (s2 :: srest) []),
                              by (rw [hq1]; exact List.mem_cons_self _ _), rfl, ?_⟩
                            refine (hchar (q2 :: qr) ty).mpr (Or.inr ⟨by simp, hpre3, ?_⟩)
                            rcases hcase2 with ⟨h1, h2⟩ | ⟨h1, h2⟩
                            · exact Or.inl ⟨h1, (List.cons.inj h2).2⟩
                            · exact Or.inr ⟨h1, fun hEq2 => h2 (by rw [hq1, hEq2])⟩
      | cons kt tail ihcs =>
          obtain ⟨k, t⟩ := kt
          intro _ hns hwft hfile hfold
          have hseg : seg ≠ "" := hns seg (List.mem_cons_self _ _)
          by_cases hk : k = seg
          · subst hk
            have htname : t.name = k := wft_name hwft (k, t) (List.mem_cons_self _ _)
            have htpath : t.path = "/" ++ joinAgg pre k :=
              wft_path hwft (k, t) (List.mem_cons_self _ _)
            have htrec : WFt (joinAgg pre k) t.children :=
              wft_rec hwft (k, t) (List.mem_cons_self _ _)
            rw [insertSegs_cons_hit (aggOf pre) k rest k t tail rfl]
            cases rest with
            | nil =>
                rw [insertSegs_nil_segs, jtrie_eta]
                have htty : t.ty = NodeType.file := by
                  cases h2 : t.ty with
                  | file => rfl
                  | folder =>
                      exact absurd ((hasTrie_single_iff _ k NodeType.folder).mpr
                        ⟨t, List.mem_cons_self _ _, h2⟩) hfold
                refine ⟨hwft, ?_⟩
                intro q ty
                constructor
                · exact Or.inl
                · rintro (h | ⟨hqne, hqpre, hcase⟩)
                  · exact h
                  · rcases prefix_single q k hqpre with rfl | rfl
                    · exact absurd rfl hqne
                    · rcases hcase with ⟨hty, _⟩ | ⟨_, hne2⟩
                      · subst hty
                        exact (hasTrie_single_iff _ k _).mpr
                          ⟨t, List.mem_cons_self _ _, htty⟩
                      · exact absurd rfl hne2
            | cons s2 srest =>
                have htty : t.ty = NodeType.folder := by
                  cases h2 : t.ty with
                  | folder => rfl
                  | file =>
                      exact absurd ((hasTrie_single_iff _ k NodeType.file).mpr
                        ⟨t, List.mem_cons_self _ _, h2⟩)
                        (hfile [k] (by simp)
                          (List.cons_prefix_cons.mpr ⟨rfl, List.nil_prefix⟩)
                          (by intro h; cases h))
                have hfile' : ∀ q', q' ≠ [] → q' <+: (s2 :: srest) →
                    q' ≠ (s2 :: srest) → ¬ hasTrie t.children q' NodeType.file := by
                  intro q' h1 h2 h3 hh
                  refine hfile (k :: q') (by simp)
                    (List.cons_prefix_cons.mpr ⟨rfl, h2⟩)
                    (fun hEq => h3 (List.cons.inj hEq).2) ?_
                  cases q' with
                  | nil => exact absurd rfl h1
                  | cons a b =>
                      exact (hasTrie_deep_iff _ k a b _).mpr
                        ⟨t, List.mem_cons_self _ _, htty, hh⟩
                have hfold' : ¬ hasTrie t.children (s2 :: srest) NodeType.folder :=
                  fun hh => hfold ((hasTrie_deep_iff _ k s2 srest _).mpr
                    ⟨t, List.mem_cons_self _ _, htty, hh⟩)
                obtain ⟨hwfc', hchar⟩ := ihseg (joinAgg pre k) t.children (by simp)
                  (fun s hs => hns s (List.mem_cons_of_mem _ hs)) htrec hfile' hfold'
                rw [← aggOf_step pre k hseg] at hwfc' hchar
                constructor
                · refine WFt.mk _ _ ?_ ?_ ?_ ?_
                  · exact List.pairwise_cons.mpr
                      ⟨(List.pairwise_cons.mp (wft_pairwise hwft)).1,
                       (List.pairwise_cons.mp (wft_pairwise hwft)).2⟩
                  · intro kt2 hkt2
                    rcases List.mem_cons.mp hkt2 with rfl | h'
                    · exact htname
                    · exact wft_name hwft kt2 (List.mem_cons_of_mem _ h')
                  · intro kt2 hkt2
                    rcases List.mem_cons.mp hkt2 with rfl | h'
                    · exact htpath
                    · exact wft_path hwft kt2 (List.mem_cons_of_mem _ h')
                  · intro kt2 hkt2
                    rcases List.mem_cons.mp hkt2 with rfl | h'
                    · exact hwfc'
                    · exact wft_rec hwft kt2 (List.mem_cons_of_mem _ h')
                · intro q ty
                  cases q with
                  | nil =>
                      rw [hasTrie_nil_iff, hasTrie_nil_iff]
                      constructor
                      · exact False.elim
                      · rintro (h | ⟨h, _⟩)
                        · exact h
                        · exact h rfl
                  | cons q1 qt =>
                      cases qt with
                      | nil =>
                          rw [hasTrie_single_iff, hasTrie_single_iff]
                          constructor
                          · rintro ⟨t', ht', hty'⟩
                            rcases List.mem_cons.mp ht' with hEq | h'
                            · rw [Prod.mk.injEq] at hEq
                              obtain ⟨hq1, hteq⟩ := hEq
                              rw [hteq] at hty'
                              exact Or.inl ⟨t,
                                by (rw [hq1]; exact List.mem_cons_self _ _), hty'⟩
                            · exact Or.inl ⟨t', List.mem_cons_of_mem _ h', hty'⟩
                          · rintro (⟨t', ht', hty'⟩ | ⟨hne2, hpre2, hcase2⟩)
                            · rcases List.mem_cons.mp ht' with hEq | h'
                              · rw [Prod.mk.injEq] at hEq
                                obtain ⟨hq1, hteq⟩ := hEq
                                rw [hteq] at hty'
                                refine ⟨JTrie.mk t.name t.path t.ty
                                  (insertSegs (aggOf pre ++ "/" ++ k) (s2 :: srest)
                                    t.children),
                                  by (rw [hq1]; exact List.mem_cons_self _ _), hty'⟩
                              · exact ⟨t', List.mem_cons_of_mem _ h', hty'⟩
                            · have hq1 : q1 = k := (List.cons_prefix_cons.mp hpre2).1
                              rcases hcase2 with ⟨_, hq⟩ | ⟨hty, _⟩
                              · simp at hq
                              · refine ⟨JTrie.mk t.name t.path t.ty
                                  (insertSegs (aggOf pre ++ "/" ++ k) (s2 :: srest)
                                    t.children),
                                  by (rw [hq1]; exact List.mem_cons_self _ _), ?_⟩
                                rw [hty]
                                exact htty
                      | cons q2 qr =>
                          rw [hasTrie_deep_iff, hasTrie_deep_iff]
                          constructor
                          · rintro ⟨t', ht', hty', hrec'⟩
                            rcases List.mem_cons.mp ht' with hEq | h'
                            · rw [Prod.mk.injEq] at hEq
                              obtain ⟨hq1, hteq⟩ := hEq
                              rw [hteq] at hrec'
                              have hrec2 : hasTrie (insertSegs (aggOf pre ++ "/" ++ k)
                                  (s2 :: srest) t.children) (q2 :: qr) ty := hrec'
                              rcases (hchar (q2 :: qr) ty).mp hrec2 with hold |
                                ⟨hne2, hpre2, hcase2⟩
                              · exact Or.inl ⟨t,
                                  by (rw [hq1]; exact List.mem_cons_self _ _),
                                  htty, hold⟩
                              · right
                                refine ⟨by simp, ?_, ?_⟩
                                · exact List.cons_prefix_cons.mpr ⟨hq1, hpre2⟩
                                · rcases hcase2 with ⟨h1, h2⟩ | ⟨h1, h2⟩
                                  · exact Or.inl ⟨h1, by rw [hq1, h2]⟩
                                  · exact Or.inr ⟨h1, fun hEq2 =>
                                      h2 (List.cons.inj hEq2).2⟩
                            · exact Or.inl ⟨t', List.mem_cons_of_mem _ h', hty', hrec'⟩
                          · rintro (⟨t', ht', hty', hrec'⟩ | ⟨_, hpre2, hcase2⟩)
                            · rcases List.mem_cons.mp ht' with hEq | h'
                              · rw [Prod.mk.injEq] at hEq
                                obtain ⟨hq1, hteq⟩ := hEq
                                rw [hteq] at hty' hrec'
                                refine ⟨JTrie.mk t.name t.path t.ty
                                  (insertSegs (aggOf pre ++ "/" ++ k) (s2 :: srest)
                                    t.children),
                                  by (rw [hq1]; exact List.mem_cons_self _ _), hty', ?_⟩
                                exact (hchar (q2 :: qr) ty).mpr (Or.inl hrec')
                              · exact ⟨t', List.mem_cons_of_mem _ h', hty', hrec'⟩
                            · obtain ⟨hq1, hpre3⟩ := List.cons_prefix_cons.mp hpre2
                              refine ⟨JTrie.mk t.name t.path t.ty
                                (insertSegs (aggOf pre ++ "/" ++ k) (s2 :: srest)
                                  t.children),
                                by (rw [hq1]; exact List.mem_cons_self _ _), htty, ?_⟩
                              refine (hchar (q2 :: qr) ty).mpr
                                (Or.inr ⟨by simp, hpre3, ?_⟩)
                              rcases hcase2 with ⟨h1, h2⟩ | ⟨h1, h2⟩
                              · exact Or.inl ⟨h1, (List.cons.inj h2).2⟩
                              · exact Or.inr ⟨h1, fun hEq2 => h2 (by rw [hq1, hEq2])⟩
          · rw [insertSegs_cons_miss (aggOf pre) seg rest k t tail hk]
            have hwftail : WFt pre tail := wft_tail pre k t tail hwft
            obtain ⟨hwfR, hcharR⟩ := ihcs (by simp) hns hwftail
              (by
                intro q h1 h2 h3 hh
                exact hfile q h1 h2 h3 (hasTrie_cons_of_tail k t tail q _ hh))
              (by
                intro hh
                exact hfold (hasTrie_cons_of_tail k t tail _ _ hh))
            have hheadpw := (List.pairwise_cons.mp (wft_pairwise hwft)).1
            constructor
            · refine WFt.mk _ _ ?_ ?_ ?_ ?_
              · refine List.pairwise_cons.mpr ⟨?_, wft_pairwise hwfR⟩
                intro b hb
                obtain ⟨bk, bt⟩ := b
                have hbk : hasTrie (insertSegs (aggOf pre) (seg :: rest) tail)
                    [bk] bt.ty := (hasTrie_single_iff _ _ _).mpr ⟨bt, hb, rfl⟩
                rcases (hcharR [bk] bt.ty).mp hbk with hold | ⟨_, hpre2, _⟩
                · obtain ⟨t'', ht'', _⟩ := (hasTrie_single_iff _ _ _).mp hold
                  exact hheadpw (bk, t'') ht''
                · have hbk2 : bk = seg := (List.cons_prefix_cons.mp hpre2).1
                  rw [hbk2]
                  exact hk
              · intro kt2 hkt2
                rcases List.mem_cons.mp hkt2 with rfl | h'
                · exact wft_name hwft (k, t) (List.mem_cons_self _ _)
                · exact wft_name hwfR kt2 h'
              · intro kt2 hkt2
                rcases List.mem_cons.mp hkt2 with rfl | h'
                · exact wft_path hwft (k, t) (List.mem_cons_self _ _)
                · exact wft_path hwfR kt2 h'
              · intro kt2 hkt2
                rcases List.mem_cons.mp hkt2 with rfl | h'
                · exact wft_rec hwft (k, t) (List.mem_cons_self _ _)
                · exact wft_rec hwfR kt2 h'
            · intro q ty
              cases q with
              | nil =>
                  rw [hasTrie_nil_iff, hasTrie_nil_iff]
                  constructor
                  · exact False.elim
                  · rintro (h | ⟨h, _⟩)
                    · exact h
                    · exact h rfl
              | cons q1 qt =>
                  cases qt with
                  | nil =>
                      rw [hasTrie_single_iff, hasTrie_single_iff]
                      constructor
                      · rintro ⟨t', ht', hty'⟩
                        rcases List.mem_cons.mp ht' with hEq | h'
                        · rw [Prod.mk.injEq] at hEq
                          obtain ⟨hq1, hteq⟩ := hEq
                          rw [hteq] at hty'
                          exact Or.inl ⟨t,
                            by (rw [hq1]; exact List.mem_cons_self _ _), hty'⟩
                        · have hR : hasTrie (insertSegs (aggOf pre) (seg :: rest) tail)
                              [q1] ty := (hasTrie_single_iff _ _ _).mpr ⟨t', h', hty'⟩
                          rcases (hcharR [q1] ty).mp hR with hold | hnew
                          · obtain ⟨t'', ht'', hty''⟩ := (hasTrie_single_iff _ _ _).mp hold
                            exact Or.inl ⟨t'', List.mem_cons_of_mem _ ht'', hty''⟩
                          · exact Or.inr hnew
                      · rintro (⟨t', ht', hty'⟩ | hnew)
                        · rcases List.mem_cons.mp ht' with hEq | h'
                          · rw [Prod.mk.injEq] at hEq
                            obtain ⟨hq1, hteq⟩ := hEq
                            rw [hteq] at hty'
                            exact ⟨t, by (rw [hq1]; exact List.mem_cons_self _ _), hty'⟩
                          · have hR := (hcharR [q1] ty).mpr
                              (Or.inl ((hasTrie_single_iff _ _ _).mpr ⟨t', h', hty'⟩))
                            obtain ⟨t'', ht'', hty''⟩ := (hasTrie_single_iff _ _ _).mp hR
                            exact ⟨t'', List.mem_cons_of_mem _ ht'', hty''⟩
                        · have hR := (hcharR [q1] ty).mpr (Or.inr hnew)
                          obtain ⟨t'', ht'', hty''⟩ := (hasTrie_single_iff _ _ _).mp hR
                          exact ⟨t'', List.mem_cons_of_mem _ ht'', hty''⟩
                  | cons q2 qr =>
                      rw [hasTrie_deep_iff, hasTrie_deep_iff]
                      constructor
                      · rintro ⟨t', ht', hty', hrec'⟩
                        rcases List.mem_cons.mp ht' with hEq | h'
                        · rw [Prod.mk.injEq] at hEq
                          obtain ⟨hq1, hteq⟩ := hEq
                          rw [hteq] at hty' hrec'
                          exact Or.inl ⟨t,
                            by (rw [hq1]; exact List.mem_cons_self _ _), hty', hrec'⟩
                        · have hR : hasTrie (insertSegs (aggOf pre) (seg :: rest) tail)
                              (q1 :: q2 :: qr) ty :=
                            (hasTrie_deep_iff _ _ _ _ _).mpr ⟨t', h', hty', hrec'⟩
                          rcases (hcharR (q1 :: q2 :: qr) ty).mp hR with hold | hnew
                          · obtain ⟨t'', ht'', hty'', hrec''⟩ :=
                              (hasTrie_deep_iff _ _ _ _ _).mp hold
                            exact Or.inl ⟨t'', List.mem_cons_of_mem _ ht'', hty'', hrec''⟩
                          · exact Or.inr hnew
                      · rintro (⟨t', ht', hty', hrec'⟩ | hnew)
                        · rcases List.mem_cons.mp ht' with hEq | h'
                          · rw [Prod.mk.injEq] at hEq
                            obtain ⟨hq1, hteq⟩ := hEq
                            rw [hteq] at hty' hrec'
                            exact ⟨t, by (rw [hq1]; exact List.mem_cons_self _ _),
                              hty', hrec'⟩
                          · have hR := (hcharR (q1 :: q2 :: qr) ty).mpr
                              (Or.inl ((hasTrie_deep_iff _ _ _ _ _).mpr
                                ⟨t', h', hty', hrec'⟩))
                            obtain ⟨t'', ht'', hty'', hrec''⟩ :=
                              (hasTrie_deep_iff _ _ _ _ _).mp hR
                            exact ⟨t'', List.mem_cons_of_mem _ ht'', hty'', hrec''⟩
                        · have hR := (hcharR (q1 :: q2 :: qr) ty).mpr (Or.inr hnew)
                          obtain ⟨t'', ht'', hty'', hrec''⟩ :=
                            (hasTrie_deep_iff _ _ _ _ _).mp hR
                          exact ⟨t'', List.mem_cons_of_mem _ ht'', hty'', hrec''⟩

theorem aggOf_empty : aggOf "" = "" := by
  unfold aggOf
  rw [if_pos rfl]

theorem segmentsOf_ne_empty (p : String) : ∀ s ∈ segmentsOf p, s ≠ "" := by
  intro s hs
  unfold segmentsOf at hs
  have h := (List.mem_filter.mp hs).2
  simpa using h

theorem foldl_insertSegs_spec :
    ∀ (ps : List String) (cs : List (String × JTrie)),
      WFt "" cs →
      (∀ p ∈ ps, segmentsOf p ≠ []) →
      ((ps.map segmentsOf).Pairwise PrefixCompat) →
      (∀ p ∈ ps, ∀ q, q ≠ [] → q <+: segmentsOf p → q ≠ segmentsOf p →
        ¬ hasTrie cs q NodeType.file) →
      (∀ p ∈ ps, ¬ hasTrie cs (segmentsOf p) NodeType.folder) →
      WFt "" (ps.foldl (fun c p => insertSegs "" (segmentsOf p) c) cs) ∧
      (∀ q ty, hasTrie (ps.foldl (fun c p => insertSegs "" (segmentsOf p) c) cs) q ty ↔
        (hasTrie cs q ty ∨ ∃ p ∈ ps, q ≠ [] ∧ q <+: segmentsOf p ∧
          ((ty = NodeType.file ∧ q = segmentsOf p) ∨
           (ty = NodeType.folder ∧ q ≠ segmentsOf p)))) := by
  intro ps
  induction ps with
  | nil =>
      intro cs hwf _ _ _ _
      refine ⟨hwf, ?_⟩
      intro q ty
      simp only [List.foldl_nil]
      constructor
      · exact Or.inl
      · rintro (h | ⟨p, hp, _⟩)
        · exact h
        · cases hp
  | cons p ps' ih =>
      intro cs hwf hne hpc hfile hfold
      simp only [List.foldl_cons]
      have hagg : insertSegs "" (segmentsOf p) cs =
          insertSegs (aggOf "") (segmentsOf p) cs := by rw [aggOf_empty]
      obtain ⟨hwf1, hchar1⟩ := insertSegs_spec (segmentsOf p) "" cs
        (hne p (List.mem_cons_self _ _))
        (segmentsOf_ne_empty p)
        hwf
        (hfile p (List.mem_cons_self _ _))
        (hfold p (List.mem_cons_self _ _))
      rw [← hagg] at hwf1 hchar1
      have hPC : ∀ p' ∈ ps', PrefixCompat (segmentsOf p) (segmentsOf p') := by
        have h := List.pairwise_cons.mp (by
          rw [List.map_cons] at hpc
          exact hpc)
        intro p' hp'
        exact h.1 (segmentsOf p') (List.mem_map_of_mem _ hp')
      have htailpc : (ps'.map segmentsOf).Pairwise PrefixCompat := by
        have h := List.pairwise_cons.mp (by
          rw [List.map_cons] at hpc
          exact hpc)
        exact h.2
      have hfile' : ∀ p' ∈ ps', ∀ q, q ≠ [] → q <+: segmentsOf p' →
          q ≠ segmentsOf p' →
          ¬ hasTrie (insertSegs "" (segmentsOf p) cs) q NodeType.file := by
        intro p' hp' q hq1 hq2 hq3 hh
        rcases (hchar1 q NodeType.file).mp hh with hold | ⟨_, hqpre, hcase⟩
        · exact hfile p' (List.mem_cons_of_mem _ hp') q hq1 hq2 hq3 hold
        · rcases hcase with ⟨_, hqeq⟩ | ⟨hft, _⟩
          · subst hqeq
            exact hq3 (hPC p' hp' (Or.inl hq2))
          · cases hft
      have hfold' : ∀ p' ∈ ps',
          ¬ hasTrie (insertSegs "" (segmentsOf p) cs) (segmentsOf p')
            NodeType.folder := by
        intro p' hp' hh
        rcases (hchar1 (segmentsOf p') NodeType.folder).mp hh with hold |
          ⟨_, hqpre, hcase⟩
        · exact hfold p' (List.mem_cons_of_mem _ hp') hold
        · rcases hcase with ⟨hft, _⟩ | ⟨_, hqne⟩
          · cases hft
          · exact hqne ((hPC p' hp' (Or.inr hqpre)).symm)
      obtain ⟨hwfF, hcharF⟩ := ih (insertSegs "" (segmentsOf p) cs) hwf1
        (by intro p' hp'; exact hne p' (List.mem_cons_of_mem _ hp'))
        htailpc hfile' hfold'
      refine ⟨hwfF, ?_⟩
      intro q ty
      rw [hcharF q ty]
      constructor
      · rintro (h1 | ⟨p', hp', hrest⟩)
        · rcases (hchar1 q ty).mp h1 with hold | hnew
          · exact Or.inl hold
          · exact Or.inr ⟨p, List.mem_cons_self _ _, hnew⟩
        · exact Or.inr ⟨p', List.mem_cons_of_mem _ hp', hrest⟩
      · rintro (h1 | ⟨p', hp', hrest⟩)
        · exact Or.inl ((hchar1 q ty).mpr (Or.inl h1))
        · rcases List.mem_cons.mp hp' with rfl | hp''
          · exact Or.inl ((hchar1 q ty).mpr (Or.inr hrest))
          · exact Or.inr ⟨p', hp'', hrest⟩

/-- The trie accumulated by `buildTreeFromFilePaths` on a
prefix-compatible path list: well-formed with node set exactly the
nonempty segment-prefixes of the paths. -/
theorem trie_WF_hasTrie (paths : List String) (h : PathsCompat paths) :
    WFt "" (paths.foldl (fun cs p => insertSegs "" (segmentsOf p) cs) []) ∧
    (∀ q ty, hasTrie (paths.foldl (fun cs p => insertSegs "" (segmentsOf p) cs) [])
        q ty ↔
      ∃ p ∈ paths, q ≠ [] ∧ q <+: segmentsOf p ∧
        ((ty = NodeType.file ∧ q = segmentsOf p) ∨
         (ty = NodeType.folder ∧ q ≠ segmentsOf p))) := by
  obtain ⟨h1, h2⟩ := h
  obtain ⟨hwfT, hcharT⟩ := foldl_insertSegs_spec paths [] (wft_nil _) h1 h2
    (by intro p _ q _ _ _ hh; exact hasTrie_nil _ _ hh)
    (by intro p _ hh; exact hasTrie_nil _ _ hh)
  refine ⟨hwfT, ?_⟩
  intro q ty
  rw [hcharT q ty]
  constructor
  · rintro (h0 | h0)
    · exact absurd h0 (hasTrie_nil _ _)
    · exact h0
  · exact Or.inr

theorem hasShape_nil_iff (C : List Shape) (ty : NodeType) :
    hasShape C [] ty ↔ False := by
  simp only [hasShape]

theorem attach_map_eq_map {α β : Type} :
    ∀ (l : List α) (f : {x // x ∈ l} → β) (g : α → β),
      (∀ a (hm : a ∈ l), f ⟨a, hm⟩ = g a) → l.attach.map f = l.map g := by
  intro l
  induction l with
  | nil => intro f g h; rfl
  | cons a t ih =>
      intro f g h
      rw [List.attach_cons, List.map_cons, List.map_cons, List.map_map]
      congr 1
      · exact h a (List.mem_cons_self _ _)
      · exact ih _ g (fun b hm => h b (List.mem_cons_of_mem _ hm))

theorem treeShape_none (n p : String) (ty : NodeType) (lvl : Nat)
    (sup : Option Bool) :
    treeShape (TreeNode.mk n p ty lvl sup none) = Shape.mk n p ty [] := by
  simp only [treeShape]

theorem treeShape_some (n p : String) (ty : NodeType) (lvl : Nat)
    (sup : Option Bool) (l : List TreeNode) :
    treeShape (TreeNode.mk n p ty lvl sup (some l)) =
      Shape.mk n p ty (l.map treeShape) := by
  simp only [treeShape]
  congr 1
  exact attach_map_eq_map l _ treeShape (fun a hm => rfl)

theorem sortShape_mk (n p : String) (ty : NodeType) (ch : List Shape) :
    sortShape (Shape.mk n p ty ch) =
      Shape.mk n p ty ((ch.map sortShape).mergeSort shapeLe) := by
  simp only [sortShape]
  congr 2
  exact attach_map_eq_map ch _ sortShape (fun a hm => rfl)

theorem stripShape_mk (n p : String) (ty : NodeType) (ch : List Shape) :
    stripShape (Shape.mk n p ty ch) =
      Shape.mk n (stripSlash p) ty (ch.map stripShape) := by
  simp only [stripShape]
  congr 1
  exact attach_map_eq_map ch _ stripShape (fun a hm => rfl)

theorem toNodes_eq (cs : List (String × JTrie)) (lvl : Nat) :
    toNodes cs lvl = (cs.mergeSort childLe).map (fun kt =>
      TreeNode.mk kt.2.name kt.2.path kt.2.ty lvl none
        (if kt.2.ty = NodeType.folder then some (toNodes kt.2.children (lvl + 1))
         else none)) := by
  rw [toNodes]
  refine attach_map_eq_map _ _ _ ?_
  intro a hm
  obtain ⟨k, t⟩ := a
  cases t with
  | mk n2 p2 ty2 ch2 => rfl

theorem treeShape_name (t : TreeNode) : (treeShape t).name = t.name := by
  cases t with
  | mk n p ty lvl sup ch =>
      cases ch with
      | none => rw [treeShape_none]; rfl
      | some l => rw [treeShape_some]; rfl

theorem treeShape_path (t : TreeNode) : (treeShape t).path = t.path := by
  cases t with
  | mk n p ty lvl sup ch =>
      cases ch with
      | none => rw [treeShape_none]; rfl
      | some l => rw [treeShape_some]; rfl

theorem treeShape_ty (t : TreeNode) : (treeShape t).ty = t.ty := by
  cases t with
  | mk n p ty lvl sup ch =>
      cases ch with
      | none => rw [treeShape_none]; rfl
      | some l => rw [treeShape_some]; rfl

theorem treeShape_children (t : TreeNode) :
    (treeShape t).children = (t.children.getD []).map treeShape := by
  cases t with
  | mk n p ty lvl sup ch =>
      cases ch with
      | none => rw [treeShape_none]; rfl
      | some l => rw [treeShape_some]; rfl

theorem sortShape_name (s : Shape) : (sortShape s).name = s.name := by
  cases s with
  | mk n p ty ch => rw [sortShape_mk]; rfl

theorem sortShape_path (s : Shape) : (sortShape s).path = s.path := by
  cases s with
  | mk n p ty ch => rw [sortShape_mk]; rfl

theorem sortShape_ty (s : Shape) : (sortShape s).ty = s.ty := by
  cases s with
  | mk n p ty ch => rw [sortShape_mk]; rfl

theorem sortShape_children (s : Shape) :
    (sortShape s).children = (s.children.map sortShape).mergeSort shapeLe := by
  cases s with
  | mk n p ty ch => rw [sortShape_mk]; rfl

theorem stripShape_name (s : Shape) : (stripShape s).name = s.name := by
  cases s with
  | mk n p ty ch => rw [stripShape_mk]; rfl

theorem stripShape_path (s : Shape) : (stripShape s).path = stripSlash s.path := by
  cases s with
  | mk n p ty ch => rw [stripShape_mk]; rfl

theorem stripShape_ty (s : Shape) : (stripShape s).ty = s.ty := by
  cases s with
  | mk n p ty ch => rw [stripShape_mk]; rfl

theorem stripShape_children (s : Shape) :
    (stripShape s).children = s.children.map stripShape := by
  cases s with
  | mk n p ty ch => rw [stripShape_mk]; rfl

theorem sortedShapeF_nil : sortedShapeF [] = [] := by
  unfold sortedShapeF
  rw [List.map_nil, List.mergeSort_nil]

theorem sortShape_treeShape_children (t : TreeNode) :
    (sortShape (treeShape t)).children = sortedShapeF (t.children.getD []) := by
  rw [sortShape_children, treeShape_children]
  unfold sortedShapeF
  rw [List.map_map]
  rfl

theorem mem_sortedShapeF (F : List TreeNode) (s : Shape) :
    s ∈ sortedShapeF F ↔ ∃ t ∈ F, sortShape (treeShape t) = s := by
  unfold sortedShapeF
  rw [(List.mergeSort_perm (F.map fun t => sortShape (treeShape t)) shapeLe).mem_iff]
  exact List.mem_map

theorem stripSlash_slash (s : String) : stripSlash ("/" ++ s) = s := by
  unfold stripSlash
  apply String.ext
  simp [String.data_append]

theorem hasShape_sortedShapeF :
    ∀ (q : List String) (F : List TreeNode) (ty : NodeType),
      hasShape (sortedShapeF F) q ty ↔ hasT F q ty := by
  intro q
  induction q with
  | nil => intro F ty; rw [hasShape_nil_iff, hasT_nil_iff]
  | cons q1 qt ih =>
      intro F ty
      cases qt with
      | nil =>
          rw [hasShape_single_iff, hasT_single_iff]
          constructor
          · rintro ⟨s, hs, hn, hty⟩
            obtain ⟨t, ht, hst⟩ := (mem_sortedShapeF F s).mp hs
            refine ⟨t, ht, ?_, ?_⟩
            · rw [← treeShape_name t, ← sortShape_name (treeShape t), hst]
              exact hn
            · rw [← treeShape_ty t, ← sortShape_ty (treeShape t), hst]
              exact hty
          · rintro ⟨t, ht, hn, hty⟩
            refine ⟨sortShape (treeShape t),
              (mem_sortedShapeF F _).mpr ⟨t, ht, rfl⟩, ?_, ?_⟩
            · rw [sortShape_name, treeShape_name]
              exact hn
            · rw [sortShape_ty, treeShape_ty]
              exact hty
      | cons q2 qr =>
          rw [hasShape_deep_iff, hasT_deep_iff]
          constructor
          · rintro ⟨s, hs, hn, hty, hrec⟩
            obtain ⟨t, ht, hst⟩ := (mem_sortedShapeF F s).mp hs
            refine ⟨t, ht, ?_, ?_, ?_⟩
            · rw [← treeShape_name t, ← sortShape_name (treeShape t), hst]
              exact hn
            · rw [← treeShape_ty t, ← sortShape_ty (treeShape t), hst]
              exact hty
            · rw [← ih (t.children.getD []) ty, ← sortShape_treeShape_children t, hst]
              exact hrec
          · rintro ⟨t, ht, hn, hty, hrec⟩
            refine ⟨sortShape (treeShape t),
              (mem_sortedShapeF F _).mpr ⟨t, ht, rfl⟩, ?_, ?_, ?_⟩
            · rw [sortShape_name, treeShape_name]
              exact hn
            · rw [sortShape_ty, treeShape_ty]
              exact hty
            · rw [sortShape_treeShape_children t]
              exact (ih _ ty).mpr hrec

theorem shapeLe_trans : ∀ (a b c : Shape),
    shapeLe a b → shapeLe b c → shapeLe a c :=
  fun a b c hab hbc => charListLe_trans _ _ _ hab hbc

theorem shapeLe_total : ∀ (a b : Shape), shapeLe a b || shapeLe b a := by
  intro a b
  rcases charListLe_total a.name.data b.name.data with h | h
  · simp [shapeLe, h]
  · simp [shapeLe, h]

theorem childLe_trans : ∀ (a b c : String × JTrie),
    childLe a b → childLe b c → childLe a c :=
  fun a b c hab hbc => charListLe_trans _ _ _ hab hbc

theorem childLe_total : ∀ (a b : String × JTrie), childLe a b || childLe b a := by
  intro a b
  rcases charListLe_total a.1.data b.1.data with h | h
  · simp [childLe, h]
  · simp [childLe, h]

theorem sortedShapeF_WF :
    ∀ (pre : String) (lvl : Nat) (F : List TreeNode), WFe pre lvl F →
      ShapeWF pre (sortedShapeF F) := by
  intro pre lvl F h
  induction h with
  | mk pre lvl F h1 h2 h3 h4 h5 h6 ih =>
      refine ShapeWF.mk _ _ ?_ ?_ ?_ ?_
      · have hsorted : (sortedShapeF F).Pairwise (fun a b => shapeLe a b = true) :=
          List.sorted_mergeSort shapeLe_trans shapeLe_total
            (F.map fun t => sortShape (treeShape t))
        have hne : (sortedShapeF F).Pairwise
            (fun a b => a.name.data ≠ b.name.data) := by
          refine ((List.mergeSort_perm (F.map fun t => sortShape (treeShape t))
            shapeLe).pairwise_iff ?_).mpr ?_
          · intro x y hxy hEq
            exact hxy hEq.symm
          · rw [List.pairwise_map]
            refine h1.imp ?_
            intro a b hab hEq
            apply hab
            have h9 : (sortShape (treeShape a)).name =
                (sortShape (treeShape b)).name := String.ext hEq
            rw [sortShape_name, sortShape_name, treeShape_name, treeShape_name] at h9
            exact h9
        refine (hsorted.and hne).imp ?_
        intro a b hab
        exact charListLt_of_le_of_ne _ _ hab.1 hab.2
      · intro s hs
        obtain ⟨t, ht, hst⟩ := (mem_sortedShapeF F s).mp hs
        rw [← hst, sortShape_path, treeShape_path, sortShape_name, treeShape_name]
        exact h2 t ht
      · intro s hs hty
        obtain ⟨t, ht, hst⟩ := (mem_sortedShapeF F s).mp hs
        rw [← hst] at hty ⊢
        rw [sortShape_ty, treeShape_ty] at hty
        rw [sortShape_treeShape_children, h5 t ht hty]
        exact sortedShapeF_nil
      · intro s hs
        obtain ⟨t, ht, hst⟩ := (mem_sortedShapeF F s).mp hs
        rw [← hst, sortShape_treeShape_children, sortShape_name, treeShape_name]
        cases hc : t.children with
        | none =>
            simp only [Option.getD_none]
            rw [sortedShapeF_nil]
            exact swf_nil _
        | some l =>
            simp only [Option.getD_some]
            exact ih t ht l hc

theorem toNodes_mem (cs : List (String × JTrie)) (lvl : Nat) (x : TreeNode) :
    x ∈ toNodes cs lvl ↔ ∃ kt ∈ cs,
      TreeNode.mk kt.2.name kt.2.path kt.2.ty lvl none
        (if kt.2.ty = NodeType.folder then some (toNodes kt.2.children (lvl + 1))
         else none) = x := by
  rw [toNodes_eq, List.mem_map]
  constructor
  · rintro ⟨kt, hkt, h⟩
    exact ⟨kt, (List.mergeSort_perm cs childLe).mem_iff.mp hkt, h⟩
  · rintro ⟨kt, hkt, h⟩
    exact ⟨kt, (List.mergeSort_perm cs childLe).mem_iff.mpr hkt, h⟩

theorem tshape_name (kt : String × JTrie) (lvl : Nat) :
    (stripShape (treeShape (TreeNode.mk kt.2.name kt.2.path kt.2.ty lvl none
      (if kt.2.ty = NodeType.folder then some (toNodes kt.2.children (lvl + 1))
       else none)))).name = kt.2.name := by
  rw [stripShape_name, treeShape_name]
  rfl

theorem tshape_ty (kt : String × JTrie) (lvl : Nat) :
    (stripShape (treeShape (TreeNode.mk kt.2.name kt.2.path kt.2.ty lvl none
      (if kt.2.ty = NodeType.folder then some (toNodes kt.2.children (lvl + 1))
       else none)))).ty = kt.2.ty := by
  rw [stripShape_ty, treeShape_ty]
  rfl

theorem tshape_path (kt : String × JTrie) (lvl : Nat) :
    (stripShape (treeShape (TreeNode.mk kt.2.name kt.2.path kt.2.ty lvl none
      (if kt.2.ty = NodeType.folder then some (toNodes kt.2.children (lvl + 1))
       else none)))).path = stripSlash kt.2.path := by
  rw [stripShape_path, treeShape_path]
  rfl

theorem tshape_children_folder (kt : String × JTrie) (lvl : Nat)
    (h : kt.2.ty = NodeType.folder) :
    (stripShape (treeShape (TreeNode.mk kt.2.name kt.2.path kt.2.ty lvl none
      (if kt.2.ty = NodeType.folder then some (toNodes kt.2.children (lvl + 1))
       else none)))).children =
      (toNodes kt.2.children (lvl + 1)).map (fun t => stripShape (treeShape t)) := by
  rw [h, if_pos (rfl : NodeType.folder = NodeType.folder)]
  rw [treeShape_some, stripShape_mk]
  simp only [Shape.children]
  rw [List.map_map]
  rfl

theorem tshape_children_file (kt : String × JTrie) (lvl : Nat)
    (h : kt.2.ty = NodeType.file) :
    (stripShape (treeShape (TreeNode.mk kt.2.name kt.2.path kt.2.ty lvl none
      (if kt.2.ty = NodeType.folder then some (toNodes kt.2.children (lvl + 1))
       else none)))).children = [] := by
  rw [h, if_neg (by intro h2; cases h2)]
  rw [treeShape_none, stripShape_mk]
  simp only [Shape.children]
  rfl

theorem toNodes_shape_has :
    ∀ (q : List String) (pre : String) (cs : List (String × JTrie)), WFt pre cs →
      ∀ (lvl : Nat) (ty : NodeType),
        hasShape ((toNodes cs lvl).map fun t => stripShape (treeShape t)) q ty ↔
          hasTrie cs q ty := by
  intro q
  induction q with
  | nil => intro pre cs _ lvl ty; rw [hasShape_nil_iff, hasTrie_nil_iff]
  | cons q1 qt ih =>
      intro pre cs hwft lvl ty
      cases qt with
      | nil =>
          rw [hasShape_single_iff, hasTrie_single_iff]
          constructor
          · rintro ⟨s, hs, hn, hty⟩
            obtain ⟨x, hx, hxs⟩ := List.mem_map.mp hs
            obtain ⟨kt, hkt, hnode⟩ := (toNodes_mem cs lvl x).mp hx
            have hsn : s.name = kt.2.name := by
              rw [← hxs, ← hnode]
              exact tshape_name kt lvl
            have hst : s.ty = kt.2.ty := by
              rw [← hxs, ← hnode]
              exact tshape_ty kt lvl
            have hkey : kt.2.name = kt.1 := wft_name hwft kt hkt
            have h9 : q1 = kt.1 := by rw [← hn, hsn, hkey]
            refine ⟨kt.2, ?_, by rw [← hst]; exact hty⟩
            rw [h9]
            exact hkt
          · rintro ⟨t, htmem, hty⟩
            have hname : t.name = q1 := wft_name hwft (q1, t) htmem
            refine ⟨stripShape (treeShape (TreeNode.mk t.name t.path t.ty lvl none
              (if t.ty = NodeType.folder then some (toNodes t.children (lvl + 1))
               else none))), ?_, ?_, ?_⟩
            · refine List.mem_map.mpr ⟨_, (toNodes_mem cs lvl _).mpr
                ⟨(q1, t), htmem, rfl⟩, rfl⟩
            · rw [tshape_name (q1, t) lvl]
              exact hname
            · rw [tshape_ty (q1, t) lvl]
              exact hty
      | cons q2 qr =>
          rw [hasShape_deep_iff, hasTrie_deep_iff]
          constructor
          · rintro ⟨s, hs, hn, hty, hrec⟩
            obtain ⟨x, hx, hxs⟩ := List.mem_map.mp hs
            obtain ⟨kt, hkt, hnode⟩ := (toNodes_mem cs lvl x).mp hx
            have hsn : s.name = kt.2.name := by
              rw [← hxs, ← hnode]
              exact tshape_name kt lvl
            have hst : s.ty = kt.2.ty := by
              rw [← hxs, ← hnode]
              exact tshape_ty kt lvl
            have htyf : kt.2.ty = NodeType.folder := by rw [← hst, hty]
            have hchil : s.children =
                (toNodes kt.2.children (lvl + 1)).map
                  (fun t => stripShape (treeShape t)) := by
              rw [← hxs, ← hnode]
              exact tshape_children_folder kt lvl htyf
            have hkey : kt.2.name = kt.1 := wft_name hwft kt hkt
            have h9 : q1 = kt.1 := by rw [← hn, hsn, hkey]
            refine ⟨kt.2, ?_, htyf, ?_⟩
            · rw [h9]
              exact hkt
            · rw [← ih (joinAgg pre kt.1) kt.2.children (wft_rec hwft kt hkt)
                (lvl + 1) ty, ← hchil]
              exact hrec
          · rintro ⟨t, htmem, htyf, hrec⟩
            have hname : t.name = q1 := wft_name hwft (q1, t) htmem
            refine ⟨stripShape (treeShape (TreeNode.mk t.name t.path t.ty lvl none
              (if t.ty = NodeType.folder then some (toNodes t.children (lvl + 1))
               else none))), ?_, ?_, ?_, ?_⟩
            · refine List.mem_map.mpr ⟨_, (toNodes_mem cs lvl _).mpr
                ⟨(q1, t), htmem, rfl⟩, rfl⟩
            · rw [tshape_name (q1, t) lvl]
              exact hname
            · rw [tshape_ty (q1, t) lvl]
              exact htyf
            · rw [tshape_children_folder (q1, t) lvl htyf]
              exact (ih (joinAgg pre q1) t.children
                (wft_rec hwft (q1, t) htmem) (lvl + 1) ty).mpr hrec

theorem toNodes_shape_WF :
    ∀ (pre : String) (cs : List (String × JTrie)), WFt pre cs →
      ∀ lvl, ShapeWF pre ((toNodes cs lvl).map fun t => stripShape (treeShape t)) := by
  intro pre cs h
  induction h with
  | mk pre cs h1 h2 h3 h4 ih =>
      intro lvl
      refine ShapeWF.mk _ _ ?_ ?_ ?_ ?_
      · rw [toNodes_eq, List.map_map]
        have hsorted : (cs.mergeSort childLe).Pairwise
            (fun a b => childLe a b = true) :=
          List.sorted_mergeSort childLe_trans childLe_total cs
        have hne : (cs.mergeSort childLe).Pairwise (fun a b => a.1 ≠ b.1) := by
          refine ((List.mergeSort_perm cs childLe).pairwise_iff ?_).mpr h1
          intro x y hxy hEq
          exact hxy hEq.symm
        have hbase : (cs.mergeSort childLe).Pairwise
            (fun a b => charListLt a.2.name.data b.2.name.data = true) := by
          refine List.Pairwise.imp_of_mem ?_ (hsorted.and hne)
          intro a b ha hb hab
          have hka : a.2.name = a.1 :=
            h2 a ((List.mergeSort_perm cs childLe).mem_iff.mp ha)
          have hkb : b.2.name = b.1 :=
            h2 b ((List.mergeSort_perm cs childLe).mem_iff.mp hb)
          rw [hka, hkb]
          refine charListLt_of_le_of_ne _ _ hab.1 ?_
          intro hEq
          exact hab.2 (String.ext hEq)
        refine List.Pairwise.map _ ?_ hbase
        intro a b hab
        simp only [Function.comp]
        rw [tshape_name a lvl, tshape_name b lvl]
        exact hab
      · intro s hs
        obtain ⟨x, hx, hxs⟩ := List.mem_map.mp hs
        obtain ⟨kt, hkt, hnode⟩ := (toNodes_mem cs lvl x).mp hx
        rw [← hxs, ← hnode, tshape_path kt lvl, tshape_name kt lvl,
          h3 kt hkt, stripSlash_slash, h2 kt hkt]
      · intro s hs hty
        obtain ⟨x, hx, hxs⟩ := List.mem_map.mp hs
        obtain ⟨kt, hkt, hnode⟩ := (toNodes_mem cs lvl x).mp hx
        have hst : s.ty = kt.2.ty := by
          rw [← hxs, ← hnode]
          exact tshape_ty kt lvl
        have htyf : kt.2.ty = NodeType.file := by rw [← hst, hty]
        rw [← hxs, ← hnode]
        exact tshape_children_file kt lvl htyf
      · intro s hs
        obtain ⟨x, hx, hxs⟩ := List.mem_map.mp hs
        obtain ⟨kt, hkt, hnode⟩ := (toNodes_mem cs lvl x).mp hx
        cases hty2 : kt.2.ty with
        | folder =>
            rw [← hxs, ← hnode, tshape_name kt lvl,
              tshape_children_folder kt lvl hty2, h2 kt hkt]
            exact ih kt hkt (lvl + 1)
        | file =>
            rw [← hxs, ← hnode, tshape_name kt lvl,
              tshape_children_file kt lvl hty2]
            exact swf_nil _

theorem shapeWF_pairwise_ne {pre : String} {C : List Shape} (h : ShapeWF pre C) :
    C.Pairwise (fun a b => a.name ≠ b.name) :=
  (swf_sorted h).imp (fun hlt hEq => charListLt_ne _ _ hlt (congrArg String.data hEq))

theorem shapeWF_descend (pre : String) (C : List Shape) (h : ShapeWF pre C)
    (s : Shape) (hs : s ∈ C) (hf : s.ty = NodeType.folder) :
    ∀ (a : String) (b : List String) (ty : NodeType),
      hasShape C (s.name :: a :: b) ty ↔ hasShape s.children (a :: b) ty := by
  intro a b ty
  rw [hasShape_deep_iff]
  constructor
  · rintro ⟨s2, hs2, hn2, _, hrec⟩
    have hEq : s2 = s :=
      pairwise_key_unique Shape.name C (shapeWF_pairwise_ne h) s2 hs2 s hs hn2
    rw [hEq] at hrec
    exact hrec
  · intro hrec
    exact ⟨s, hs, rfl, hf, hrec⟩

/-- A canonical shape forest is determined by its presence set: two
well-formed (strictly name-sorted) shape forests over the same prefix
with the same node set are equal. -/
theorem shapeWF_unique :
    ∀ (pre : String) (C1 : List Shape), ShapeWF pre C1 →
      ∀ (C2 : List Shape), ShapeWF pre C2 →
        (∀ q ty, hasShape C1 q ty ↔ hasShape C2 q ty) → C1 = C2 := by
  intro pre C1 h
  induction h with
  | mk pre C1 h1 h2 h3 h4 ih =>
      intro C2 hw2 hiff
      have hC1 : ShapeWF pre C1 := ShapeWF.mk pre C1 h1 h2 h3 h4
      have hmatch : ∀ s ∈ C1, ∀ s' ∈ C2, s'.name = s.name → s'.ty = s.ty →
          s = s' := by
        intro s hs s' hs2 hn2 hty2
        have hp2 : s'.path = s.path := by
          rw [swf_path hw2 s' hs2, h2 s hs, hn2]
        have hch : s.children = s'.children := by
          by_cases hfile : s.ty = NodeType.file
          · rw [h3 s hs hfile, swf_file hw2 s' hs2 (by rw [hty2]; exact hfile)]
          · have hfolder : s.ty = NodeType.folder := by
              cases hty0 : s.ty with
              | file => exact absurd hty0 hfile
              | folder => rfl
            have hfolder' : s'.ty = NodeType.folder := by rw [hty2]; exact hfolder
            have hrec2 : ShapeWF (joinAgg pre s.name) s'.children := by
              have h9 := swf_rec hw2 s' hs2
              rw [hn2] at h9
              exact h9
            refine ih s hs s'.children hrec2 ?_
            intro q' ty'
            cases q' with
            | nil => rw [hasShape_nil_iff, hasShape_nil_iff]
            | cons a b =>
                rw [← shapeWF_descend pre C1 hC1 s hs hfolder a b ty', hiff]
                have h9 := shapeWF_descend pre C2 hw2 s' hs2 hfolder' a b ty'
                rw [hn2] at h9
                exact h9
        cases s with
        | mk n p ty ch =>
            cases s' with
            | mk n2 p2 ty2 ch2 =>
                have e1 : n2 = n := hn2
                have e2 : p2 = p := hp2
                have e3 : ty2 = ty := hty2
                have e4 : ch = ch2 := hch
                rw [e1, e2, e3, e4]
      have hforward : ∀ s ∈ C1, s ∈ C2 := by
        intro s hs
        have h01 : hasShape C2 [s.name] s.ty :=
          (hiff _ _).mp ((hasShape_single_iff _ _ _).mpr ⟨s, hs, rfl, rfl⟩)
        obtain ⟨s', hs2, hn', hty'⟩ := (hasShape_single_iff _ _ _).mp h01
        rw [hmatch s hs s' hs2 hn' hty']
        exact hs2
      have hbackward : ∀ s' ∈ C2, s' ∈ C1 := by
        intro s' hs2
        have h01 : hasShape C1 [s'.name] s'.ty :=
          (hiff _ _).mpr ((hasShape_single_iff _ _ _).mpr ⟨s', hs2, rfl, rfl⟩)
        obtain ⟨s, hs, hn', hty'⟩ := (hasShape_single_iff _ _ _).mp h01
        rw [← hmatch s hs s' hs2 hn'.symm hty'.symm]
        exact hs
      refine sorted_mem_eq (fun s => s.name.data) C1 C2 (swf_sorted hC1)
        (swf_sorted hw2) ?_
      intro x
      exact ⟨hforward x, hbackward x⟩

/-- C6 (amended).  The two builders do not produce identical forests —
paths differ by a leading slash, sibling order differs (insertion order
vs. sorted), and the `level`/`supported` bookkeeping differs — and on
overlapping path lists (one path a proper segment-prefix of another)
even the parent–child structure differs.  What holds is: for every
prefix-compatible path list (each path with at least one nonempty
segment, no path's segment list a proper prefix of another's), the
entry-based builder fed the git handlers' path decomposition and the
path-based builder agree up to the canonical shape — recursively
name-sorting the entry forest's siblings and dropping the path-builder's
leading slashes yields the same name/path/type tree with the same
parent–child structure. -/
theorem buildTree_buildTreeFromFilePaths_equiv (paths : List String)
    (h : PathsCompat paths) :
    sortedShapeF (buildTree (pathsToEntries paths)) =
      (buildTreeFromFilePaths paths).map (fun t => stripShape (treeShape t)) := by
  obtain ⟨hwfE, hcharE⟩ := buildTree_WF_hasT paths h
  obtain ⟨hwfT, hcharT⟩ := trie_WF_hasTrie paths h
  have h1 : ShapeWF "" (sortedShapeF (buildTree (pathsToEntries paths))) :=
    sortedShapeF_WF "" 0 _ hwfE
  have h2 : ShapeWF "" ((toNodes (paths.foldl
      (fun cs p => insertSegs "" (segmentsOf p) cs) []) 0).map
      fun t => stripShape (treeShape t)) :=
    toNodes_shape_WF "" _ hwfT 0
  unfold buildTreeFromFilePaths
  refine shapeWF_unique "" _ h1 _ h2 ?_
  intro q ty
  exact (hasShape_sortedShapeF q _ ty).trans ((hcharE q ty).trans
    ((hcharT q ty).symm.trans
      (toNodes_shape_has q "" _ hwfT 0 ty).symm))

/-- Counterexample to C6 as stated: already on the single path list
["a"] the two builders disagree on the stored `path` strings (no
leading slash vs. leading slash), and on the overlapping list
["a", "a/b"] they disagree on the tree structure itself — the
entry-based builder makes two roots (a file "a" and a folder "a"
containing "b") while the path-based builder collapses both paths into
the single reused root node "a". -/
theorem buildTree_buildTreeFromFilePaths_counterexample :
    ((buildTree (pathsToEntries ["a"])).map TreeNode.path = ["a"] ∧
     (buildTreeFromFilePaths ["a"]).map TreeNode.path = ["/a"]) ∧
    ((buildTree (pathsToEntries ["a", "a/b"])).length = 2 ∧
     (buildTreeFromFilePaths ["a", "a/b"]).length = 1) := by
  have hE1entries : pathsToEntries ["a"] =
      [{ type := NodeType.file, name := "a", path := joinAgg "" "a",
         level := 0, supported := some true }] := by
    unfold pathsToEntries pathToEntries
    simp only [List.flatMap_cons, List.flatMap_nil, List.append_nil]
    rw [show segmentsOf "a" = ["a"] from rfl]
    simp only [entriesAux]
  have hE1 : (buildTree (pathsToEntries ["a"])).map TreeNode.path = ["a"] := by
    rw [hE1entries]
    rfl
  have hE2entries : pathsToEntries ["a", "a/b"] =
      [{ type := NodeType.file, name := "a", path := joinAgg "" "a",
         level := 0, supported := some true },
       { type := NodeType.folder, name := "a", path := joinAgg "" "a",
         level := 0, supported := some true },
       { type := NodeType.file, name := "b", path := joinAgg (joinAgg "" "a") "b",
         level := 1, supported := some true }] := by
    unfold pathsToEntries pathToEntries
    simp only [List.flatMap_cons, List.flatMap_nil, List.append_nil]
    rw [show segmentsOf "a" = ["a"] from rfl,
      show segmentsOf "a/b" = ["a", "b"] from rfl]
    simp only [entriesAux]
    rfl
  have hE2 : (buildTree (pathsToEntries ["a", "a/b"])).length = 2 := by
    rw [hE2entries]
    rfl
  have htrie1 : ["a"].foldl (fun cs p => insertSegs "" (segmentsOf p) cs) [] =
      [("a", JTrie.mk "a" ("" ++ "/" ++ "a") NodeType.file
        (insertSegs ("" ++ "/" ++ "a") [] []))] := by
    simp only [List.foldl_cons, List.foldl_nil]
    rw [show segmentsOf "a" = ["a"] from rfl, insertSegs_nil_cs, ite_isEmpty_nil]
  have h1 : (buildTreeFromFilePaths ["a"]).map TreeNode.path = ["/a"] := by
    unfold buildTreeFromFilePaths
    rw [htrie1, toNodes_eq, List.mergeSort_singleton, List.map_cons, List.map_nil,
      List.map_cons, List.map_nil]
    rfl
  have htrie2 : ["a", "a/b"].foldl
      (fun cs p => insertSegs "" (segmentsOf p) cs) [] =
      [("a", JTrie.mk "a" ("" ++ "/" ++ "a") NodeType.file
        [("b", JTrie.mk "b" ("" ++ "/" ++ "a" ++ "/" ++ "b") NodeType.file [])])] := by
    simp only [List.foldl_cons, List.foldl_nil]
    rw [show segmentsOf "a" = ["a"] from rfl,
      show segmentsOf "a/b" = ["a", "b"] from rfl,
      insertSegs_nil_cs, insertSegs_nil_segs, ite_isEmpty_nil,
      insertSegs_cons_hit ("" : String) "a" ["b"] "a" _ [] rfl]
    have hch : (JTrie.mk "a" ("" ++ "/" ++ "a") NodeType.file
        ([] : List (String × JTrie))).children = ([] : List (String × JTrie)) := rfl
    rw [hch, insertSegs_nil_cs, ite_isEmpty_nil, insertSegs_nil_segs]
    rfl
  have h2 : (buildTreeFromFilePaths ["a", "a/b"]).length = 1 := by
    unfold buildTreeFromFilePaths
    rw [htrie2, toNodes_eq, List.mergeSort_singleton, List.map_cons, List.map_nil]
    rfl
  exact ⟨⟨hE1, h1⟩, ⟨hE2, h2⟩⟩

/-- Witness for the amended C6 on the spec's scenario path list. -/
theorem buildTree_buildTreeFromFilePaths_equiv_witness :
    PathsCompat ["src/a.ts", "src/b/c.ts", "readme.md"] ∧
    sortedShapeF (buildTree (pathsToEntries
        ["src/a.ts", "src/b/c.ts", "readme.md"])) =
      (buildTreeFromFilePaths ["src/a.ts", "src/b/c.ts", "readme.md"]).map
        (fun t => stripShape (treeShape t)) :=
  ⟨by (unfold PathsCompat PrefixCompat; decide),
   buildTree_buildTreeFromFilePaths_equiv _
     (by (unfold PathsCompat PrefixCompat; decide))⟩

end Cryptoscope
